import Mathlib

set_option maxHeartbeats 1000000

/-!
Verification of the spintax-editor core: grammar parser, serializer,
variation counter, random renderer, path-addressed tree edits and
undo/redo history, shallowly embedded from the TypeScript sources
(src/lib/yaml/parser, src/lib/spintax/calculator, src/lib/treeUtils,
src/hooks/useSpintaxTree).
-/

/-- The brace characters of the spintax grammar. -/
def lbrace : Char := Char.ofNat 123

def rbrace : Char := Char.ofNat 125

def pipeChar : Char := '|'

/-- Whitespace recognized by JavaScript String.prototype.trim (ASCII part;
the inputs handled by the claims contain no exotic Unicode spaces). -/
def isJsSpace (c : Char) : Bool :=
  c = ' ' || c = '\t' || c = '\n' || c = '\r' || c = '\x0b' || c = '\x0c'

/-- JS String.prototype.trim on a character list. -/
def trimL (l : List Char) : List Char :=
  ((l.dropWhile isJsSpace).reverse.dropWhile isJsSpace).reverse

/-- JS String.prototype.trim. -/
def jsTrim (s : String) : String := ⟨trimL s.data⟩

/-- JS `.replace(/\r\n|\r|\n/g, " ")`. -/
def normalizeNewlines : List Char → List Char
  | [] => []
  | '\r' :: '\n' :: rest => ' ' :: normalizeNewlines rest
  | '\r' :: rest => ' ' :: normalizeNewlines rest
  | '\n' :: rest => ' ' :: normalizeNewlines rest
  | c :: rest => c :: normalizeNewlines rest

/-- JS `str.indexOf(c, start)`, with `none` for -1. -/
def findIdxFrom (s : List Char) (c : Char) (start : Nat) : Option Nat :=
  match (s.drop start).findIdx? (· = c) with
  | some k => some (start + k)
  | none => none

/-- JS `str.substring(i, j)` (only used with i ≤ j in the sources). -/
def substrL (s : List Char) (i j : Nat) : List Char :=
  (s.drop i).take (j - i)

/-- Runtime tree node of the editor (src/types/spintax.ts). The TypeScript
interfaces restrict choice children to option nodes, but at runtime the
nodes are plain JS objects, so every children list can hold any node. -/
inductive SpintaxNode where
  | text (content : String)
  | option (content : String) (children : List SpintaxNode)
  | choice (children : List SpintaxNode)
  | root (children : List SpintaxNode)
  deriving Repr

mutual
/-- Structural decidable equality (deriving cannot handle the nested List). -/
def decEqSpintaxNode : (a b : SpintaxNode) → Decidable (a = b)
  | .text c1, .text c2 =>
      match String.decEq c1 c2 with
      | .isTrue h => .isTrue (by rw [h])
      | .isFalse h => .isFalse (fun he => h (by cases he; rfl))
  | .option c1 l1, .option c2 l2 =>
      match String.decEq c1 c2, decEqSpintaxNodeList l1 l2 with
      | .isTrue h1, .isTrue h2 => .isTrue (by rw [h1, h2])
      | .isFalse h1, _ => .isFalse (fun he => h1 (by cases he; rfl))
      | _, .isFalse h2 => .isFalse (fun he => h2 (by cases he; rfl))
  | .choice l1, .choice l2 =>
      match decEqSpintaxNodeList l1 l2 with
      | .isTrue h => .isTrue (by rw [h])
      | .isFalse h => .isFalse (fun he => h (by cases he; rfl))
  | .root l1, .root l2 =>
      match decEqSpintaxNodeList l1 l2 with
      | .isTrue h => .isTrue (by rw [h])
      | .isFalse h => .isFalse (fun he => h (by cases he; rfl))
  | .text _, .option _ _ => .isFalse (fun h => SpintaxNode.noConfusion h)
  | .text _, .choice _ => .isFalse (fun h => SpintaxNode.noConfusion h)
  | .text _, .root _ => .isFalse (fun h => SpintaxNode.noConfusion h)
  | .option _ _, .text _ => .isFalse (fun h => SpintaxNode.noConfusion h)
  | .option _ _, .choice _ => .isFalse (fun h => SpintaxNode.noConfusion h)
  | .option _ _, .root _ => .isFalse (fun h => SpintaxNode.noConfusion h)
  | .choice _, .text _ => .isFalse (fun h => SpintaxNode.noConfusion h)
  | .choice _, .option _ _ => .isFalse (fun h => SpintaxNode.noConfusion h)
  | .choice _, .root _ => .isFalse (fun h => SpintaxNode.noConfusion h)
  | .root _, .text _ => .isFalse (fun h => SpintaxNode.noConfusion h)
  | .root _, .option _ _ => .isFalse (fun h => SpintaxNode.noConfusion h)
  | .root _, .choice _ => .isFalse (fun h => SpintaxNode.noConfusion h)

def decEqSpintaxNodeList : (a b : List SpintaxNode) → Decidable (a = b)
  | [], [] => .isTrue rfl
  | [], _ :: _ => .isFalse (fun h => List.noConfusion h)
  | _ :: _, [] => .isFalse (fun h => List.noConfusion h)
  | a :: as, b :: bs =>
      match decEqSpintaxNode a b, decEqSpintaxNodeList as bs with
      | .isTrue h1, .isTrue h2 => .isTrue (by rw [h1, h2])
      | .isFalse h1, _ => .isFalse (fun he => h1 (by cases he; rfl))
      | _, .isFalse h2 => .isFalse (fun he => h2 (by cases he; rfl))
end

instance : DecidableEq SpintaxNode := decEqSpintaxNode

/-- JS Array.prototype.join("|"), as used for a choice's options. -/
def joinBar : List String → String
  | [] => ""
  | [s] => s
  | s :: rest => s ++ "|" ++ joinBar rest

mutual
/-- src/lib/spintax/calculator.ts generateSpintax (node non-null cases). -/
def generateSpintax : SpintaxNode → String
  | .text content => content
  | .option content children => content ++ generateConcat children
  | .choice children =>
      if children.isEmpty then "\x7b\x7d"
      else "\x7b" ++ joinBar (generateEach children) ++ "\x7d"
  | .root children => generateConcat children

/-- `children.map(generateSpintax).join("")`. -/
def generateConcat : List SpintaxNode → String
  | [] => ""
  | c :: rest => generateSpintax c ++ generateConcat rest

/-- `children.map(generateSpintax)`. -/
def generateEach : List SpintaxNode → List String
  | [] => []
  | c :: rest => generateSpintax c :: generateEach rest
end

/-- generateSpintax including the `if (!node) return ""` guard. -/
def generateSpintaxOpt : Option SpintaxNode → String
  | none => ""
  | some n => generateSpintax n

/-- Result of calculateVariations: a JS number that is either a nonnegative
integer or Infinity. -/
inductive VarCount where
  | num (n : Nat)
  | inf
  deriving DecidableEq, Repr

def MAX_VARIATIONS : Nat := 1000000

mutual
/-- calculator.ts calculateVariations, the switch over a non-null node. -/
def calcNode : SpintaxNode → VarCount
  | .text _ => .num 1
  | .option _ children => optionLoop children 1
  | .choice children =>
      if children.isEmpty then .num 1
      else
        match choiceLoop children 0 with
        | .inf => .inf
        | .num total => if total = 0 then .num 1 else .num total
  | .root children =>
      if children.isEmpty then .num 1
      else rootLoop children 1

/-- The `for` loop of the "option" case (multiplicative, early Infinity). -/
def optionLoop : List SpintaxNode → Nat → VarCount
  | [], acc => .num acc
  | child :: rest, acc =>
      match calcNode child with
      | .inf => .inf
      | .num cv =>
          if acc * cv > MAX_VARIATIONS then .inf else optionLoop rest (acc * cv)

/-- The `for` loop of the "choice" case (additive, early Infinity). -/
def choiceLoop : List SpintaxNode → Nat → VarCount
  | [], acc => .num acc
  | child :: rest, acc =>
      match calcNode child with
      | .inf => .inf
      | .num cv =>
          if acc + cv > MAX_VARIATIONS then .inf else choiceLoop rest (acc + cv)

/-- The `for` loop of the "root" case (multiplicative, early Infinity). -/
def rootLoop : List SpintaxNode → Nat → VarCount
  | [], acc => .num acc
  | child :: rest, acc =>
      match calcNode child with
      | .inf => .inf
      | .num cv =>
          if acc * cv > MAX_VARIATIONS then .inf else rootLoop rest (acc * cv)
end

/-- calculateVariations including the null/undefined guard. -/
def calculateVariations : Option SpintaxNode → VarCount
  | none => .num 1
  | some n => calcNode n

/-- Advances the abstract stream of random draws by one. -/
def shiftPicks (s : Nat → Nat) : Nat → Nat := fun n => s (n + 1)

mutual
/-- calculator.ts generateRandomVariant. Each Math.random() draw is
abstracted as the option index it selects: `s k` is the index chosen by the
(k+1)-th draw (`Math.floor(Math.random() * len)` always lies in [0, len));
an out-of-range index is still handled because the source guards
`chosenOption ? ... : ""`. Returns the rendered string together with the
stream of draws that remain. -/
def generateRandomVariant : SpintaxNode → (Nat → Nat) → String × (Nat → Nat)
  | .text content, s => (content, s)
  | .option content children, s =>
      let r := randomConcat children s
      (content ++ r.1, r.2)
  | .choice children, s =>
      if children.isEmpty then ("", s)
      else
        if h : s 0 < children.length then
          generateRandomVariant (children.get ⟨s 0, h⟩) (shiftPicks s)
        else ("", shiftPicks s)
  | .root children, s => randomConcat children s
termination_by n _ => sizeOf n
decreasing_by
  all_goals simp_wf
  all_goals try omega
  all_goals have h1 : sizeOf children[s 0] < sizeOf children :=
    List.sizeOf_lt_of_mem (List.getElem_mem h)
  all_goals have h2 : sizeOf (children.get ⟨s 0, h⟩) = sizeOf children[s 0] := rfl
  all_goals omega

/-- `children.map(generateRandomVariant).join("")` with the draw stream
threaded left to right. -/
def randomConcat : List SpintaxNode → (Nat → Nat) → String × (Nat → Nat)
  | [], s => ("", s)
  | c :: rest, s =>
      let r1 := generateRandomVariant c s
      let r2 := randomConcat rest r1.2
      (r1.1 ++ r2.1, r2.2)
termination_by l _ => sizeOf l
decreasing_by
  all_goals simp_wf <;> omega
end

mutual
/-- The tree with every choice collapsed to the node selected by the draw
stream (an out-of-range draw collapses to empty text, like the source's
guard; a childless choice renders as empty text). -/
def collapseChoices : SpintaxNode → (Nat → Nat) → SpintaxNode × (Nat → Nat)
  | .text content, s => (.text content, s)
  | .option content children, s =>
      let r := collapseList children s
      (.option content r.1, r.2)
  | .choice children, s =>
      if children.isEmpty then (.text "", s)
      else
        if h : s 0 < children.length then
          collapseChoices (children.get ⟨s 0, h⟩) (shiftPicks s)
        else (.text "", shiftPicks s)
  | .root children, s =>
      let r := collapseList children s
      (.root r.1, r.2)
termination_by n _ => sizeOf n
decreasing_by
  all_goals simp_wf
  all_goals try omega
  all_goals have h1 : sizeOf children[s 0] < sizeOf children :=
    List.sizeOf_lt_of_mem (List.getElem_mem h)
  all_goals have h2 : sizeOf (children.get ⟨s 0, h⟩) = sizeOf children[s 0] := rfl
  all_goals omega

def collapseList : List SpintaxNode → (Nat → Nat) → List SpintaxNode × (Nat → Nat)
  | [], s => ([], s)
  | c :: rest, s =>
      let r1 := collapseChoices c s
      let r2 := collapseList rest r1.2
      (r1.1 :: r2.1, r2.2)
termination_by l _ => sizeOf l
decreasing_by
  all_goals simp_wf <;> omega
end

/-- parser.ts parseOptionContent: how a scanned text segment is added to the
option under construction (first nonempty text becomes the content, later
nonempty texts become text children). -/
def pushOptionText (content : String) (children : List SpintaxNode)
    (tc : String) : String × List SpintaxNode :=
  if tc = "" then (content, children)
  else if children.isEmpty && content = "" then (tc, children)
  else (content, children ++ [.text tc])

/-- Final clean-up step of parseOptionContent: with a nonempty content, a
trailing text child whose content is empty is popped. -/
def popTrailingEmptyText (c2 : String) (l : List SpintaxNode) : SpintaxNode :=
  if c2 ≠ "" && !l.isEmpty then
    match l.getLast? with
    | some (SpintaxNode.text t) => if t = "" then .option c2 l.dropLast else .option c2 l
    | _ => .option c2 l
  else .option c2 l

/-- parser.ts parseOptionContent clean-up phase: trim the content, trim text
children and drop the empty ones, fold a single text child into an empty
content, pop a trailing empty text child. -/
def cleanupOption (content : String) (children : List SpintaxNode) :
    SpintaxNode :=
  let content1 := if content = "" then content else jsTrim content
  let mapped := children.map fun c =>
    match c with
    | .text tc => if tc = "" then c else SpintaxNode.text (jsTrim tc)
    | other => other
  let filtered := mapped.filter fun c =>
    match c with
    | .text tc => tc ≠ ""
    | _ => true
  if content1 = "" then
    match filtered with
    | [SpintaxNode.text tc] => .option tc []
    | l => popTrailingEmptyText content1 l
  else popTrailingEmptyText content1 filtered

mutual
/-- parser.ts parseOptionContent: scan [startIndex, endIndex) for text and
nested choices, then clean up. The fuel decreases on every loop step and
nested call; parseSpintax supplies more fuel than the source loops can
consume. -/
def parseOptionContent (fuel : Nat) (str : List Char)
    (startIndex endIndex : Nat) : SpintaxNode :=
  match fuel with
  | 0 => .option "" []
  | fuel + 1 =>
      let r := pocLoop fuel str endIndex startIndex "" []
      cleanupOption r.1 r.2
termination_by structural fuel

/-- The while loop of parseOptionContent. -/
def pocLoop (fuel : Nat) (str : List Char) (endIndex pi : Nat)
    (content : String) (children : List SpintaxNode) :
    String × List SpintaxNode :=
  match fuel with
  | 0 => (content, children)
  | fuel + 1 =>
      if pi < endIndex then
        let nextBrace :=
          match findIdxFrom str lbrace pi with
          | some b => if b < endIndex then some b else none
          | none => none
        match nextBrace with
        | none =>
            pushOptionText content children ⟨normalizeNewlines (substrL str pi endIndex)⟩
        | some nb =>
            let st := pushOptionText content children ⟨normalizeNewlines (substrL str pi nb)⟩
            match parseChoice fuel str nb with
            | (some cs, ei) => pocLoop fuel str endIndex ei st.1 (st.2 ++ [.choice cs])
            | (none, _) => pocLoop fuel str endIndex (nb + 1) st.1 st.2
      else (content, children)
termination_by structural fuel

/-- parser.ts parseChoice: on success (a matching closing brace was found)
returns the children of the parsed choice and the index after the brace;
returns none when the start is invalid or the choice is unterminated — in
the unterminated branch the source builds a recovery option and pushes it
into the local choice, but that choice is discarded because `success` is
false, so only (none, endIndex) is observable. -/
def parseChoice (fuel : Nat) (str : List Char) (startIndex : Nat) :
    Option (List SpintaxNode) × Nat :=
  match fuel with
  | 0 => (none, startIndex + 1)
  | fuel + 1 =>
      if startIndex + 1 ≥ str.length ∨ str.get? startIndex ≠ some lbrace then
        (none, startIndex + 1)
      else pcLoop fuel str (startIndex + 1) (startIndex + 1) 1 []
termination_by structural fuel

/-- The while loop of parseChoice; depth is braceDepth. The loop exits with
success exactly when a closing brace is met at depth 1. -/
def pcLoop (fuel : Nat) (str : List Char) (i optionStart depth : Nat)
    (children : List SpintaxNode) : Option (List SpintaxNode) × Nat :=
  match fuel with
  | 0 => (none, i)
  | fuel + 1 =>
      match str.get? i with
      | none => (none, i)
      | some c =>
          if c = lbrace then pcLoop fuel str (i + 1) optionStart (depth + 1) children
          else if c = rbrace then
            if depth = 1 then
              (some (children ++ [parseOptionContent fuel str optionStart i]), i + 1)
            else pcLoop fuel str (i + 1) optionStart (depth - 1) children
          else if c = pipeChar ∧ depth = 1 then
            pcLoop fuel str (i + 1) (i + 1) depth
              (children ++ [parseOptionContent fuel str optionStart i])
          else pcLoop fuel str (i + 1) optionStart depth children
termination_by structural fuel
end

/-- The while loop of parser.ts parseSpintax. -/
def psLoop (fuel : Nat) (s : List Char) (currentIndex : Nat)
    (acc : List SpintaxNode) : List SpintaxNode :=
  match fuel with
  | 0 => acc
  | fuel + 1 =>
      if currentIndex < s.length then
        match findIdxFrom s lbrace currentIndex with
        | none =>
            let remaining : String := ⟨normalizeNewlines (substrL s currentIndex s.length)⟩
            if remaining = "" then acc else acc ++ [.text remaining]
        | some nb =>
            let acc1 :=
              if nb > currentIndex then
                let tb : String := ⟨normalizeNewlines (substrL s currentIndex nb)⟩
                if tb = "" then acc else acc ++ [.text tb]
              else acc
            match parseChoice fuel s nb with
            | (some cs, ei) =>
                let acc2 := if cs.length > 0 then acc1 ++ [.choice cs] else acc1
                psLoop fuel s ei acc2
            | (none, _) => psLoop fuel s (nb + 1) (acc1 ++ [.text "\x7b"])
      else acc

/-- parser.ts parseSpintax. The fuel (length+2)^2 exceeds the total number
of scanning steps the source loops can take on the input. -/
def parseSpintax (textIn : String) : SpintaxNode :=
  if textIn = "" then .root []
  else
    let s := trimL textIn.data
    .root (psLoop ((s.length + 2) * (s.length + 2)) s 0 [])

/-- One entry of a TS SpintaxPath, which is an array of strings and
numbers. Paths built by the application alternate the property name
"children" with a numeric index. -/
inductive PathElem where
  | s (v : String)
  | n (k : Int)
  deriving DecidableEq, Repr

/-- The children array of a node, none for a text node (which has no
`children` property). -/
def nodeChildren? : SpintaxNode → Option (List SpintaxNode)
  | .text _ => none
  | .option _ cs => some cs
  | .choice cs => some cs
  | .root cs => some cs

/-- `parent.type === "root" || "choice" || "option"` check used by the edit
operations. -/
def isContainer : SpintaxNode → Bool
  | .text _ => false
  | _ => true

/-- lib/treeUtils.ts getNodeByPathInDraft. An odd-length path fails (the JS
reads `children[undefined]`), as does a property entry other than the
string "children", a missing children array, or an out-of-range index. A
non-numeric entry in an index position is modeled as a failed lookup (the
application only ever builds paths of shape ["children", i, ...]). -/
def getNodeByPath : SpintaxNode → List PathElem → Option SpintaxNode
  | node, [] => some node
  | _, [_] => none
  | node, propE :: idxE :: rest =>
      if propE = PathElem.s "children" then
        match nodeChildren? node with
        | none => none
        | some cs =>
            match idxE with
            | .n k =>
                if h : 0 ≤ k ∧ k.toNat < cs.length then
                  getNodeByPath (cs.get ⟨k.toNat, h.2⟩) rest
                else none
            | .s _ => none
      else none

/-- Replaces the children list of a node, keeping everything else. -/
def withChildren : SpintaxNode → List SpintaxNode → SpintaxNode
  | .text c, _ => .text c
  | .option c _, cs => .option c cs
  | .choice _, cs => .choice cs
  | .root _, cs => .root cs

/-- Applies f to the children list of the node addressed by the path — the
functional form of the Immer draft mutation `parent.children = ...`
performed after getNodeByPathInDraft succeeded. Identity when the path does
not resolve (the callers validate it first). -/
def modifyChildrenAt : SpintaxNode → List PathElem → (List SpintaxNode → List SpintaxNode) → SpintaxNode
  | node, [], f =>
      match nodeChildren? node with
      | some cs => withChildren node (f cs)
      | none => node
  | node, [_], _ => node
  | node, propE :: idxE :: rest, f =>
      if propE = PathElem.s "children" then
        match nodeChildren? node with
        | none => node
        | some cs =>
            match idxE with
            | .n k =>
                if h : 0 ≤ k ∧ k.toNat < cs.length then
                  withChildren node
                    (cs.set k.toNat (modifyChildrenAt (cs.get ⟨k.toNat, h.2⟩) rest f))
                else node
            | .s _ => node
      else node

/-- The newNodeOrFn argument of updateNode: either a replacement node or an
updater receiving the current node at the path (none if unresolved) and
returning the replacement (none aborts the update). -/
inductive UpdateArg where
  | node (nn : SpintaxNode)
  | fn (f : Option SpintaxNode → Option SpintaxNode)

/-- hooks/useSpintaxTree.ts updateNode: the pure transformation performed on
the tree inside setTree (produce plus catch), returning the new tree and
the message reported through setError, if any. An updater returning null
aborts with no change and no reported error (the source only warns). -/
def updateNodePure (tree : SpintaxNode) (path : List PathElem)
    (arg : UpdateArg) : SpintaxNode × Option String :=
  if path.isEmpty then
    let updated :=
      match arg with
      | .node nn => some nn
      | .fn f => f (some tree)
    match updated with
    | none => (tree, none)
    | some u =>
        match u with
        | .root cs => (.root cs, none)
        | _ => (tree, some "Error updating node: Cannot replace root with non-root node")
  else
    let newNode? :=
      match arg with
      | .node nn => some nn
      | .fn f => f (getNodeByPath tree path)
    match newNode? with
    | none => (tree, none)
    | some newNode =>
        match path.reverse with
        | idxE :: propE :: restRev =>
            let parentPath := restRev.reverse
            match getNodeByPath tree parentPath with
            | some parent =>
                if propE = PathElem.s "children" ∧ isContainer parent then
                  match nodeChildren? parent with
                  | some cs =>
                      match idxE with
                      | .n k =>
                          if 0 ≤ k ∧ k.toNat < cs.length then
                            (modifyChildrenAt tree parentPath (fun l => l.set k.toNat newNode), none)
                          else
                            (tree, some "Error updating node: Invalid target location for node update: Index out of bounds")
                      | .s _ =>
                          (tree, some "Error updating node: Invalid target location for node update: Index out of bounds")
                  | none =>
                      (tree, some "Error updating node: Invalid target location for node update")
                else (tree, some "Error updating node: Invalid target location for node update")
            | none => (tree, some "Error updating node: Invalid target location for node update")
        | _ => (tree, some "Error updating node: Invalid target location for node update")

/-- hooks/useSpintaxTree.ts deleteNode: the pure transformation inside
setTree, after the `path.length < 2` guard handled by the caller. -/
def deleteNodePure (tree : SpintaxNode) (path : List PathElem) :
    SpintaxNode × Option String :=
  match path.reverse with
  | idxE :: propE :: restRev =>
      let parentPath := restRev.reverse
      match getNodeByPath tree parentPath with
      | some parent =>
          if propE = PathElem.s "children" ∧ isContainer parent then
            match nodeChildren? parent with
            | some cs =>
                match idxE with
                | .n k =>
                    if 0 ≤ k ∧ k.toNat < cs.length then
                      (modifyChildrenAt tree parentPath (fun l => l.eraseIdx k.toNat), none)
                    else
                      (tree, some "Error deleting node: Invalid target location for node deletion: Index out of bounds")
                | .s _ =>
                    (tree, some "Error deleting node: Invalid target location for node deletion: Index out of bounds")
            | none =>
                (tree, some "Error deleting node: Invalid target location for node deletion")
          else (tree, some "Error deleting node: Invalid target location for node deletion")
      | none => (tree, some "Error deleting node: Invalid target location for node deletion")
  | _ => (tree, some "Error deleting node: Invalid target location for node deletion")

/-- hooks/useSpintaxTree.ts addNode: the pure transformation inside setTree,
after the `!path || path.length < 2 || !newNode` guard handled by the
caller. The target index is clamped into [0, children.length]; no check is
made on the type of the inserted node versus the parent's kind. -/
def addNodePure (tree : SpintaxNode) (path : List PathElem)
    (newNode : SpintaxNode) : SpintaxNode × Option String :=
  match path.reverse with
  | idxE :: propE :: restRev =>
      let parentPath := restRev.reverse
      match getNodeByPath tree parentPath with
      | some parent =>
          if propE = PathElem.s "children" ∧ isContainer parent then
            match nodeChildren? parent with
            | some cs =>
                let target : Int :=
                  match idxE with
                  | .n k => k
                  | .s _ => 0
                let validIndex : Nat := (max 0 (min target (cs.length : Int))).toNat
                (modifyChildrenAt tree parentPath (fun l => l.insertIdx validIndex newNode), none)
            | none =>
                (tree, some "Error adding node: Invalid target location for node addition")
          else (tree, some "Error adding node: Invalid target location for node addition")
      | none => (tree, some "Error adding node: Invalid target location for node addition")
  | _ => (tree, some "Error adding node: Invalid target location for node addition")

/-- The tree-plus-history state of the useSpintaxTree hook. -/
structure EditorState where
  tree : SpintaxNode
  history : List SpintaxNode
  redoStack : List SpintaxNode
  deriving DecidableEq, Repr

def MAX_HISTORY_SIZE : Nat := 50

/-- hooks/useSpintaxTree.ts addToHistory: prepend the pre-mutation tree,
keep at most MAX_HISTORY_SIZE entries, clear the redo stack. -/
def addToHistory (st : EditorState) (prevTree : SpintaxNode) : EditorState :=
  { st with history := (prevTree :: st.history).take MAX_HISTORY_SIZE,
            redoStack := [] }

/-- A mutating operation of the hook. -/
inductive EditOp where
  | update (path : List PathElem) (arg : UpdateArg)
  | del (path : List PathElem)
  | add (path : List PathElem) (newNode : SpintaxNode)

/-- One mutating call of the hook: updateNode pushes the snapshot before
attempting the update; deleteNode and addNode first run their path-length
guard (returning with only setError, no snapshot), then push the snapshot
and attempt the mutation. Returns the new state and the reported error. -/
def applyOp (st : EditorState) (op : EditOp) : EditorState × Option String :=
  match op with
  | .update path arg =>
      let st1 := addToHistory st st.tree
      let r := updateNodePure st.tree path arg
      ({ st1 with tree := r.1 }, r.2)
  | .del path =>
      if path.length < 2 then (st, some "Cannot delete root node")
      else
        let st1 := addToHistory st st.tree
        let r := deleteNodePure st.tree path
        ({ st1 with tree := r.1 }, r.2)
  | .add path newNode =>
      if path.length < 2 then (st, some "Invalid path or node")
      else
        let st1 := addToHistory st st.tree
        let r := addNodePure st.tree path newNode
        ({ st1 with tree := r.1 }, r.2)

/-- hooks/useSpintaxTree.ts undo. -/
def undoState (st : EditorState) : EditorState :=
  match st.history with
  | [] => st
  | prev :: rest =>
      { tree := prev, history := rest, redoStack := st.tree :: st.redoStack }

/-- hooks/useSpintaxTree.ts redo. -/
def redoState (st : EditorState) : EditorState :=
  match st.redoStack with
  | [] => st
  | nxt :: rest =>
      { tree := nxt, history := st.tree :: st.history, redoStack := rest }

/-- hooks/useSpintaxTree.ts deleteNode at the tree level, including the
`!path || path.length < 2` guard (which reports "Cannot delete root node"
without touching the tree). -/
def deleteNodeOp (tree : SpintaxNode) (path : List PathElem) :
    SpintaxNode × Option String :=
  if path.length < 2 then (tree, some "Cannot delete root node")
  else deleteNodePure tree path

/-- hooks/useSpintaxTree.ts addNode at the tree level, including the
path-length guard. -/
def addNodeOp (tree : SpintaxNode) (path : List PathElem)
    (newNode : SpintaxNode) : SpintaxNode × Option String :=
  if path.length < 2 then (tree, some "Invalid path or node")
  else addNodePure tree path newNode

mutual
/-- True when the tree holds no choice node. -/
def noChoice : SpintaxNode → Bool
  | .text _ => true
  | .option _ cs => noChoiceList cs
  | .choice _ => false
  | .root cs => noChoiceList cs

def noChoiceList : List SpintaxNode → Bool
  | [] => true
  | c :: rest => noChoice c && noChoiceList rest
end

/-- True for an option node. -/
def isOptionNode : SpintaxNode → Bool
  | .option _ _ => true
  | _ => false

mutual
/-- Every choice node in the tree has a nonempty children list consisting
exclusively of option nodes. -/
def choicesWellFormed : SpintaxNode → Bool
  | .text _ => true
  | .option _ cs => choicesWellFormedList cs
  | .choice cs => !cs.isEmpty && cs.all isOptionNode && choicesWellFormedList cs
  | .root cs => choicesWellFormedList cs

def choicesWellFormedList : List SpintaxNode → Bool
  | [] => true
  | c :: rest => choicesWellFormed c && choicesWellFormedList rest
end

/-- A tower of n nested binary choices: each level is a choice between two
options whose bodies hold the next level. -/
def nestedBinaryChoice : Nat → SpintaxNode
  | 0 => .text "a"
  | k + 1 => .choice [.option "" [nestedBinaryChoice k], .option "" [nestedBinaryChoice k]]

/-- Paths of the shape the application builds: alternating the property
string with a numeric index. On these the embedding of path resolution
matches the JS semantics exactly. -/
def wellFormedPath : List PathElem → Bool
  | [] => true
  | PathElem.s _ :: PathElem.n _ :: rest => wellFormedPath rest
  | _ => false

/-- C1: parseSpintax "Hello {world|there}!" yields exactly
Root[Text "Hello ", Choice[Option "world", Option "there"], Text "!"],
calculateVariations of that tree is 2, and generateSpintax reproduces the
original string. -/
theorem C1_hello_example :
    parseSpintax "Hello \x7bworld|there\x7d!" =
      .root [.text "Hello ",
             .choice [.option "world" [], .option "there" []],
             .text "!"]
    ∧ calculateVariations (some (parseSpintax "Hello \x7bworld|there\x7d!")) = .num 2
    ∧ generateSpintax (parseSpintax "Hello \x7bworld|there\x7d!") =
        "Hello \x7bworld|there\x7d!" := by
  decide

/-- C4 (divergence evidence): parsing "{a|b" does not produce any choice
node — parseChoice discards the recovery choice it builds for an
unterminated block (success is false, so choiceNode is null), and
parseSpintax instead emits the literal "{" and re-scans the remainder as
plain text. -/
theorem C4_unterminated_choice_discarded :
    parseSpintax "\x7ba|b" = .root [.text "\x7b", .text "a|b"]
    ∧ noChoice (parseSpintax "\x7ba|b") = true := by
  decide

/-- C5 (divergence evidence): addNode accepts a text node as a direct child
of a choice node — the insertion at path ["children",0,"children",0] into
Root[Choice[Option "a", Option "b"]] succeeds with no error and yields a
choice whose first child is a text node. -/
theorem C5_addNode_inserts_text_into_choice :
    addNodeOp (.root [.choice [.option "a" [], .option "b" []]])
        [.s "children", .n 0, .s "children", .n 0] (.text "x")
      = (.root [.choice [.text "x", .option "a" [], .option "b" []]], none) := by
  decide

theorem noChoiceList_mem : ∀ (cs : List SpintaxNode), noChoiceList cs = true →
    ∀ x ∈ cs, noChoice x = true := by
  intro cs
  induction cs with
  | nil => intro _ x hx; cases hx
  | cons c rest ih =>
      intro h x hx
      simp only [noChoiceList, Bool.and_eq_true] at h
      rcases List.mem_cons.mp hx with rfl | hmem
      · exact h.1
      · exact ih h.2 x hmem

theorem optionLoop_bound (cs : List SpintaxNode)
    (hm : ∀ c ∈ cs, calcNode c = .inf ∨
      ∃ k, calcNode c = .num k ∧ 1 ≤ k ∧ k ≤ MAX_VARIATIONS) :
    ∀ acc : Nat, 1 ≤ acc → acc ≤ MAX_VARIATIONS →
    optionLoop cs acc = .inf ∨
      ∃ k, optionLoop cs acc = .num k ∧ 1 ≤ k ∧ k ≤ MAX_VARIATIONS := by
  induction cs with
  | nil => intro acc h1 h2; right; exact ⟨acc, rfl, h1, h2⟩
  | cons c rest ih =>
      intro acc h1 h2
      rcases hm c (List.mem_cons_self c rest) with hinf | ⟨cv, hcv, hcv1, hcv2⟩
      · left; rw [optionLoop, hinf]
      · rw [optionLoop, hcv]
        by_cases hgt : acc * cv > MAX_VARIATIONS
        · left; simp [hgt]
        · simp only [hgt, if_false]
          exact ih (fun x hx => hm x (List.mem_cons_of_mem c hx)) (acc * cv)
            (by nlinarith) (Nat.le_of_not_lt hgt)

theorem rootLoop_bound (cs : List SpintaxNode)
    (hm : ∀ c ∈ cs, calcNode c = .inf ∨
      ∃ k, calcNode c = .num k ∧ 1 ≤ k ∧ k ≤ MAX_VARIATIONS) :
    ∀ acc : Nat, 1 ≤ acc → acc ≤ MAX_VARIATIONS →
    rootLoop cs acc = .inf ∨
      ∃ k, rootLoop cs acc = .num k ∧ 1 ≤ k ∧ k ≤ MAX_VARIATIONS := by
  induction cs with
  | nil => intro acc h1 h2; right; exact ⟨acc, rfl, h1, h2⟩
  | cons c rest ih =>
      intro acc h1 h2
      rcases hm c (List.mem_cons_self c rest) with hinf | ⟨cv, hcv, hcv1, hcv2⟩
      · left; rw [rootLoop, hinf]
      · rw [rootLoop, hcv]
        by_cases hgt : acc * cv > MAX_VARIATIONS
        · left; simp [hgt]
        · simp only [hgt, if_false]
          exact ih (fun x hx => hm x (List.mem_cons_of_mem c hx)) (acc * cv)
            (by nlinarith) (Nat.le_of_not_lt hgt)

theorem choiceLoop_bound (cs : List SpintaxNode)
    (hm : ∀ c ∈ cs, calcNode c = .inf ∨
      ∃ k, calcNode c = .num k ∧ 1 ≤ k ∧ k ≤ MAX_VARIATIONS) :
    ∀ acc : Nat, acc ≤ MAX_VARIATIONS →
    choiceLoop cs acc = .inf ∨
      ∃ k, choiceLoop cs acc = .num k ∧ acc + cs.length ≤ k ∧ k ≤ MAX_VARIATIONS := by
  induction cs with
  | nil => intro acc h2; right; exact ⟨acc, rfl, by simp, h2⟩
  | cons c rest ih =>
      intro acc h2
      rcases hm c (List.mem_cons_self c rest) with hinf | ⟨cv, hcv, hcv1, hcv2⟩
      · left; rw [choiceLoop, hinf]
      · rw [choiceLoop, hcv]
        by_cases hgt : acc + cv > MAX_VARIATIONS
        · left; simp [hgt]
        · simp only [hgt, if_false]
          rcases ih (fun x hx => hm x (List.mem_cons_of_mem c hx)) (acc + cv)
              (Nat.le_of_not_lt hgt) with hinf2 | ⟨k, hk, hk1, hk2⟩
          · left; exact hinf2
          · right; exact ⟨k, hk, by simp only [List.length_cons]; omega, hk2⟩

/-- For every runtime tree, calculateVariations is Infinity or an integer in
[1, 1000000]. -/
theorem calcNode_bound : (n : SpintaxNode) →
    calcNode n = .inf ∨ ∃ k, calcNode n = .num k ∧ 1 ≤ k ∧ k ≤ MAX_VARIATIONS
  | .text _ => Or.inr ⟨1, rfl, Nat.le_refl 1, by norm_num [MAX_VARIATIONS]⟩
  | .option c cs => by
      have ih : ∀ x ∈ cs, calcNode x = .inf ∨
          ∃ k, calcNode x = .num k ∧ 1 ≤ k ∧ k ≤ MAX_VARIATIONS :=
        fun x hx => calcNode_bound x
      simpa [calcNode] using
        optionLoop_bound cs ih 1 (Nat.le_refl 1) (by norm_num [MAX_VARIATIONS])
  | .choice cs => by
      have ih : ∀ x ∈ cs, calcNode x = .inf ∨
          ∃ k, calcNode x = .num k ∧ 1 ≤ k ∧ k ≤ MAX_VARIATIONS :=
        fun x hx => calcNode_bound x
      by_cases hemp : cs.isEmpty
      · right; exact ⟨1, by simp [calcNode, hemp], Nat.le_refl 1, by norm_num [MAX_VARIATIONS]⟩
      · rcases choiceLoop_bound cs ih 0 (Nat.zero_le _) with hinf | ⟨k, hk, hk1, hk2⟩
        · left; simp [calcNode, hemp, hinf]
        · have hlen : cs.length ≠ 0 := by
            intro h0
            exact hemp (by simpa [List.isEmpty_iff, List.length_eq_zero] using h0)
          have hk0 : k ≠ 0 := by omega
          right
          exact ⟨k, by simp [calcNode, hemp, hk, hk0], by omega, hk2⟩
  | .root cs => by
      have ih : ∀ x ∈ cs, calcNode x = .inf ∨
          ∃ k, calcNode x = .num k ∧ 1 ≤ k ∧ k ≤ MAX_VARIATIONS :=
        fun x hx => calcNode_bound x
      by_cases hemp : cs.isEmpty
      · right; exact ⟨1, by simp [calcNode, hemp], Nat.le_refl 1, by norm_num [MAX_VARIATIONS]⟩
      · have := rootLoop_bound cs ih 1 (Nat.le_refl 1) (by norm_num [MAX_VARIATIONS])
        simpa [calcNode, hemp] using this
termination_by n => sizeOf n
decreasing_by
  all_goals simp_wf
  all_goals have := List.sizeOf_lt_of_mem hx
  all_goals omega

theorem optionLoop_all_ones (cs : List SpintaxNode)
    (hm : ∀ c ∈ cs, calcNode c = .num 1) :
    ∀ acc : Nat, acc ≤ MAX_VARIATIONS → optionLoop cs acc = .num acc := by
  induction cs with
  | nil => intro acc _; rfl
  | cons c rest ih =>
      intro acc h2
      rw [optionLoop, hm c (List.mem_cons_self c rest)]
      have hno : ¬ acc > MAX_VARIATIONS := by omega
      simp only [Nat.mul_one, hno, if_false]
      exact ih (fun x hx => hm x (List.mem_cons_of_mem c hx)) acc h2

theorem rootLoop_all_ones (cs : List SpintaxNode)
    (hm : ∀ c ∈ cs, calcNode c = .num 1) :
    ∀ acc : Nat, acc ≤ MAX_VARIATIONS → rootLoop cs acc = .num acc := by
  induction cs with
  | nil => intro acc _; rfl
  | cons c rest ih =>
      intro acc h2
      rw [rootLoop, hm c (List.mem_cons_self c rest)]
      have hno : ¬ acc > MAX_VARIATIONS := by omega
      simp only [Nat.mul_one, hno, if_false]
      exact ih (fun x hx => hm x (List.mem_cons_of_mem c hx)) acc h2

/-- A tree without choice nodes always counts exactly one variation. -/
theorem calcNode_noChoice : (n : SpintaxNode) → noChoice n = true →
    calcNode n = .num 1
  | .text _, _ => rfl
  | .option c cs, h => by
      have hcs : noChoiceList cs = true := by simpa [noChoice] using h
      have ih : ∀ x ∈ cs, calcNode x = .num 1 :=
        fun x hx => calcNode_noChoice x (noChoiceList_mem cs hcs x hx)
      have := optionLoop_all_ones cs ih 1 (by norm_num [MAX_VARIATIONS])
      simpa [calcNode] using this
  | .choice cs, h => by simp [noChoice] at h
  | .root cs, h => by
      have hcs : noChoiceList cs = true := by simpa [noChoice] using h
      have ih : ∀ x ∈ cs, calcNode x = .num 1 :=
        fun x hx => calcNode_noChoice x (noChoiceList_mem cs hcs x hx)
      by_cases hemp : cs.isEmpty
      · simp [calcNode, hemp]
      · have := rootLoop_all_ones cs ih 1 (by norm_num [MAX_VARIATIONS])
        simpa [calcNode, hemp] using this
termination_by n => sizeOf n
decreasing_by
  all_goals simp_wf
  all_goals have := List.sizeOf_lt_of_mem hx
  all_goals omega

theorem nestedBinaryChoice_pow : ∀ k : Nat, k ≤ 19 →
    calcNode (nestedBinaryChoice k) = .num (2 ^ k) := by
  intro k
  induction k with
  | zero => intro _; rfl
  | succ k ih =>
      intro hk
      have e1 : calcNode (nestedBinaryChoice k) = .num (2 ^ k) := ih (by omega)
      have hsucc : 2 ^ (k + 1) = 2 ^ k + 2 ^ k := by
        rw [Nat.pow_succ]; omega
      have hpow : 2 ^ (k + 1) ≤ 1000000 :=
        le_trans (Nat.pow_le_pow_right (by norm_num) hk) (by norm_num)
      have hpowk : 2 ^ k ≤ 1000000 := by omega
      have hoptc : calcNode (SpintaxNode.option "" [nestedBinaryChoice k]) = .num (2 ^ k) := by
        have c1 : ¬ 2 ^ k > MAX_VARIATIONS := by
          simp only [MAX_VARIATIONS]; omega
        simp only [calcNode, optionLoop, e1, Nat.one_mul, c1, if_false]
      have c2 : ¬ 0 + 2 ^ k > MAX_VARIATIONS := by
        simp only [MAX_VARIATIONS]; omega
      have c3 : ¬ (0 + 2 ^ k) + 2 ^ k > MAX_VARIATIONS := by
        simp only [MAX_VARIATIONS]; omega
      have c4 : (0 + 2 ^ k) + 2 ^ k ≠ 0 := by
        have := Nat.pos_pow_of_pos k (show 0 < 2 by norm_num)
        omega
      rw [nestedBinaryChoice]
      rw [show calcNode
            (SpintaxNode.choice [SpintaxNode.option "" [nestedBinaryChoice k],
              SpintaxNode.option "" [nestedBinaryChoice k]]) =
          match choiceLoop [SpintaxNode.option "" [nestedBinaryChoice k],
              SpintaxNode.option "" [nestedBinaryChoice k]] 0 with
          | .inf => .inf
          | .num total => if total = 0 then .num 1 else .num total from rfl]
      rw [choiceLoop, hoptc]
      simp only [c2, if_false]
      rw [choiceLoop, hoptc]
      simp only [c3, if_false]
      rw [choiceLoop]
      all_goals simp only [c4, if_false]
      all_goals congr 1
      all_goals omega

theorem nestedBinaryChoice20_inf :
    calcNode (nestedBinaryChoice 20) = .inf := by
  have e19 : calcNode (nestedBinaryChoice 19) = .num (2 ^ 19) :=
    nestedBinaryChoice_pow 19 (Nat.le_refl 19)
  have hoptc : calcNode (SpintaxNode.option "" [nestedBinaryChoice 19]) = .num (2 ^ 19) := by
    have c1 : ¬ 2 ^ 19 > MAX_VARIATIONS := by norm_num [MAX_VARIATIONS]
    have e0 : calcNode (SpintaxNode.option "" [nestedBinaryChoice 19]) =
        optionLoop [nestedBinaryChoice 19] 1 := rfl
    rw [e0, optionLoop, e19]
    simp only [Nat.one_mul, c1, if_false]
    rfl
  have c2 : ¬ 0 + 2 ^ 19 > MAX_VARIATIONS := by norm_num [MAX_VARIATIONS]
  have c3 : (0 + 2 ^ 19) + 2 ^ 19 > MAX_VARIATIONS := by norm_num [MAX_VARIATIONS]
  rw [show nestedBinaryChoice 20 =
      SpintaxNode.choice [SpintaxNode.option "" [nestedBinaryChoice 19],
        SpintaxNode.option "" [nestedBinaryChoice 19]] from rfl]
  rw [show calcNode
        (SpintaxNode.choice [SpintaxNode.option "" [nestedBinaryChoice 19],
          SpintaxNode.option "" [nestedBinaryChoice 19]]) =
      match choiceLoop [SpintaxNode.option "" [nestedBinaryChoice 19],
          SpintaxNode.option "" [nestedBinaryChoice 19]] 0 with
      | .inf => .inf
      | .num total => if total = 0 then .num 1 else .num total from rfl]
  rw [choiceLoop, hoptc]
  simp only [c2, if_false]
  rw [choiceLoop, hoptc]
  simp only [c3, if_true]

/-- C3: for every tree (hence in particular every tree parseSpintax
produces), calculateVariations is either an integer in [1, 1000000] or the
Infinity sentinel; it is 1 whenever the tree holds no choice node; and on a
tower of 20 nested binary choices it is Infinity. -/
theorem C3_variation_count_range :
    (∀ n : SpintaxNode, calculateVariations (some n) = .inf ∨
      ∃ k, calculateVariations (some n) = .num k ∧ 1 ≤ k ∧ k ≤ 1000000)
    ∧ (∀ n : SpintaxNode, noChoice n = true →
        calculateVariations (some n) = .num 1)
    ∧ calculateVariations (some (nestedBinaryChoice 20)) = .inf := by
  refine ⟨fun n => ?_, fun n h => ?_, ?_⟩
  · simpa [calculateVariations, MAX_VARIATIONS] using calcNode_bound n
  · simpa [calculateVariations] using calcNode_noChoice n h
  · simpa [calculateVariations] using nestedBinaryChoice20_inf

/-- Witness for C3 at concrete inputs. -/
theorem C3_variation_count_range_witness :
    calculateVariations (some (.text "hi")) = .num 1 :=
  C3_variation_count_range.2.1 (.text "hi") (by decide)

/-- C10: for every input whatsoever — none (null/undefined) or an arbitrary
hand-built tree — calculateVariations returns at least 1 (the counts are
naturals, so negative values cannot occur), and for a choice node with a
nonempty children list the summation loop never returns 0, so the
`total === 0 ? 1 : total` fallback can only take the else branch. -/
theorem C10_variations_at_least_one :
    (∀ node : Option SpintaxNode, calculateVariations node = .inf ∨
      ∃ k, calculateVariations node = .num k ∧ 1 ≤ k)
    ∧ (∀ cs : List SpintaxNode, cs ≠ [] → choiceLoop cs 0 ≠ .num 0) := by
  constructor
  · intro node
    match node with
    | none => exact Or.inr ⟨1, rfl, Nat.le_refl 1⟩
    | some n =>
        rcases calcNode_bound n with hinf | ⟨k, hk, hk1, _⟩
        · exact Or.inl (by simpa [calculateVariations] using hinf)
        · exact Or.inr ⟨k, by simpa [calculateVariations] using hk, hk1⟩
  · intro cs hne
    rcases choiceLoop_bound cs (fun x _ => calcNode_bound x) 0 (Nat.zero_le _) with
      hinf | ⟨k, hk, hk1, _⟩
    · rw [hinf]; intro h; cases h
    · have hlen : 1 ≤ cs.length := by
        cases cs with
        | nil => exact absurd rfl hne
        | cons a l => simp
      rw [hk]
      intro h
      have : k = 0 := by cases h; rfl
      omega

/-- Witness for C10 at a concrete input. -/
theorem C10_variations_at_least_one_witness :
    choiceLoop [SpintaxNode.text "a"] 0 ≠ .num 0 :=
  C10_variations_at_least_one.2 [SpintaxNode.text "a"] (by decide)

mutual
/-- A random rendering equals the serialization of the tree with every
choice collapsed to the node the same draws select. -/
theorem genRV_collapse : (n : SpintaxNode) → (s : Nat → Nat) →
    generateRandomVariant n s =
      (generateSpintax (collapseChoices n s).1, (collapseChoices n s).2)
  | .text c, s => by
      simp [generateRandomVariant, collapseChoices, generateSpintax]
  | .option c cs, s => by
      have ihl := genRVList_collapse cs s
      simp [generateRandomVariant, collapseChoices, generateSpintax, ihl]
  | .choice cs, s => by
      by_cases hemp : cs.isEmpty
      · simp [generateRandomVariant, collapseChoices, hemp, generateSpintax]
      · by_cases hlt : s 0 < cs.length
        · have ih := genRV_collapse (cs.get ⟨s 0, hlt⟩) (shiftPicks s)
          simp only [List.get_eq_getElem] at ih
          simp [generateRandomVariant, collapseChoices, hemp, hlt, ih]
        · simp [generateRandomVariant, collapseChoices, hemp, hlt, generateSpintax]
  | .root cs, s => by
      have ihl := genRVList_collapse cs s
      simp [generateRandomVariant, collapseChoices, generateSpintax, ihl]
termination_by n _ => sizeOf n
decreasing_by
  all_goals simp_wf
  all_goals try omega
  all_goals have h1 : sizeOf cs[s 0] < sizeOf cs :=
    List.sizeOf_lt_of_mem (List.getElem_mem hlt)
  all_goals have h2 : sizeOf (cs.get ⟨s 0, hlt⟩) = sizeOf cs[s 0] := rfl
  all_goals omega

theorem genRVList_collapse : (cs : List SpintaxNode) → (s : Nat → Nat) →
    randomConcat cs s =
      (generateConcat (collapseList cs s).1, (collapseList cs s).2)
  | [], s => by simp [randomConcat, collapseList, generateConcat]
  | c :: rest, s => by
      have ih1 := genRV_collapse c s
      have ih2 := genRVList_collapse rest (collapseChoices c s).2
      simp [randomConcat, collapseList, generateConcat, ih1, ih2]
termination_by cs _ => sizeOf cs
decreasing_by
  all_goals simp_wf
  all_goals omega
end

/-- C8: a random rendering always equals generateSpintax of the tree with
every choice collapsed to the node selected by the draws (for the in-range
draws the source can produce, that node is the selected option child); a
childless choice renders as the empty string; and every sample drawn from
the tree parsed from "{A|B|C}" lies in {"A","B","C"}. -/
theorem C8_random_variant_member :
    (∀ (n : SpintaxNode) (s : Nat → Nat),
        generateRandomVariant n s =
          (generateSpintax (collapseChoices n s).1, (collapseChoices n s).2))
    ∧ (∀ s : Nat → Nat, (generateRandomVariant (.choice []) s).1 = "")
    ∧ (∀ s : Nat → Nat, s 0 < 3 →
        (generateRandomVariant (parseSpintax "\x7bA|B|C\x7d") s).1 ∈
          (["A", "B", "C"] : List String)) := by
  refine ⟨genRV_collapse, fun s => by simp [generateRandomVariant], fun s hs => ?_⟩
  have hp : parseSpintax "\x7bA|B|C\x7d" =
      .root [.choice [.option "A" [], .option "B" [], .option "C" []]] := by decide
  rw [hp]
  have h3 : s 0 = 0 ∨ s 0 = 1 ∨ s 0 = 2 := by omega
  rcases h3 with h0 | h0 | h0 <;>
    simp [generateRandomVariant, randomConcat, h0]

/-- Witness for C8 at a concrete draw stream. -/
theorem C8_random_variant_member_witness :
    (generateRandomVariant (parseSpintax "\x7bA|B|C\x7d") (fun _ => 1)).1 ∈
      (["A", "B", "C"] : List String) :=
  C8_random_variant_member.2.2 (fun _ => 1) (by decide)

def editTargetValid (tree : SpintaxNode) (path : List PathElem) : Bool :=
  match path.reverse with
  | PathElem.n k :: propE :: restRev =>
      decide (propE = PathElem.s "children") &&
      (match getNodeByPath tree restRev.reverse with
       | some parent =>
           match nodeChildren? parent with
           | some cs => decide (0 ≤ k) && decide (k.toNat < cs.length)
           | none => false
       | none => false)
  | _ => false

theorem updateNodePure_invalid_fst (tree : SpintaxNode) (path : List PathElem)
    (arg : UpdateArg) (hne : path ≠ []) (hv : editTargetValid tree path = false) :
    (updateNodePure tree path arg).1 = tree := by
  rw [updateNodePure.eq_def]
  rw [if_neg (by simpa [List.isEmpty_iff] using hne)]
  cases hnn : (match arg with | .node nn => some nn | .fn f => f (getNodeByPath tree path)) with
  | none => simp [hnn]
  | some newNode =>
      simp only [hnn]
      rcases hrev : path.reverse with _ | ⟨idxE, rest⟩
      · exact absurd (by simpa using congrArg List.reverse hrev) hne
      · rcases rest with _ | ⟨propE, restRev⟩
        · simp
        · simp only [editTargetValid, hrev] at hv
          cases hpar : getNodeByPath tree restRev.reverse with
          | none => simp [hpar]
          | some parent =>
              by_cases hprop : propE = PathElem.s "children" ∧ isContainer parent = true
              · cases hch : nodeChildren? parent with
                | none => simp [hpar, hprop, hch]
                | some cs =>
                    cases idxE with
                    | s v => simp [hpar, hprop, hch]
                    | n k =>
                        simp only [hpar, hch, hprop.1, decide_True, Bool.true_and] at hv
                        have hoob : ¬ (0 ≤ k ∧ k.toNat < cs.length) := by
                          intro ⟨h1, h2⟩
                          simp [h1, h2] at hv
                        simp [hpar, hprop, hch, hoob]
              · simp [hpar, hprop]

theorem updateNodePure_invalid_node (tree : SpintaxNode) (path : List PathElem)
    (nn : SpintaxNode) (hne : path ≠ []) (hv : editTargetValid tree path = false) :
    (updateNodePure tree path (.node nn)).2.isSome = true := by
  rw [updateNodePure.eq_def]
  rw [if_neg (by simpa [List.isEmpty_iff] using hne)]
  simp only [show (match UpdateArg.node nn with
      | UpdateArg.node x => some x
      | UpdateArg.fn f => f (getNodeByPath tree path)) = some nn from rfl]
  rcases hrev : path.reverse with _ | ⟨idxE, rest⟩
  · exact absurd (by simpa using congrArg List.reverse hrev) hne
  · rcases rest with _ | ⟨propE, restRev⟩
    · simp
    · simp only [editTargetValid, hrev] at hv
      cases hpar : getNodeByPath tree restRev.reverse with
      | none => simp [hpar]
      | some parent =>
          by_cases hprop : propE = PathElem.s "children" ∧ isContainer parent = true
          · cases hch : nodeChildren? parent with
            | none => simp [hpar, hprop, hch]
            | some cs =>
                cases idxE with
                | s v => simp [hpar, hprop, hch]
                | n k =>
                    simp only [hpar, hch, hprop.1, decide_True, Bool.true_and] at hv
                    have hoob : ¬ (0 ≤ k ∧ k.toNat < cs.length) := by
                      intro ⟨h1, h2⟩
                      simp [h1, h2] at hv
                    simp [hpar, hprop, hch, hoob]
          · simp [hpar, hprop]

theorem deleteNodeOp_invalid (tree : SpintaxNode) (path : List PathElem)
    (hv : editTargetValid tree path = false) :
    (deleteNodeOp tree path).1 = tree ∧ (deleteNodeOp tree path).2.isSome = true := by
  rw [deleteNodeOp]
  by_cases hlen : path.length < 2
  · simp [hlen]
  · simp only [hlen, if_false]
    rw [deleteNodePure.eq_def]
    rcases hrev : path.reverse with _ | ⟨idxE, rest⟩
    · have : path.length = 0 := by simpa using congrArg List.length hrev
      omega
    · rcases rest with _ | ⟨propE, restRev⟩
      · have : path.length = 1 := by simpa using congrArg List.length hrev
        omega
      · simp only [editTargetValid, hrev] at hv
        cases hpar : getNodeByPath tree restRev.reverse with
        | none => simp [hpar]
        | some parent =>
            by_cases hprop : propE = PathElem.s "children" ∧ isContainer parent = true
            · cases hch : nodeChildren? parent with
              | none => simp [hpar, hprop, hch]
              | some cs =>
                  cases idxE with
                  | s v => simp [hpar, hprop, hch]
                  | n k =>
                      simp only [hpar, hch, hprop.1, decide_True, Bool.true_and] at hv
                      have hoob : ¬ (0 ≤ k ∧ k.toNat < cs.length) := by
                        intro ⟨h1, h2⟩
                        simp [h1, h2] at hv
                      simp [hpar, hprop, hch, hoob]
            · simp [hpar, hprop]

/-- C6: an update or delete addressed by an invalid path — unresolvable
parent, out-of-bounds index, or a delete whose path has length 0 or 1 —
leaves the tree unchanged and reports a failure (for updateNode called with
an updater function the tree is still unchanged; the error is reported for
the replacement-node form, while an updater returning null aborts silently
by design). editTargetValid is false exactly in the claim's invalid cases;
wellFormedPath restricts to the alternating ["children", i, ...] paths the
application builds, on which the embedding is exact. -/
theorem C6_invalid_edits_rejected :
    (∀ (tree : SpintaxNode) (path : List PathElem) (arg : UpdateArg),
        path ≠ [] → wellFormedPath path = true → editTargetValid tree path = false →
        (updateNodePure tree path arg).1 = tree)
    ∧ (∀ (tree : SpintaxNode) (path : List PathElem) (nn : SpintaxNode),
        path ≠ [] → wellFormedPath path = true → editTargetValid tree path = false →
        (updateNodePure tree path (.node nn)).2.isSome = true)
    ∧ (∀ (tree : SpintaxNode) (path : List PathElem),
        path.length < 2 → deleteNodeOp tree path = (tree, some "Cannot delete root node"))
    ∧ (∀ (tree : SpintaxNode) (path : List PathElem),
        wellFormedPath path = true → editTargetValid tree path = false →
        (deleteNodeOp tree path).1 = tree ∧ (deleteNodeOp tree path).2.isSome = true) := by
  refine ⟨fun t p a h1 _ h3 => updateNodePure_invalid_fst t p a h1 h3,
          fun t p nn h1 _ h3 => updateNodePure_invalid_node t p nn h1 h3,
          fun t p h => by simp [deleteNodeOp, h],
          fun t p _ h2 => deleteNodeOp_invalid t p h2⟩

/-- Witness for C6 at concrete inputs: an out-of-bounds update on an empty
root, and a delete addressed at the root. -/
theorem C6_invalid_edits_rejected_witness :
    (updateNodePure (.root []) [PathElem.s "children", PathElem.n 0]
        (.node (.text "x"))).1 = SpintaxNode.root []
    ∧ deleteNodeOp (.root []) [PathElem.s "children"] =
        (SpintaxNode.root [], some "Cannot delete root node") :=
  ⟨C6_invalid_edits_rejected.1 (.root []) [PathElem.s "children", PathElem.n 0]
      (.node (.text "x")) (by decide) (by decide) (by decide),
   C6_invalid_edits_rejected.2.2.1 (.root []) [PathElem.s "children"] (by decide)⟩

theorem undo_redo_after_push (st : EditorState) (t1 : SpintaxNode) :
    (undoState { addToHistory st st.tree with tree := t1 }).tree = st.tree
    ∧ (redoState (undoState { addToHistory st st.tree with tree := t1 })).tree = t1 := by
  have h50 : (st.tree :: st.history).take MAX_HISTORY_SIZE =
      st.tree :: st.history.take 49 := by
    rw [show MAX_HISTORY_SIZE = 49 + 1 from rfl, List.take_succ_cons]
  constructor <;> simp [addToHistory, undoState, redoState, h50]

/-- C7 (counterexample to the claim as stated): an updateNode call that
fails on an out-of-bounds path leaves the tree unchanged and reports an
error, yet still pushes the pre-mutation snapshot onto the undo stack,
because the hook calls addToHistory before attempting the mutation. -/
theorem C7_failed_op_pushes_snapshot :
    (applyOp ⟨.root [], [], []⟩
        (.update [PathElem.s "children", PathElem.n 0] (.node (.text "x")))).1.tree
      = SpintaxNode.root []
    ∧ (applyOp ⟨.root [], [], []⟩
        (.update [PathElem.s "children", PathElem.n 0] (.node (.text "x")))).2.isSome
      = true
    ∧ (applyOp ⟨.root [], [], []⟩
        (.update [PathElem.s "children", PathElem.n 0] (.node (.text "x")))).1.history
      = [SpintaxNode.root []] := by
  decide

/-- C7 (amended): after one successful mutating operation from tree T0
producing T1, undo restores T0 and redo after that restores T1. Snapshots
are pushed before attempting any mutation that passes the initial
path-length guard, so deleteNode/addNode calls rejected by that guard push
nothing — but an operation failing inside the update step still pushes the
unchanged pre-mutation tree (see the counterexample). -/
theorem C7_undo_redo_roundtrip :
    (∀ (st : EditorState) (op : EditOp),
        (applyOp st op).2 = none →
        (undoState (applyOp st op).1).tree = st.tree
        ∧ (redoState (undoState (applyOp st op).1)).tree = (applyOp st op).1.tree)
    ∧ (∀ (st : EditorState) (path : List PathElem),
        path.length < 2 → (applyOp st (.del path)).1 = st)
    ∧ (∀ (st : EditorState) (path : List PathElem) (nn : SpintaxNode),
        path.length < 2 → (applyOp st (.add path nn)).1 = st) := by
  refine ⟨fun st op hsucc => ?_, fun st path h => by simp [applyOp, h],
          fun st path nn h => by simp [applyOp, h]⟩
  match op with
  | .update path arg =>
      exact undo_redo_after_push st (updateNodePure st.tree path arg).1
  | .del path =>
      by_cases hlen : path.length < 2
      · simp [applyOp, hlen] at hsucc
      · simp only [applyOp, hlen, if_false]
        exact undo_redo_after_push st (deleteNodePure st.tree path).1
  | .add path nn =>
      by_cases hlen : path.length < 2
      · simp [applyOp, hlen] at hsucc
      · simp only [applyOp, hlen, if_false]
        exact undo_redo_after_push st (addNodePure st.tree path nn).1

/-- Witness for C7 at a concrete successful mutation. -/
theorem C7_undo_redo_roundtrip_witness :
    (undoState (applyOp ⟨.root [], [], []⟩
        (.add [PathElem.s "children", PathElem.n 0] (.text "hi"))).1).tree
      = SpintaxNode.root []
    ∧ (redoState (undoState (applyOp ⟨.root [], [], []⟩
        (.add [PathElem.s "children", PathElem.n 0] (.text "hi"))).1)).tree
      = (applyOp ⟨.root [], [], []⟩
          (.add [PathElem.s "children", PathElem.n 0] (.text "hi"))).1.tree :=
  C7_undo_redo_roundtrip.1 ⟨.root [], [], []⟩
    (.add [PathElem.s "children", PathElem.n 0] (.text "hi")) (by decide)

theorem choicesWellFormedList_iff (l : List SpintaxNode) :
    choicesWellFormedList l = true ↔ ∀ x ∈ l, choicesWellFormed x = true := by
  induction l with
  | nil => simp [choicesWellFormedList]
  | cons c rest ih =>
      simp only [choicesWellFormedList, Bool.and_eq_true, ih, List.mem_cons]
      constructor
      · rintro ⟨h1, h2⟩ x (rfl | hx)
        · exact h1
        · exact h2 x hx
      · intro hall
        exact ⟨hall c (Or.inl rfl), fun x hx => hall x (Or.inr hx)⟩

theorem pushOptionText_wf (c : String) (ch : List SpintaxNode) (t : String)
    (h : choicesWellFormedList ch = true) :
    choicesWellFormedList (pushOptionText c ch t).2 = true := by
  rw [choicesWellFormedList_iff] at h ⊢
  intro x hx
  unfold pushOptionText at hx
  by_cases h1 : t = ""
  · simp [h1] at hx
    exact h x hx
  · by_cases h2 : ch.isEmpty = true ∧ c = ""
    · simp [h1, h2.1, h2.2] at hx
      exact h x hx
    · have : (if t = "" then (c, ch)
          else if ch.isEmpty && c = "" then (t, ch)
          else (c, ch ++ [SpintaxNode.text t])).2 = ch ++ [SpintaxNode.text t] := by
        rcases Decidable.not_and_iff_or_not.mp h2 with hh | hh <;>
          simp [h1, hh] <;> intros <;> simp_all
      rw [this] at hx
      rcases List.mem_append.mp hx with hx1 | hx1
      · exact h x hx1
      · simp at hx1
        subst hx1
        rfl

theorem popTrailingEmptyText_wf (c2 : String) (l : List SpintaxNode)
    (h : ∀ x ∈ l, choicesWellFormed x = true) :
    isOptionNode (popTrailingEmptyText c2 l) = true ∧
    choicesWellFormed (popTrailingEmptyText c2 l) = true := by
  have hdrop : ∀ x ∈ l.dropLast, choicesWellFormed x = true :=
    fun x hx => h x (List.dropLast_sublist l |>.subset hx)
  unfold popTrailingEmptyText
  split
  · split
    · split
      · exact ⟨rfl, by
          simp only [choicesWellFormed, choicesWellFormedList_iff]
          exact hdrop⟩
      · exact ⟨rfl, by
          simp only [choicesWellFormed, choicesWellFormedList_iff]
          exact h⟩
    · exact ⟨rfl, by
        simp only [choicesWellFormed, choicesWellFormedList_iff]
        exact h⟩
  · exact ⟨rfl, by
      simp only [choicesWellFormed, choicesWellFormedList_iff]
      exact h⟩

theorem cleanupOption_wf (c : String) (ch : List SpintaxNode)
    (h : choicesWellFormedList ch = true) :
    isOptionNode (cleanupOption c ch) = true ∧
    choicesWellFormed (cleanupOption c ch) = true := by
  have hall := (choicesWellFormedList_iff ch).mp h
  have hmap : ∀ x ∈ ch.map (fun c => match c with
      | SpintaxNode.text tc => if tc = "" then c else SpintaxNode.text (jsTrim tc)
      | other => other), choicesWellFormed x = true := by
    intro x hx
    rcases List.mem_map.mp hx with ⟨y, hy, rfl⟩
    have hy2 := hall y hy
    cases y with
    | text tc =>
        by_cases htc : tc = "" <;> simp [htc, choicesWellFormed]
    | option c2 l2 => exact hy2
    | choice l2 => exact hy2
    | root l2 => exact hy2
  unfold cleanupOption
  set fl := (ch.map (fun c => match c with
      | SpintaxNode.text tc => if tc = "" then c else SpintaxNode.text (jsTrim tc)
      | other => other)).filter (fun c => match c with
      | SpintaxNode.text tc => tc ≠ ""
      | _ => true) with hfl
  have hflwf : ∀ x ∈ fl, choicesWellFormed x = true := by
    intro x hx
    exact hmap x (List.mem_of_mem_filter hx)
  by_cases hc1 : (if c = "" then c else jsTrim c) = ""
  · simp only [hc1, if_pos]
    split
    · exact ⟨rfl, by simp [choicesWellFormed, choicesWellFormedList]⟩
    · exact popTrailingEmptyText_wf _ _ hflwf
  · simp only [hc1, if_neg, if_false]
    exact popTrailingEmptyText_wf _ _ hflwf

theorem choicesWellFormedList_append (l1 l2 : List SpintaxNode) :
    choicesWellFormedList (l1 ++ l2) = true ↔
      (choicesWellFormedList l1 = true ∧ choicesWellFormedList l2 = true) := by
  simp only [choicesWellFormedList_iff, List.mem_append]
  constructor
  · intro h
    exact ⟨fun x hx => h x (Or.inl hx), fun x hx => h x (Or.inr hx)⟩
  · rintro ⟨h1, h2⟩ x (hx | hx)
    · exact h1 x hx
    · exact h2 x hx

theorem choicesWellFormed_choice (cs : List SpintaxNode)
    (hne : cs ≠ [])
    (hmem : ∀ x ∈ cs, isOptionNode x = true ∧ choicesWellFormed x = true) :
    choicesWellFormed (.choice cs) = true := by
  have hemp : cs.isEmpty = false := by
    cases cs with
    | nil => exact absurd rfl hne
    | cons a l => rfl
  simp only [choicesWellFormed, Bool.and_eq_true, List.all_eq_true,
    Bool.not_eq_true', choicesWellFormedList_iff]
  exact ⟨⟨hemp, fun x hx => (hmem x hx).1⟩, fun x hx => (hmem x hx).2⟩

theorem parser_wf : ∀ fuel : Nat,
    (∀ str a b, isOptionNode (parseOptionContent fuel str a b) = true ∧
        choicesWellFormed (parseOptionContent fuel str a b) = true)
    ∧ (∀ str endIndex pi content ch,
        choicesWellFormedList ch = true →
        choicesWellFormedList (pocLoop fuel str endIndex pi content ch).2 = true)
    ∧ (∀ str i optionStart depth ch,
        (∀ x ∈ ch, isOptionNode x = true ∧ choicesWellFormed x = true) →
        ∀ cs e, pcLoop fuel str i optionStart depth ch = (some cs, e) →
          cs ≠ [] ∧ ∀ x ∈ cs, isOptionNode x = true ∧ choicesWellFormed x = true)
    ∧ (∀ str i cs e, parseChoice fuel str i = (some cs, e) →
          cs ≠ [] ∧ ∀ x ∈ cs, isOptionNode x = true ∧ choicesWellFormed x = true)
    ∧ (∀ str i acc, choicesWellFormedList acc = true →
          choicesWellFormedList (psLoop fuel str i acc) = true) := by
  intro fuel
  induction fuel with
  | zero =>
      refine ⟨fun str a b => ⟨rfl, rfl⟩, fun str e pi c ch h => h,
              fun str i os d ch hch cs e hpc => ?_,
              fun str i cs e hpc => ?_, fun str i acc hacc => hacc⟩
      · rw [pcLoop] at hpc
        simp at hpc
      · rw [parseChoice] at hpc
        simp at hpc
  | succ fuel ih =>
      obtain ⟨ihA, ihB, ihC, ihD, ihE⟩ := ih
      refine ⟨?_, ?_, ?_, ?_, ?_⟩
      · -- parseOptionContent
        intro str a b
        have hB := ihB str b a "" [] rfl
        have e0 : parseOptionContent (fuel + 1) str a b =
            cleanupOption (pocLoop fuel str b a "" []).1
              (pocLoop fuel str b a "" []).2 := rfl
        rw [e0]
        exact cleanupOption_wf _ _ hB
      · -- pocLoop
        intro str endIndex pi content ch hch
        rw [pocLoop]
        by_cases hlt : pi < endIndex
        · rw [if_pos hlt]
          cases hnb : (match findIdxFrom str lbrace pi with
            | some b => if b < endIndex then some b else none
            | none => none) with
          | none =>
              simp only [hnb]
              have := pushOptionText_wf content ch
                ⟨normalizeNewlines (substrL str pi endIndex)⟩ hch
              exact this
          | some nb =>
              simp only [hnb]
              rcases hpc : parseChoice fuel str nb with ⟨ocs, ei⟩
              cases ocs with
              | none =>
                  simp only [hpc]
                  exact ihB str endIndex (nb + 1) _ _
                    (pushOptionText_wf content ch _ hch)
              | some cs =>
                  simp only [hpc]
                  have hwf2 := pushOptionText_wf content ch
                    ⟨normalizeNewlines (substrL str pi nb)⟩ hch
                  have hcs := ihD str nb cs ei hpc
                  have hchoice : choicesWellFormed (.choice cs) = true :=
                    choicesWellFormed_choice cs hcs.1 hcs.2
                  refine ihB str endIndex ei _ _ ?_
                  rw [choicesWellFormedList_append]
                  exact ⟨hwf2, by
                    simp only [choicesWellFormedList, hchoice, Bool.true_and]⟩
        · rw [if_neg hlt]
          exact hch
      · -- pcLoop
        intro str i os d ch hch cs e hpc
        rw [pcLoop] at hpc
        cases hgi : str.get? i with
        | none =>
            simp only [hgi] at hpc
            simp at hpc
        | some c =>
            simp only [hgi] at hpc
            by_cases h1 : c = lbrace
            · rw [if_pos h1] at hpc
              exact ihC str (i + 1) os (d + 1) ch hch cs e hpc
            · rw [if_neg h1] at hpc
              by_cases h2 : c = rbrace
              · rw [if_pos h2] at hpc
                by_cases h3 : d = 1
                · rw [if_pos h3] at hpc
                  have hcs : ch ++ [parseOptionContent fuel str os i] = cs := by
                    have := congrArg Prod.fst hpc
                    simpa using this
                  subst hcs
                  refine ⟨by simp, ?_⟩
                  intro x hx
                  rcases List.mem_append.mp hx with hx1 | hx1
                  · exact hch x hx1
                  · have hx2 : x = parseOptionContent fuel str os i := by
                      simpa using hx1
                    subst hx2
                    exact ihA str os i
                · rw [if_neg h3] at hpc
                  exact ihC str (i + 1) os (d - 1) ch hch cs e hpc
              · rw [if_neg h2] at hpc
                by_cases h4 : c = pipeChar ∧ d = 1
                · rw [if_pos h4] at hpc
                  refine ihC str (i + 1) (i + 1) d
                    (ch ++ [parseOptionContent fuel str os i]) ?_ cs e hpc
                  intro x hx
                  rcases List.mem_append.mp hx with hx1 | hx1
                  · exact hch x hx1
                  · have hx2 : x = parseOptionContent fuel str os i := by
                      simpa using hx1
                    subst hx2
                    exact ihA str os i
                · rw [if_neg h4] at hpc
                  exact ihC str (i + 1) os d ch hch cs e hpc
      · -- parseChoice
        intro str i cs e hpc
        rw [parseChoice] at hpc
        by_cases hval : i + 1 ≥ str.length ∨ str.get? i ≠ some lbrace
        · rw [if_pos hval] at hpc
          simp at hpc
        · rw [if_neg hval] at hpc
          exact ihC str (i + 1) (i + 1) 1 [] (by simp) cs e hpc
      · -- psLoop
        intro str i acc hacc
        rw [psLoop]
        by_cases hlt : i < str.length
        · rw [if_pos hlt]
          cases hfi : findIdxFrom str lbrace i with
          | none =>
              simp only [hfi]
              by_cases hrem : (⟨normalizeNewlines (substrL str i str.length)⟩ : String) = ""
              · simp only [hrem, if_pos]
                simpa using hacc
              · simp only [hrem, if_neg, if_false]
                rw [choicesWellFormedList_append]
                exact ⟨hacc, rfl⟩
          | some nb =>
              simp only [hfi]
              have hacc1 : choicesWellFormedList
                  (if nb > i then
                    if (⟨normalizeNewlines (substrL str i nb)⟩ : String) = ""
                    then acc
                    else acc ++ [SpintaxNode.text ⟨normalizeNewlines (substrL str i nb)⟩]
                  else acc) = true := by
                by_cases hgt : nb > i
                · by_cases htb : (⟨normalizeNewlines (substrL str i nb)⟩ : String) = ""
                  · simpa [hgt, htb] using hacc
                  · simp only [hgt, htb, if_true, if_neg, if_false]
                    rw [choicesWellFormedList_append]
                    exact ⟨hacc, rfl⟩
                · simpa [hgt] using hacc
              rcases hpc : parseChoice fuel str nb with ⟨ocs, ei⟩
              cases ocs with
              | none =>
                  simp only [hpc]
                  refine ihE str (nb + 1) _ ?_
                  rw [choicesWellFormedList_append]
                  exact ⟨hacc1, rfl⟩
              | some cs =>
                  simp only [hpc]
                  by_cases hlen : cs.length > 0
                  · simp only [hlen, if_pos]
                    refine ihE str ei _ ?_
                    rw [choicesWellFormedList_append]
                    have hcs := ihD str nb cs ei hpc
                    refine ⟨hacc1, ?_⟩
                    simp only [choicesWellFormedList,
                      choicesWellFormed_choice cs hcs.1 hcs.2, Bool.true_and]
                  · simp only [hlen, if_neg, if_false]
                    exact ihE str ei _ hacc1
        · rw [if_neg hlt]
          exact hacc

/-- C9: every tree parseSpintax returns is built only from choice nodes
that carry a nonempty children list consisting exclusively of option nodes
(so in particular every choice has at least one option child): the parser
never emits a zero-option choice. -/
theorem C9_parser_choice_invariant :
    ∀ t : String, choicesWellFormed (parseSpintax t) = true := by
  intro t
  rw [parseSpintax]
  by_cases ht : t = ""
  · rw [if_pos ht]
    rfl
  · rw [if_neg ht]
    exact (parser_wf (((trimL t.data).length + 2) * ((trimL t.data).length + 2))).2.2.2.2
      (trimL t.data) 0 [] rfl

/-! Scan functions describing how the parser's brace-depth tracking behaves
on a character list, used to state and prove the round-trip theorem. -/

/-- Scans characters updating the brace depth (starting inside a choice at
depth d ≥ 1); returns the final depth, or none if a depth-1 `}` or depth-1
`|` is met (the events on which pcLoop ends or splits the current option). -/
def scanOpt : List Char → Nat → Option Nat
  | [], d => some d
  | c :: r, d =>
      if c = lbrace then scanOpt r (d + 1)
      else if c = rbrace then
        (if d = 1 then none else scanOpt r (d - 1))
      else if c = pipeChar ∧ d = 1 then none
      else scanOpt r d

/-- The index of the `}` that brings the depth d down to 0, if any. -/
def scanClose : List Char → Nat → Option Nat
  | [], _ => none
  | c :: r, d =>
      if c = lbrace then (scanClose r (d + 1)).map (· + 1)
      else if c = rbrace then
        (if d = 1 then some 0 else (scanClose r (d - 1)).map (· + 1))
      else (scanClose r d).map (· + 1)

/-- Whether a scan from depth d ever closes (reaches depth 0 at a `}`). -/
def depthCloses (l : List Char) (d : Nat) : Bool :=
  (scanClose l d).isSome

/-- Only the brace characters of a list (depthCloses only depends on it). -/
def bracesOf (l : List Char) : List Char :=
  l.filter (fun c => c = lbrace || c = rbrace)

theorem rbrace_ne_lbrace : rbrace ≠ lbrace := by decide

theorem lbrace_ne_rbrace : lbrace ≠ rbrace := by decide

theorem pipe_ne_lbrace : pipeChar ≠ lbrace := by decide

theorem pipe_ne_rbrace : pipeChar ≠ rbrace := by decide

theorem scanOpt_append (l1 l2 : List Char) (d : Nat) :
    scanOpt (l1 ++ l2) d =
      match scanOpt l1 d with
      | some d1 => scanOpt l2 d1
      | none => none := by
  induction l1 generalizing d with
  | nil => simp [scanOpt]
  | cons c r ih =>
      rw [List.cons_append, scanOpt, scanOpt]
      by_cases h1 : c = lbrace
      · rw [if_pos h1, if_pos h1, ih]
      · rw [if_neg h1, if_neg h1]
        by_cases h2 : c = rbrace
        · rw [if_pos h2, if_pos h2]
          by_cases h3 : d = 1
          · simp [h3]
          · rw [if_neg h3, if_neg h3, ih]
        · rw [if_neg h2, if_neg h2]
          by_cases h4 : c = pipeChar ∧ d = 1
          · simp [h4]
          · rw [if_neg h4, if_neg h4, ih]

theorem isSome_map_succ (o : Option Nat) : (o.map (· + 1)).isSome = o.isSome := by
  cases o <;> rfl

theorem depthCloses_eq_braces (l : List Char) (d : Nat) :
    depthCloses l d = depthCloses (bracesOf l) d := by
  induction l generalizing d with
  | nil => rfl
  | cons c r ih =>
      unfold depthCloses at ih ⊢
      by_cases h1 : c = lbrace
      · rw [show bracesOf (c :: r) = c :: bracesOf r by
          simp [bracesOf, List.filter_cons, h1]]
        rw [scanClose, scanClose, if_pos h1, if_pos h1]
        simp only [isSome_map_succ]
        exact ih (d + 1)
      · by_cases h2 : c = rbrace
        · rw [show bracesOf (c :: r) = c :: bracesOf r by
            simp [bracesOf, List.filter_cons, h2]]
          rw [scanClose, scanClose, if_neg h1, if_neg h1, if_pos h2, if_pos h2]
          by_cases h3 : d = 1
          · simp [h3]
          · rw [if_neg h3, if_neg h3]
            simp only [isSome_map_succ]
            exact ih (d - 1)
        · rw [show bracesOf (c :: r) = bracesOf r by
            simp [bracesOf, List.filter_cons, h1, h2]]
          rw [scanClose, if_neg h1, if_neg h2]
          simp only [isSome_map_succ]
          exact ih d

theorem strData_append (a b : String) : (a ++ b).data = a.data ++ b.data := rfl

/-! Canonical form of parser output, used for the round-trip theorem. -/

/-- No structural characters (braces or pipe). -/
def plainStr (t : String) : Bool :=
  t.data.all (fun c => c ≠ lbrace && c ≠ rbrace && c ≠ pipeChar)

/-- No carriage return or line feed (the parser normalized them away). -/
def noCRLF (t : String) : Bool :=
  t.data.all (fun c => c ≠ '\r' && c ≠ '\n')

/-- No opening brace. -/
def noLbrace (t : String) : Bool :=
  t.data.all (fun c => c ≠ lbrace)

mutual
/-- Canonical option node: trimmed plain content, children alternating
canonical choices with nonempty trimmed plain texts, never starting with a
text and never two texts in a row. -/
def canonOption : SpintaxNode → Bool
  | .option c ch =>
      plainStr c && noCRLF c && decide (jsTrim c = c) && canonOptChildren true ch
  | _ => false

/-- tf: a text child is forbidden here (start of the list, or directly
after another text child). -/
def canonOptChildren : Bool → List SpintaxNode → Bool
  | _, [] => true
  | tf, .text t :: rest =>
      !tf && !(t = "") && plainStr t && noCRLF t && decide (jsTrim t = t) &&
        canonOptChildren true rest
  | _, .choice cs :: rest =>
      canonChoiceChildren cs && canonOptChildren false rest
  | _, _ => false

/-- Canonical children of a choice: a nonempty list of canonical options. -/
def canonChoiceChildren : List SpintaxNode → Bool
  | [] => false
  | [o] => canonOption o
  | o :: rest => canonOption o && canonChoiceChildren rest
end

/-- Canonical root children. A text child is either the literal "{" a
failed choice start produced — in which case the serialization of the
remaining siblings never closes a depth-1 scan, which is why re-parsing
fails there again — or a nonempty brace-free text. tf forbids a non-literal
text right after another one. -/
def canonRootChildren : Bool → List SpintaxNode → Bool
  | _, [] => true
  | tf, .text t :: rest =>
      if t = "\x7b" then
        !(depthCloses (generateConcat rest).data 1) && canonRootChildren false rest
      else
        !tf && !(t = "") && noLbrace t && noCRLF t && canonRootChildren true rest
  | _, .choice cs :: rest =>
      canonChoiceChildren cs && canonRootChildren false rest
  | _, _ => false

/-- The serialization's first character is not whitespace. -/
def headCharOk : List SpintaxNode → Bool
  | [] => true
  | .text t :: _ =>
      match t.data with
      | [] => true
      | c :: _ => !isJsSpace c
  | _ :: _ => true

/-- The serialization's last character is not whitespace. -/
def lastCharOk (cs : List SpintaxNode) : Bool :=
  match cs.getLast? with
  | some (.text t) =>
      if t = "\x7b" then true
      else
        match t.data.getLast? with
        | some c => !isJsSpace c
        | none => true
  | _ => true

theorem generateConcat_cons (n : SpintaxNode) (rest : List SpintaxNode) :
    generateConcat (n :: rest) = generateSpintax n ++ generateConcat rest := rfl

theorem genChoice_eq (cs : List SpintaxNode) (hne : ¬cs.isEmpty = true) :
    generateSpintax (.choice cs) =
      "\x7b" ++ joinBar (generateEach cs) ++ "\x7d" := by
  rw [generateSpintax, if_neg hne]

theorem genOption_eq (c : String) (ch : List SpintaxNode) :
    generateSpintax (.option c ch) = c ++ generateConcat ch := rfl

theorem findIdxQ_ge {p : Char → Bool} : ∀ (l : List Char) (i j : Nat),
    l.findIdx? p i = some j → i ≤ j := by
  intro l
  induction l with
  | nil => intro i j h; rw [List.findIdx?_nil] at h; cases h
  | cons a r ih =>
      intro i j h
      rw [List.findIdx?_cons] at h
      by_cases hp : p a = true
      · rw [if_pos hp] at h
        cases h
        exact Nat.le_refl _
      · rw [if_neg hp] at h
        exact Nat.le_trans (Nat.le_succ i) (ih (i + 1) j h)

theorem findIdxQ_append_free {c : Char} : ∀ (seg tail : List Char) (i : Nat),
    seg.all (fun x => !(x = c)) = true →
    (seg ++ tail).findIdx? (· = c) i = tail.findIdx? (· = c) (i + seg.length) := by
  intro seg
  induction seg with
  | nil => intro tail i _; simp
  | cons a r ih =>
      intro tail i hfree
      simp only [List.all_cons, Bool.and_eq_true, Bool.not_eq_true'] at hfree
      rw [List.cons_append, List.findIdx?_cons, if_neg (by simp [hfree.1]),
        ih tail (i + 1) (by simpa using hfree.2)]
      congr 1
      simp
      omega

theorem get?_of_drop_cons {str : List Char} {p : Nat} {c : Char} {r : List Char}
    (h : str.drop p = c :: r) : str.get? p = some c := by
  have h0 := List.get?_drop str p 0
  rw [h] at h0
  simpa using h0.symm

theorem drop_succ_of_drop_cons {str : List Char} {p : Nat} {c : Char} {r : List Char}
    (h : str.drop p = c :: r) : str.drop (p + 1) = r := by
  have h2 := List.drop_drop 1 p str
  rw [h] at h2
  simpa using h2.symm

theorem findIdxFrom_some {str : List Char} {p : Nat} {seg rest : List Char}
    (hdrop : str.drop p = seg ++ lbrace :: rest)
    (hfree : seg.all (fun x => !(x = lbrace)) = true) :
    findIdxFrom str lbrace p = some (p + seg.length) := by
  rw [findIdxFrom, hdrop, findIdxQ_append_free seg (lbrace :: rest) 0 hfree]
  rw [List.findIdx?_cons, if_pos (by simp)]
  simp

theorem findIdxFrom_free {str : List Char} {p : Nat} {seg : List Char}
    (hdrop : str.drop p = seg)
    (hfree : seg.all (fun x => !(x = lbrace)) = true) :
    findIdxFrom str lbrace p = none := by
  rw [findIdxFrom, hdrop]
  rw [show seg = seg ++ ([] : List Char) by simp,
    findIdxQ_append_free seg [] 0 hfree, List.findIdx?_nil]

theorem findIdxFrom_lower {str : List Char} {p : Nat} {seg tail : List Char}
    (hdrop : str.drop p = seg ++ tail)
    (hfree : seg.all (fun x => !(x = lbrace)) = true) :
    ∀ q, findIdxFrom str lbrace p = some q → p + seg.length ≤ q := by
  intro q hq
  rw [findIdxFrom, hdrop, findIdxQ_append_free seg tail 0 hfree] at hq
  cases hfi : tail.findIdx? (· = lbrace) (0 + seg.length) with
  | none => rw [hfi] at hq; cases hq
  | some j =>
      rw [hfi] at hq
      cases hq
      have := findIdxQ_ge tail (0 + seg.length) j hfi
      omega

theorem lbrace_str_data : ("\x7b" : String).data = [lbrace] := by decide

theorem rbrace_str_data : ("\x7d" : String).data = [rbrace] := by decide

theorem pipe_str_data : ("|" : String).data = [pipeChar] := by decide

theorem plainStr_mem {t : String} (h : plainStr t = true) :
    ∀ x ∈ t.data, x ≠ lbrace ∧ x ≠ rbrace ∧ x ≠ pipeChar := by
  simp only [plainStr, List.all_eq_true, Bool.and_eq_true, bne,
    Bool.not_eq_true', decide_eq_false_iff_not, decide_not] at h
  intro x hx
  have := h x hx
  tauto

theorem canonOption_parts {c : String} {ch : List SpintaxNode}
    (h : canonOption (.option c ch) = true) :
    plainStr c = true ∧ noCRLF c = true ∧ jsTrim c = c ∧
      canonOptChildren true ch = true := by
  simp only [canonOption, Bool.and_eq_true, decide_eq_true_eq] at h
  tauto

theorem canonOptChildren_text_parts {tf : Bool} {t : String}
    {rest : List SpintaxNode}
    (h : canonOptChildren tf (.text t :: rest) = true) :
    tf = false ∧ t ≠ "" ∧ plainStr t = true ∧ noCRLF t = true ∧
      jsTrim t = t ∧ canonOptChildren true rest = true := by
  simp only [canonOptChildren, Bool.and_eq_true, decide_eq_true_eq,
    Bool.not_eq_true', decide_eq_false_iff_not] at h
  tauto

theorem canonOptChildren_choice_parts {tf : Bool} {cs rest : List SpintaxNode}
    (h : canonOptChildren tf (.choice cs :: rest) = true) :
    canonChoiceChildren cs = true ∧ canonOptChildren false rest = true := by
  simp only [canonOptChildren, Bool.and_eq_true] at h
  tauto

theorem canonChoiceChildren_cons_parts {o : SpintaxNode}
    {rest : List SpintaxNode}
    (h : canonChoiceChildren (o :: rest) = true) :
    canonOption o = true ∧ (rest = [] ∨ canonChoiceChildren rest = true) := by
  cases rest with
  | nil =>
      refine ⟨by simpa [canonChoiceChildren] using h, Or.inl rfl⟩
  | cons o2 r2 =>
      simp only [canonChoiceChildren, Bool.and_eq_true] at h
      exact ⟨h.1, Or.inr h.2⟩

theorem scanOpt_plain : ∀ (t : List Char) (d : Nat),
    (∀ x ∈ t, x ≠ lbrace ∧ x ≠ rbrace ∧ x ≠ pipeChar) →
    scanOpt t d = some d := by
  intro t
  induction t with
  | nil => intro d _; rfl
  | cons c r ih =>
      intro d h
      have hc := h c (List.mem_cons_self c r)
      rw [scanOpt, if_neg hc.1, if_neg hc.2.1,
        if_neg (fun hx => hc.2.2 hx.1)]
      exact ih d (fun x hx => h x (List.mem_cons_of_mem c hx))

theorem scanOpt_lbrace (r : List Char) (d : Nat) :
    scanOpt (lbrace :: r) d = scanOpt r (d + 1) := by
  rw [scanOpt, if_pos rfl]

theorem scanOpt_rbrace (r : List Char) (d : Nat) (h : ¬ d = 1) :
    scanOpt (rbrace :: r) d = scanOpt r (d - 1) := by
  rw [scanOpt, if_neg rbrace_ne_lbrace, if_pos rfl, if_neg h]

theorem scanOpt_pipe_deep (r : List Char) (d : Nat) (h : ¬ d = 1) :
    scanOpt (pipeChar :: r) d = scanOpt r d := by
  rw [scanOpt, if_neg pipe_ne_lbrace, if_neg pipe_ne_rbrace,
    if_neg (fun hx => h hx.2)]

mutual
theorem scanOpt_genOption : ∀ (o : SpintaxNode), canonOption o = true →
    ∀ d : Nat, 1 ≤ d → scanOpt (generateSpintax o).data d = some d
  | .option c ch, h, d, hd => by
      obtain ⟨h1, _, _, h4⟩ := canonOption_parts h
      rw [genOption_eq, strData_append, scanOpt_append,
        scanOpt_plain c.data d (plainStr_mem h1)]
      exact scanOpt_genOptChildren true ch h4 d hd
  | .text _, h, _, _ => by simp [canonOption] at h
  | .choice _, h, _, _ => by simp [canonOption] at h
  | .root _, h, _, _ => by simp [canonOption] at h

theorem scanOpt_genOptChildren : ∀ (tf : Bool) (ch : List SpintaxNode),
    canonOptChildren tf ch = true →
    ∀ d : Nat, 1 ≤ d → scanOpt (generateConcat ch).data d = some d
  | _, [], _, _, _ => rfl
  | tf, .text t :: rest, h, d, hd => by
      obtain ⟨_, _, h3, _, _, h6⟩ := canonOptChildren_text_parts h
      rw [generateConcat_cons, strData_append, scanOpt_append]
      rw [show generateSpintax (.text t) = t from rfl]
      rw [scanOpt_plain t.data d (plainStr_mem h3)]
      exact scanOpt_genOptChildren true rest h6 d hd
  | tf, .choice cs :: rest, h, d, hd => by
      obtain ⟨h1, h2⟩ := canonOptChildren_choice_parts h
      rw [generateConcat_cons, strData_append, scanOpt_append,
        scanOpt_genChoice cs h1 d hd]
      exact scanOpt_genOptChildren false rest h2 d hd
  | _, .option _ _ :: _, h, _, _ => by simp [canonOptChildren] at h
  | _, .root _ :: _, h, _, _ => by simp [canonOptChildren] at h

theorem scanOpt_genChoice : ∀ (cs : List SpintaxNode),
    canonChoiceChildren cs = true →
    ∀ d : Nat, 1 ≤ d → scanOpt (generateSpintax (.choice cs)).data d = some d
  | [], h, _, _ => by simp [canonChoiceChildren] at h
  | o :: rest, h, d, hd => by
      rw [genChoice_eq (o :: rest) (by simp)]
      rw [strData_append, strData_append, lbrace_str_data, rbrace_str_data]
      simp only [List.cons_append, List.nil_append, List.append_assoc]
      rw [scanOpt_lbrace]
      rw [scanOpt_append, scanOpt_genJoin (o :: rest) h (d + 1) (by omega)]
      show scanOpt [rbrace] (d + 1) = some d
      rw [scanOpt_rbrace _ _ (by omega)]
      show some (d + 1 - 1) = some d
      simp

theorem scanOpt_genJoin : ∀ (cs : List SpintaxNode),
    canonChoiceChildren cs = true →
    ∀ d : Nat, 2 ≤ d → scanOpt (joinBar (generateEach cs)).data d = some d
  | [], h, _, _ => by simp [canonChoiceChildren] at h
  | [o], h, d, hd => by
      rw [show generateEach [o] = [generateSpintax o] from rfl,
        show joinBar [generateSpintax o] = generateSpintax o from rfl]
      exact scanOpt_genOption o (by simpa [canonChoiceChildren] using h) d (by omega)
  | o :: o2 :: rest, h, d, hd => by
      obtain ⟨ho, hrest⟩ := canonChoiceChildren_cons_parts h
      rcases hrest with hnil | hrest
      · cases hnil
      · rw [show generateEach (o :: o2 :: rest) =
            generateSpintax o :: generateEach (o2 :: rest) from rfl]
        rw [show joinBar (generateSpintax o :: generateEach (o2 :: rest)) =
            generateSpintax o ++ "|" ++ joinBar (generateEach (o2 :: rest)) by
          cases o2 <;> rfl]
        rw [strData_append, strData_append, pipe_str_data]
        simp only [List.cons_append, List.nil_append, List.append_assoc]
        rw [scanOpt_append, scanOpt_genOption o ho d (by omega)]
        show scanOpt (pipeChar :: (joinBar (generateEach (o2 :: rest))).data) d = some d
        rw [scanOpt_pipe_deep _ _ (by omega)]
        exact scanOpt_genJoin (o2 :: rest) hrest d hd
end

/-! Fuel budgets: enough fuel for each parser routine on a region of the
given length. The wired fuel (n+2)^2 of parseSpintax dominates them all. -/

/-- Fuel sufficient for parseOptionContent on a region of length m. -/
def pocNeed (m : Nat) : Nat := (m + 2) * (m + 2) + 1

/-- Fuel sufficient for pocLoop with m characters left before endIndex. -/
def pclNeed (m : Nat) : Nat := (m + 2) * (m + 2)

/-- Fuel sufficient for parseChoice on a serialized choice of length l. -/
def pcNeedL (l : Nat) : Nat := l * l + l + 1

/-- Fuel sufficient for pcLoop with a scanned prefix of length a of the
current option and the matching close j characters ahead. -/
def scanNeed (a j : Nat) : Nat := j + 1 + pocNeed (a + j)

/-- Fuel sufficient for parseChoice whose close is j characters beyond the
opening brace. -/
def pcNeedJ (j : Nat) : Nat := j + 2 + pocNeed j

/-- Fuel sufficient for pcLoop on the serialized join (length j) of a
choice's options, followed by the closing brace. -/
def joinNeed (j : Nat) : Nat := j + 1 + pocNeed j

/-- Fuel sufficient for psLoop with r characters of input left. -/
def psNeed (r : Nat) : Nat := r * r + 2 * r + 2

theorem sq_le_sq_nat {a b : Nat} (h : a ≤ b) : a * a ≤ b * b :=
  Nat.mul_le_mul h h

theorem pocNeed_mono {a b : Nat} (h : a ≤ b) : pocNeed a ≤ pocNeed b := by
  unfold pocNeed
  have := sq_le_sq_nat (show a + 2 ≤ b + 2 by omega)
  omega

theorem pclNeed_mono {a b : Nat} (h : a ≤ b) : pclNeed a ≤ pclNeed b := by
  unfold pclNeed
  exact sq_le_sq_nat (show a + 2 ≤ b + 2 by omega)

theorem psNeed_mono {a b : Nat} (h : a ≤ b) : psNeed a ≤ psNeed b := by
  unfold psNeed
  have := sq_le_sq_nat h
  omega

theorem wired_ge_psNeed (n : Nat) : psNeed n ≤ (n + 2) * (n + 2) := by
  unfold psNeed
  have h : (n + 2) * (n + 2) = n * n + 2 * n + (2 * n + 4) := by ring
  omega

theorem psNeed_step {r : Nat} (h : 1 ≤ r) : psNeed (r - 1) + 1 ≤ psNeed r := by
  unfold psNeed
  obtain ⟨s, rfl⟩ : ∃ s, r = s + 1 := ⟨r - 1, by omega⟩
  have h2 : (s + 1) * (s + 1) = s * s + 2 * s + 1 := by ring
  have h3 : s + 1 - 1 = s := rfl
  rw [h3]
  omega

theorem psNeed_ge_pcNeedJ {j r : Nat} (h : j + 2 ≤ r) :
    pcNeedJ j + 1 ≤ psNeed r := by
  unfold pcNeedJ pocNeed psNeed
  have h1 : (j + 2) * (j + 2) ≤ r * r := sq_le_sq_nat (by omega)
  omega

theorem pclNeed_ge_pcNeedJ {j m : Nat} (h : j + 2 ≤ m) :
    pcNeedJ j + 1 ≤ pclNeed m := by
  unfold pcNeedJ pocNeed pclNeed
  have h1 : (j + 2) * (j + 2) ≤ m * m := sq_le_sq_nat (by omega)
  have h2 : (m + 2) * (m + 2) = m * m + 4 * m + 4 := by ring
  omega

theorem pcNeedJ_eq (j : Nat) : pcNeedJ j = scanNeed 0 j + 1 := by
  unfold pcNeedJ scanNeed
  simp only [Nat.zero_add]
  omega

/-! String and list utilities for the region bookkeeping. -/

theorem strMk_data (l : List Char) : (String.mk l).data = l := rfl

theorem str_eq_of_data : ∀ {a b : String}, a.data = b.data → a = b
  | ⟨_⟩, ⟨_⟩, h => congrArg String.mk h

theorem str_empty_iff (l : List Char) : (String.mk l) = "" ↔ l = [] := by
  constructor
  · intro h
    have : (String.mk l).data = ("" : String).data := by rw [h]
    simpa using this
  · intro h; rw [h]

theorem drop_of_drop_append {str A B : List Char} {p : Nat}
    (h : str.drop p = A ++ B) : str.drop (p + A.length) = B := by
  have h1 : List.drop A.length (List.drop p str) = List.drop A.length (A ++ B) := by
    rw [h]
  rw [List.drop_drop] at h1
  rw [h1, List.drop_left]

theorem substr_of_drop_append {str A B : List Char} {p : Nat}
    (h : str.drop p = A ++ B) : substrL str p (p + A.length) = A := by
  rw [substrL, h, show p + A.length - p = A.length by omega, List.take_left]

theorem drop_length_le {str : List Char} {p : Nat} (h : str.length ≤ p) :
    str.drop p = [] := List.drop_eq_nil_of_le h

theorem substr_self (str : List Char) (p : Nat) :
    substrL str p str.length = str.drop p := by
  rw [substrL]
  exact List.take_of_length_le (by simp)

theorem drop_eq_substr_append {str : List Char} {a b : Nat}
    (hab : a ≤ b) :
    str.drop a = substrL str a b ++ str.drop b := by
  rw [substrL]
  have h1 : List.take (b - a) (str.drop a) ++ List.drop (b - a) (str.drop a) =
      str.drop a := List.take_append_drop _ _
  rw [List.drop_drop, show a + (b - a) = b by omega] at h1
  exact h1.symm

theorem substr_split {str : List Char} {a b c : Nat}
    (hab : a ≤ b) (hbc : b ≤ c) :
    substrL str a c = substrL str a b ++ substrL str b c := by
  rw [substrL, substrL, substrL, show c - a = (b - a) + (c - b) by omega,
    List.take_add]
  congr 1
  rw [List.drop_drop, show a + (b - a) = b by omega]

theorem substr_snoc {str : List Char} {a i : Nat} {c : Char}
    (hai : a ≤ i) (hc : str.get? i = some c) :
    substrL str a (i + 1) = substrL str a i ++ [c] := by
  rw [substr_split hai (by omega : i ≤ i + 1)]
  congr 1
  rw [substrL, show i + 1 - i = 1 by omega]
  have h2 : (str.drop i).get? 0 = some c := by
    rw [List.get?_drop, Nat.add_zero]
    exact hc
  cases hd : str.drop i with
  | nil => rw [hd] at h2; cases h2
  | cons x r =>
      rw [hd] at h2
      simp at h2
      rw [h2]
      rfl

theorem substr_len {str : List Char} {a b : Nat} (hb : b ≤ str.length)
    (hab : a ≤ b) : (substrL str a b).length = b - a := by
  rw [substrL, List.length_take, List.length_drop]
  omega

theorem get?_some_of_lt {str : List Char} {i : Nat} (h : i < str.length) :
    ∃ c, str.get? i = some c := by
  cases hg : str.get? i with
  | none => rw [List.get?_eq_none] at hg; omega
  | some c => exact ⟨c, rfl⟩

theorem drop_cons_of_get? {str : List Char} {i : Nat} {c : Char}
    (h : str.get? i = some c) : str.drop i = c :: str.drop (i + 1) := by
  have hlt : i < str.length := by
    by_contra hge
    rw [List.get?_eq_none.2 (by omega)] at h
    cases h
  have h1 : str.drop i = List.take 1 (str.drop i) ++ List.drop 1 (str.drop i) :=
    (List.take_append_drop _ _).symm
  rw [List.drop_drop] at h1
  have h2 : (str.drop i).get? 0 = some c := by
    rw [List.get?_drop, Nat.add_zero]; exact h
  cases hd : str.drop i with
  | nil => rw [hd] at h2; cases h2
  | cons x r =>
      rw [hd] at h2
      simp at h2
      rw [hd] at h1
      simpa [h2] using h1

/-! Step equations and preservation facts for normalizeNewlines. -/

theorem norm_crlf (r : List Char) :
    normalizeNewlines ('\r' :: '\n' :: r) = ' ' :: normalizeNewlines r := rfl

theorem norm_cr_nil : normalizeNewlines ['\r'] = [' '] := rfl

theorem norm_lf (r : List Char) :
    normalizeNewlines ('\n' :: r) = ' ' :: normalizeNewlines r := rfl

theorem norm_cr_other (c2 : Char) (r2 : List Char) (h : ¬ c2 = '\n') :
    normalizeNewlines ('\r' :: c2 :: r2) = ' ' :: normalizeNewlines (c2 :: r2) := by
  rw [normalizeNewlines.eq_def]
  split <;> simp_all
  rename_i hc hn heq
  exact absurd heq.1.symm hc

theorem norm_other (c : Char) (r : List Char) (h1 : ¬ c = '\r') (h2 : ¬ c = '\n') :
    normalizeNewlines (c :: r) = c :: normalizeNewlines r := by
  rw [normalizeNewlines.eq_def]
  split <;> simp_all

theorem not_space_ne_crlf {c : Char} (h : isJsSpace c = false) :
    ¬ c = '\r' ∧ ¬ c = '\n' := by
  constructor <;> intro he <;> subst he <;> exact absurd h (by decide)

theorem getLast?_cons_ne {a : Char} {ys : List Char} (h : ys ≠ []) :
    (a :: ys).getLast? = ys.getLast? := by
  cases ys with
  | nil => exact absurd rfl h
  | cons b t => exact List.getLast?_cons_cons

theorem braces_skip {c : Char} (h1 : ¬ c = lbrace) (h2 : ¬ c = rbrace)
    (l : List Char) : bracesOf (c :: l) = bracesOf l := by
  simp [bracesOf, List.filter_cons, h1, h2]

theorem braces_cons (c : Char) (l : List Char) :
    bracesOf (c :: l) =
      if c = lbrace ∨ c = rbrace then c :: bracesOf l else bracesOf l := by
  by_cases h : c = lbrace ∨ c = rbrace
  · rw [if_pos h]
    rcases h with h | h <;> simp [bracesOf, List.filter_cons, h]
  · rw [if_neg h]
    push_neg at h
    exact braces_skip h.1 h.2 l

theorem norm_mem : ∀ (l : List Char), ∀ c ∈ normalizeNewlines l, c = ' ' ∨ c ∈ l := by
  have key : ∀ (n : Nat) (l : List Char), l.length ≤ n →
      ∀ c ∈ normalizeNewlines l, c = ' ' ∨ c ∈ l := by
    intro n
    induction n with
    | zero =>
        intro l hl
        have he : l = [] := List.eq_nil_of_length_eq_zero (by omega)
        subst he
        intro c hc
        simp [normalizeNewlines] at hc
    | succ n ih =>
        intro l hl c hc
        rcases l with _ | ⟨c1, r⟩
        · simp [normalizeNewlines] at hc
        · by_cases h1 : c1 = '\r'
          · subst h1
            rcases r with _ | ⟨c2, r2⟩
            · rw [norm_cr_nil] at hc
              simp at hc
              simp [hc]
            · by_cases h2 : c2 = '\n'
              · subst h2
                rw [norm_crlf] at hc
                rcases List.mem_cons.1 hc with h | h
                · exact Or.inl h
                · rcases ih r2 (by simp at hl ⊢; omega) c h with h3 | h3
                  · exact Or.inl h3
                  · exact Or.inr (by simp [h3])
              · rw [norm_cr_other _ _ h2] at hc
                rcases List.mem_cons.1 hc with h | h
                · exact Or.inl h
                · rcases ih (c2 :: r2) (by simp at hl ⊢; omega) c h with h3 | h3
                  · exact Or.inl h3
                  · exact Or.inr (by simp at h3 ⊢; tauto)
          · by_cases h2 : c1 = '\n'
            · subst h2
              rw [norm_lf] at hc
              rcases List.mem_cons.1 hc with h | h
              · exact Or.inl h
              · rcases ih r (by simp at hl; omega) c h with h3 | h3
                · exact Or.inl h3
                · exact Or.inr (by simp [h3])
            · rw [norm_other _ _ h1 h2] at hc
              rcases List.mem_cons.1 hc with h | h
              · exact Or.inr (by simp [h])
              · rcases ih r (by simp at hl; omega) c h with h3 | h3
                · exact Or.inl h3
                · exact Or.inr (by simp [h3])
  exact fun l => key l.length l le_rfl

theorem norm_id : ∀ (l : List Char),
    (∀ c ∈ l, ¬ c = '\r' ∧ ¬ c = '\n') → normalizeNewlines l = l := by
  intro l
  induction l with
  | nil => intro _; rfl
  | cons c1 r ih =>
      intro h
      have hc1 := h c1 (List.mem_cons_self c1 r)
      rw [norm_other _ _ hc1.1 hc1.2]
      rw [ih (fun c hc => h c (List.mem_cons_of_mem c1 hc))]

theorem norm_noCRLF : ∀ (l : List Char), ∀ c ∈ normalizeNewlines l,
    ¬ c = '\r' ∧ ¬ c = '\n' := by
  have key : ∀ (n : Nat) (l : List Char), l.length ≤ n →
      ∀ c ∈ normalizeNewlines l, ¬ c = '\r' ∧ ¬ c = '\n' := by
    intro n
    induction n with
    | zero =>
        intro l hl
        have he : l = [] := List.eq_nil_of_length_eq_zero (by omega)
        subst he
        intro c hc
        simp [normalizeNewlines] at hc
    | succ n ih =>
        intro l hl c hc
        rcases l with _ | ⟨c1, r⟩
        · simp [normalizeNewlines] at hc
        · by_cases h1 : c1 = '\r'
          · subst h1
            rcases r with _ | ⟨c2, r2⟩
            · rw [norm_cr_nil] at hc
              simp at hc
              subst hc
              exact ⟨by decide, by decide⟩
            · by_cases h2 : c2 = '\n'
              · subst h2
                rw [norm_crlf] at hc
                rcases List.mem_cons.1 hc with h | h
                · subst h; exact ⟨by decide, by decide⟩
                · exact ih r2 (by simp at hl ⊢; omega) c h
              · rw [norm_cr_other _ _ h2] at hc
                rcases List.mem_cons.1 hc with h | h
                · subst h; exact ⟨by decide, by decide⟩
                · exact ih (c2 :: r2) (by simp at hl ⊢; omega) c h
          · by_cases h2 : c1 = '\n'
            · subst h2
              rw [norm_lf] at hc
              rcases List.mem_cons.1 hc with h | h
              · subst h; exact ⟨by decide, by decide⟩
              · exact ih r (by simp at hl; omega) c h
            · rw [norm_other _ _ h1 h2] at hc
              rcases List.mem_cons.1 hc with h | h
              · subst h; exact ⟨h1, h2⟩
              · exact ih r (by simp at hl; omega) c h
  exact fun l => key l.length l le_rfl

theorem norm_nil_iff : ∀ (l : List Char), normalizeNewlines l = [] ↔ l = [] := by
  intro l
  rcases l with _ | ⟨c1, r⟩
  · simp [normalizeNewlines]
  · constructor
    · intro h
      exfalso
      by_cases h1 : c1 = '\r'
      · subst h1
        rcases r with _ | ⟨c2, r2⟩
        · rw [norm_cr_nil] at h; cases h
        · by_cases h2 : c2 = '\n'
          · subst h2; rw [norm_crlf] at h; cases h
          · rw [norm_cr_other _ _ h2] at h; cases h
      · by_cases h2 : c1 = '\n'
        · subst h2; rw [norm_lf] at h; cases h
        · rw [norm_other _ _ h1 h2] at h; cases h
    · intro h; cases h

theorem norm_braces : ∀ (l : List Char),
    bracesOf (normalizeNewlines l) = bracesOf l := by
  have key : ∀ (n : Nat) (l : List Char), l.length ≤ n →
      bracesOf (normalizeNewlines l) = bracesOf l := by
    intro n
    induction n with
    | zero =>
        intro l hl
        have he : l = [] := List.eq_nil_of_length_eq_zero (by omega)
        subst he
        rfl
    | succ n ih =>
        intro l hl
        rcases l with _ | ⟨c1, r⟩
        · rfl
        · by_cases h1 : c1 = '\r'
          · subst h1
            rcases r with _ | ⟨c2, r2⟩
            · rw [norm_cr_nil]; rfl
            · by_cases h2 : c2 = '\n'
              · subst h2
                rw [norm_crlf,
                  braces_skip (by decide) (by decide),
                  braces_skip (by decide) (by decide),
                  braces_skip (by decide) (by decide)]
                exact ih r2 (by simp at hl ⊢; omega)
              · rw [norm_cr_other _ _ h2,
                  braces_skip (by decide) (by decide),
                  braces_skip (by decide) (by decide)]
                exact ih (c2 :: r2) (by simp at hl ⊢; omega)
          · by_cases h2 : c1 = '\n'
            · subst h2
              rw [norm_lf,
                braces_skip (by decide) (by decide),
                braces_skip (by decide) (by decide)]
              exact ih r (by simp at hl; omega)
            · rw [norm_other _ _ h1 h2, braces_cons, braces_cons]
              have := ih r (by simp at hl; omega)
              by_cases hb : c1 = lbrace ∨ c1 = rbrace
              · rw [if_pos hb, if_pos hb, this]
              · rw [if_neg hb, if_neg hb, this]
  exact fun l => key l.length l le_rfl

theorem norm_head : ∀ (l : List Char) (c0 : Char), l.head? = some c0 →
    isJsSpace c0 = false → (normalizeNewlines l).head? = some c0 := by
  intro l c0 hh hs
  rcases l with _ | ⟨c1, r⟩
  · cases hh
  · simp at hh
    subst hh
    obtain ⟨h1, h2⟩ := not_space_ne_crlf hs
    rw [norm_other _ _ h1 h2]
    rfl

theorem norm_getLast : ∀ (l : List Char) (g : Char), l.getLast? = some g →
    isJsSpace g = false → (normalizeNewlines l).getLast? = some g := by
  have key : ∀ (n : Nat) (l : List Char), l.length ≤ n → ∀ g : Char,
      l.getLast? = some g → isJsSpace g = false →
      (normalizeNewlines l).getLast? = some g := by
    intro n
    induction n with
    | zero =>
        intro l hl g hg _
        have he : l = [] := List.eq_nil_of_length_eq_zero (by omega)
        subst he
        cases hg
    | succ n ih =>
        intro l hl g hg hs
        rcases l with _ | ⟨c1, r⟩
        · cases hg
        · rcases r with _ | ⟨c2, r2⟩
          · simp [List.getLast?] at hg
            subst hg
            obtain ⟨h1, h2⟩ := not_space_ne_crlf hs
            rw [norm_other _ _ h1 h2]
            rfl
          · have hlast : (c2 :: r2).getLast? = some g :=
              (List.getLast?_cons_cons).symm.trans hg
            by_cases h1 : c1 = '\r'
            · subst h1
              by_cases h2 : c2 = '\n'
              · subst h2
                rw [norm_crlf]
                rcases r2 with _ | ⟨c3, r3⟩
                · simp [List.getLast?] at hlast
                  subst hlast
                  exact absurd hs (by decide)
                · have hl3 : (c3 :: r3).getLast? = some g :=
                    (List.getLast?_cons_cons).symm.trans hlast
                  have hres := ih (c3 :: r3) (by simp at hl ⊢; omega) g hl3 hs
                  rw [getLast?_cons_ne (fun he => by
                    rw [he] at hres; cases hres)]
                  exact hres
              · rw [norm_cr_other _ _ h2]
                have hres := ih (c2 :: r2) (by simp at hl ⊢; omega) g hlast hs
                rw [getLast?_cons_ne (fun he => by rw [he] at hres; cases hres)]
                exact hres
            · by_cases h2 : c1 = '\n'
              · subst h2
                rw [norm_lf]
                have hres := ih (c2 :: r2) (by simp at hl ⊢; omega) g hlast hs
                rw [getLast?_cons_ne (fun he => by rw [he] at hres; cases hres)]
                exact hres
              · rw [norm_other _ _ h1 h2]
                have hres := ih (c2 :: r2) (by simp at hl ⊢; omega) g hlast hs
                rw [getLast?_cons_ne (fun he => by rw [he] at hres; cases hres)]
                exact hres
  exact fun l => key l.length l le_rfl

/-! Facts about JS trim (trimL / jsTrim). -/

theorem dropWhile_head_false : ∀ (l : List Char) (c : Char),
    (l.dropWhile isJsSpace).head? = some c → isJsSpace c = false := by
  intro l
  induction l with
  | nil => intro c h; cases h
  | cons a r ih =>
      intro c h
      rw [List.dropWhile_cons] at h
      by_cases ha : isJsSpace a = true
      · rw [if_pos ha] at h
        exact ih c h
      · rw [if_neg ha] at h
        simp at h
        subst h
        simpa using ha

theorem dropWhile_eq_self {l : List Char}
    (h : ∀ c, l.head? = some c → isJsSpace c = false) :
    l.dropWhile isJsSpace = l := by
  cases l with
  | nil => rfl
  | cons a r =>
      rw [List.dropWhile_cons, if_neg (by simp [h a rfl])]

theorem getLast?_dropWhile_eq {l : List Char}
    (h : l.dropWhile isJsSpace ≠ []) :
    (l.dropWhile isJsSpace).getLast? = l.getLast? := by
  have hsplit : l.takeWhile isJsSpace ++ l.dropWhile isJsSpace = l :=
    List.takeWhile_append_dropWhile isJsSpace l
  have h2 : l.getLast? =
      ((l.dropWhile isJsSpace).getLast?).or ((l.takeWhile isJsSpace).getLast?) := by
    rw [← hsplit, List.getLast?_append, hsplit]
  cases hg : (l.dropWhile isJsSpace).getLast? with
  | none => exact absurd (List.getLast?_eq_none_iff.1 hg) h
  | some y =>
      rw [hg] at h2
      rw [h2]
      rfl

theorem trimL_getLast_false {l : List Char} {g : Char}
    (h : (trimL l).getLast? = some g) : isJsSpace g = false := by
  rw [trimL] at h
  rw [List.getLast?_eq_head?_reverse, List.reverse_reverse] at h
  exact dropWhile_head_false _ g h

theorem trimL_head_false {l : List Char} {c : Char}
    (h : (trimL l).head? = some c) : isJsSpace c = false := by
  rw [trimL] at h
  have hB : ((l.dropWhile isJsSpace).reverse.dropWhile isJsSpace).getLast? =
      some c := by
    rw [List.getLast?_eq_head?_reverse]
    exact h
  have hne : (l.dropWhile isJsSpace).reverse.dropWhile isJsSpace ≠ [] := by
    intro he
    rw [he] at hB
    cases hB
  rw [getLast?_dropWhile_eq hne] at hB
  rw [List.getLast?_eq_head?_reverse, List.reverse_reverse] at hB
  exact dropWhile_head_false _ c hB

theorem trimL_eq_self {l : List Char}
    (hh : ∀ c, l.head? = some c → isJsSpace c = false)
    (hg : ∀ g, l.getLast? = some g → isJsSpace g = false) :
    trimL l = l := by
  rw [trimL, dropWhile_eq_self hh, dropWhile_eq_self (fun c hc => by
    rw [← List.getLast?_eq_head?_reverse] at hc
    exact hg c hc), List.reverse_reverse]

theorem trimL_idem (l : List Char) : trimL (trimL l) = trimL l :=
  trimL_eq_self (fun c hc => trimL_head_false hc)
    (fun g hg => trimL_getLast_false hg)

theorem trimL_subset : ∀ c ∈ trimL l, c ∈ l := by
  intro c hc
  rw [trimL, List.mem_reverse] at hc
  have h1 := List.dropWhile_subset isJsSpace hc
  rw [List.mem_reverse] at h1
  exact List.dropWhile_subset isJsSpace h1

theorem jsTrim_data (s : String) : (jsTrim s).data = trimL s.data := rfl

theorem jsTrim_idem (s : String) : jsTrim (jsTrim s) = jsTrim s :=
  str_eq_of_data (by rw [jsTrim_data, jsTrim_data, trimL_idem])

theorem jsTrim_all {s : String} {p : Char → Bool}
    (h : s.data.all p = true) : (jsTrim s).data.all p = true := by
  rw [jsTrim_data]
  rw [List.all_eq_true] at h ⊢
  exact fun c hc => h c (trimL_subset c hc)

theorem plainStr_jsTrim {t : String} (h : plainStr t = true) :
    plainStr (jsTrim t) = true := jsTrim_all h

theorem noCRLF_jsTrim {t : String} (h : noCRLF t = true) :
    noCRLF (jsTrim t) = true := jsTrim_all h

/-! Decompositions of index search and depth scans. -/

theorem bracesOf_append (a b : List Char) :
    bracesOf (a ++ b) = bracesOf a ++ bracesOf b := by
  rw [bracesOf, bracesOf, bracesOf, List.filter_append]

theorem findIdxQ_decomp {p : Char → Bool} : ∀ (l : List Char) (i j : Nat),
    l.findIdx? p i = some j →
    i ≤ j ∧ ∃ seg x rest, l = seg ++ x :: rest ∧ seg.length = j - i ∧
      p x = true ∧ seg.all (fun a => !p a) = true := by
  intro l
  induction l with
  | nil => intro i j h; rw [List.findIdx?_nil] at h; cases h
  | cons a r ih =>
      intro i j h
      rw [List.findIdx?_cons] at h
      by_cases hp : p a = true
      · rw [if_pos hp] at h
        simp at h
        subst h
        exact ⟨Nat.le_refl _, [], a, r, rfl, by simp, hp, rfl⟩
      · rw [if_neg hp] at h
        obtain ⟨hij, seg, x, rest, hsplit, hlen, hx, hfree⟩ := ih (i + 1) j h
        refine ⟨by omega, a :: seg, x, rest, by rw [hsplit, List.cons_append],
          by simp; omega, hx, ?_⟩
        simp [hfree]
        simpa using hp

theorem findIdxQ_none {p : Char → Bool} : ∀ (l : List Char) (i : Nat),
    l.findIdx? p i = none → l.all (fun a => !p a) = true := by
  intro l
  induction l with
  | nil => intro i _; rfl
  | cons a r ih =>
      intro i h
      rw [List.findIdx?_cons] at h
      by_cases hp : p a = true
      · rw [if_pos hp] at h; cases h
      · rw [if_neg hp] at h
        simp [ih (i + 1) h]
        simpa using hp

theorem findIdxFrom_decomp {str : List Char} {pi nb : Nat}
    (h : findIdxFrom str lbrace pi = some nb) :
    pi ≤ nb ∧ str.get? nb = some lbrace ∧
      str.drop pi = substrL str pi nb ++ lbrace :: str.drop (nb + 1) ∧
      (substrL str pi nb).length = nb - pi ∧
      (substrL str pi nb).all (fun a => !(a = lbrace)) = true := by
  rw [findIdxFrom] at h
  cases hk : (str.drop pi).findIdx? (· = lbrace) with
  | none => rw [hk] at h; cases h
  | some k =>
      rw [hk] at h
      simp at h
      obtain ⟨_, seg, x, rest, hsplit, hlen, hx, hfree⟩ :=
        findIdxQ_decomp (str.drop pi) 0 k hk
      simp at hx
      subst hx
      have hklen : seg.length = k := by omega
      have hnb : nb = pi + seg.length := by omega
      have hsub : substrL str pi nb = seg := by
        rw [hnb]; exact substr_of_drop_append hsplit
      have hd1 : str.drop (pi + seg.length) = lbrace :: rest :=
        drop_of_drop_append hsplit
      have hget : str.get? nb = some lbrace := by
        rw [hnb]; exact get?_of_drop_cons hd1
      have hd2 : str.drop (nb + 1) = rest := by
        rw [hnb]; exact drop_succ_of_drop_cons hd1
      refine ⟨by omega, hget, ?_, ?_, ?_⟩
      · rw [hsub, hd2, hsplit]
      · rw [hsub]; omega
      · rw [hsub]; exact hfree

theorem findIdxFrom_none_decomp {str : List Char} {pi : Nat}
    (h : findIdxFrom str lbrace pi = none) :
    (str.drop pi).all (fun a => !(a = lbrace)) = true := by
  rw [findIdxFrom] at h
  cases hk : (str.drop pi).findIdx? (· = lbrace) with
  | none => exact findIdxQ_none _ 0 hk
  | some k => rw [hk] at h; cases h

theorem scanOpt_free_prefix : ∀ (seg rest : List Char),
    seg.all (fun a => !(a = lbrace)) = true →
    ¬ scanOpt (seg ++ rest) 1 = none →
    (∀ x ∈ seg, x ≠ lbrace ∧ x ≠ rbrace ∧ x ≠ pipeChar) ∧
      scanOpt rest 1 = scanOpt (seg ++ rest) 1 := by
  intro seg
  induction seg with
  | nil => intro rest _ _; exact ⟨by simp, rfl⟩
  | cons c r ih =>
      intro rest hfree hs
      simp only [List.all_cons, Bool.and_eq_true, Bool.not_eq_true',
        decide_eq_false_iff_not] at hfree
      rw [List.cons_append] at hs
      by_cases h2 : c = rbrace
      · exfalso
        apply hs
        rw [scanOpt, if_neg (h2 ▸ rbrace_ne_lbrace), if_pos h2, if_pos rfl]
      · by_cases h3 : c = pipeChar
        · exfalso
          apply hs
          rw [scanOpt, if_neg (h3 ▸ pipe_ne_lbrace), if_neg (h3 ▸ pipe_ne_rbrace),
            if_pos ⟨h3, rfl⟩]
        · have hstep : scanOpt (c :: (r ++ rest)) 1 = scanOpt (r ++ rest) 1 := by
            rw [scanOpt, if_neg hfree.1, if_neg h2, if_neg (fun hx => h3 hx.1)]
          rw [hstep] at hs
          obtain ⟨hplain, hrest⟩ := ih rest (by simpa using hfree.2) hs
          refine ⟨?_, by rw [hrest, List.cons_append, hstep]⟩
          intro x hx
          rcases List.mem_cons.1 hx with hx | hx
          · subst hx; exact ⟨hfree.1, h2, h3⟩
          · exact hplain x hx

theorem scanClose_nil (d : Nat) : scanClose [] d = none := rfl

theorem scanClose_lbrace (r : List Char) (d : Nat) :
    scanClose (lbrace :: r) d = (scanClose r (d + 1)).map (· + 1) := by
  rw [scanClose, if_pos rfl]

theorem scanClose_rbrace_one (r : List Char) :
    scanClose (rbrace :: r) 1 = some 0 := by
  rw [scanClose, if_neg rbrace_ne_lbrace, if_pos rfl, if_pos rfl]

theorem scanClose_rbrace_deep (r : List Char) (d : Nat) (h : ¬ d = 1) :
    scanClose (rbrace :: r) d = (scanClose r (d - 1)).map (· + 1) := by
  rw [scanClose, if_neg rbrace_ne_lbrace, if_pos rfl, if_neg h]

theorem scanClose_other {c : Char} (r : List Char) (d : Nat)
    (h1 : ¬ c = lbrace) (h2 : ¬ c = rbrace) :
    scanClose (c :: r) d = (scanClose r d).map (· + 1) := by
  rw [scanClose, if_neg h1, if_neg h2]

theorem closeSplit : ∀ (l : List Char) (d : Nat), 2 ≤ d →
    scanOpt l d = some 1 →
    ∃ int after, l = int ++ rbrace :: after ∧
      (∀ z, scanClose (int ++ rbrace :: (after ++ z)) (d - 1) = some int.length) ∧
      scanOpt after 1 = some 1 := by
  intro l
  induction l with
  | nil =>
      intro d hd h
      rw [show scanOpt [] d = some d from rfl] at h
      simp at h
      omega
  | cons c r ih =>
      intro d hd h
      by_cases h1 : c = lbrace
      · subst h1
        rw [scanOpt_lbrace] at h
        obtain ⟨int, after, hsplit, hclose, hafter⟩ := ih (d + 1) (by omega) h
        refine ⟨lbrace :: int, after, by rw [hsplit, List.cons_append], ?_, hafter⟩
        intro z
        rw [List.cons_append, scanClose_lbrace,
          show d - 1 + 1 = (d + 1) - 1 by omega, hclose z]
        rfl
      · by_cases h2 : c = rbrace
        · subst h2
          rw [scanOpt_rbrace _ _ (by omega)] at h
          by_cases hd2 : d = 2
          · subst hd2
            refine ⟨[], r, rfl, ?_, by simpa using h⟩
            intro z
            rw [List.nil_append, scanClose_rbrace_one]
            rfl
          · obtain ⟨int, after, hsplit, hclose, hafter⟩ :=
              ih (d - 1) (by omega) h
            refine ⟨rbrace :: int, after, by rw [hsplit, List.cons_append], ?_, hafter⟩
            intro z
            rw [List.cons_append, scanClose_rbrace_deep _ _ (by omega),
              show d - 1 - 1 = (d - 1) - 1 by omega, hclose z]
            rfl
        · have hstep : scanOpt (c :: r) d = scanOpt r d := by
            rw [scanOpt, if_neg h1, if_neg h2,
              if_neg (fun hx => absurd hx.2 (by omega) : ¬(c = pipeChar ∧ d = 1))]
          rw [hstep] at h
          obtain ⟨int, after, hsplit, hclose, hafter⟩ := ih d hd h
          refine ⟨c :: int, after, by rw [hsplit, List.cons_append], ?_, hafter⟩
          intro z
          rw [List.cons_append, scanClose_other _ _ h1 h2, hclose z]
          rfl

theorem scanClose_decomp : ∀ (l : List Char) (d j : Nat),
    scanClose l d = some j →
    ∃ int after, l = int ++ rbrace :: after ∧ int.length = j := by
  intro l
  induction l with
  | nil => intro d j h; cases h
  | cons c r ih =>
      intro d j h
      by_cases h1 : c = lbrace
      · subst h1
        rw [scanClose_lbrace] at h
        cases hs : scanClose r (d + 1) with
        | none => rw [hs] at h; cases h
        | some j2 =>
            rw [hs] at h
            simp at h
            obtain ⟨int, after, hsplit, hlen⟩ := ih (d + 1) j2 hs
            exact ⟨lbrace :: int, after, by rw [hsplit, List.cons_append], by simp; omega⟩
      · by_cases h2 : c = rbrace
        · subst h2
          by_cases hd : d = 1
          · subst hd
            rw [scanClose_rbrace_one] at h
            simp at h
            exact ⟨[], r, rfl, by simp [h]⟩
          · rw [scanClose_rbrace_deep _ _ hd] at h
            cases hs : scanClose r (d - 1) with
            | none => rw [hs] at h; cases h
            | some j2 =>
                rw [hs] at h
                simp at h
                obtain ⟨int, after, hsplit, hlen⟩ := ih (d - 1) j2 hs
                exact ⟨rbrace :: int, after, by rw [hsplit, List.cons_append], by simp; omega⟩
        · rw [scanClose_other _ _ h1 h2] at h
          cases hs : scanClose r d with
          | none => rw [hs] at h; cases h
          | some j2 =>
              rw [hs] at h
              simp at h
              obtain ⟨int, after, hsplit, hlen⟩ := ih d j2 hs
              exact ⟨c :: int, after, by rw [hsplit, List.cons_append], by simp; omega⟩

/-! pcLoop on a suffix whose depth never closes fails, regardless of fuel. -/

theorem pcLoop_none : ∀ (seg : List Char) (fuel : Nat) (str : List Char)
    (i os depth : Nat) (acc : List SpintaxNode),
    str.drop i = seg → scanClose seg depth = none →
    (pcLoop fuel str i os depth acc).1 = none := by
  intro seg
  induction seg with
  | nil =>
      intro fuel str i os depth acc hdrop hclose
      cases fuel with
      | zero => rfl
      | succ f =>
          have hget : str.get? i = none :=
            List.get?_eq_none.2 (List.drop_eq_nil_iff_le.1 hdrop)
          rw [pcLoop]
          simp only [hget]
  | cons c r ih =>
      intro fuel str i os depth acc hdrop hclose
      cases fuel with
      | zero => rfl
      | succ f =>
          have hget : str.get? i = some c := get?_of_drop_cons hdrop
          have hdrop2 : str.drop (i + 1) = r := drop_succ_of_drop_cons hdrop
          rw [pcLoop]
          simp only [hget]
          by_cases h1 : c = lbrace
          · subst h1
            rw [scanClose_lbrace, Option.map_eq_none'] at hclose
            rw [if_pos rfl]
            exact ih f str (i + 1) os (depth + 1) acc hdrop2 hclose
          · by_cases h2 : c = rbrace
            · subst h2
              by_cases hd : depth = 1
              · subst hd
                rw [scanClose_rbrace_one] at hclose
                cases hclose
              · rw [scanClose_rbrace_deep _ _ hd, Option.map_eq_none'] at hclose
                rw [if_neg rbrace_ne_lbrace, if_pos rfl, if_neg hd]
                exact ih f str (i + 1) os (depth - 1) acc hdrop2 hclose
            · rw [scanClose_other _ _ h1 h2, Option.map_eq_none'] at hclose
              rw [if_neg h1, if_neg h2]
              by_cases h3 : c = pipeChar ∧ depth = 1
              · rw [if_pos h3]
                exact ih f str (i + 1) (i + 1) depth _ hdrop2 hclose
              · rw [if_neg h3]
                exact ih f str (i + 1) os depth acc hdrop2 hclose

/-- parseChoice fails whenever the suffix after the opening brace never
closes the depth-1 scan (or the start is invalid). -/
theorem parseChoice_none {str : List Char} {p : Nat} (fuel : Nat)
    (hclose : scanClose (str.drop (p + 1)) 1 = none) :
    (parseChoice fuel str p).1 = none := by
  cases fuel with
  | zero => rfl
  | succ f =>
      rw [parseChoice]
      by_cases hguard : p + 1 ≥ str.length ∨ str.get? p ≠ some lbrace
      · rw [if_pos hguard]
      · rw [if_neg hguard]
        exact pcLoop_none (str.drop (p + 1)) f str (p + 1) (p + 1) 1 [] rfl hclose

/-! pcLoop walks through a neutral segment (no depth-1 close or split)
adjusting only depth and position. -/

theorem pcLoop_skip : ∀ (seg : List Char) (fuel : Nat) (str : List Char)
    (i os depth dEnd : Nat) (acc : List SpintaxNode) (tail : List Char),
    str.drop i = seg ++ tail → scanOpt seg depth = some dEnd →
    seg.length + 1 ≤ fuel →
    pcLoop fuel str i os depth acc =
      pcLoop (fuel - seg.length) str (i + seg.length) os dEnd acc := by
  intro seg
  induction seg with
  | nil =>
      intro fuel str i os depth dEnd acc tail hdrop hscan hfuel
      have hde : depth = dEnd := by
        rw [show scanOpt [] depth = some depth from rfl] at hscan
        simpa using hscan
      subst hde
      simp
  | cons c r ih =>
      intro fuel str i os depth dEnd acc tail hdrop hscan hfuel
      rw [List.cons_append] at hdrop
      have hget : str.get? i = some c := get?_of_drop_cons hdrop
      have hdrop2 : str.drop (i + 1) = r ++ tail := drop_succ_of_drop_cons hdrop
      obtain ⟨f, rfl⟩ : ∃ f, fuel = f + 1 := ⟨fuel - 1, by omega⟩
      rw [pcLoop]
      simp only [hget]
      by_cases h1 : c = lbrace
      · subst h1
        rw [scanOpt_lbrace] at hscan
        rw [if_pos rfl,
          ih f str (i + 1) os (depth + 1) dEnd acc tail hdrop2 hscan (by simp at hfuel ⊢; omega)]
        congr 1 <;> simp <;> omega
      · by_cases h2 : c = rbrace
        · subst h2
          have hd : ¬ depth = 1 := by
            intro hd
            subst hd
            rw [scanOpt, if_neg rbrace_ne_lbrace, if_pos rfl, if_pos rfl] at hscan
            cases hscan
          rw [scanOpt_rbrace _ _ hd] at hscan
          rw [if_neg rbrace_ne_lbrace, if_pos rfl, if_neg hd,
            ih f str (i + 1) os (depth - 1) dEnd acc tail hdrop2 hscan (by simp at hfuel ⊢; omega)]
          congr 1 <;> simp <;> omega
        · have h3 : ¬ (c = pipeChar ∧ depth = 1) := by
            intro hx
            rw [scanOpt, if_neg h1, if_neg h2, if_pos hx] at hscan
            cases hscan
          have hstep : scanOpt (c :: r) depth = scanOpt r depth := by
            rw [scanOpt, if_neg h1, if_neg h2, if_neg h3]
          rw [hstep] at hscan
          rw [if_neg h1, if_neg h2, if_neg h3,
            ih f str (i + 1) os depth dEnd acc tail hdrop2 hscan (by simp at hfuel ⊢; omega)]
          congr 1 <;> simp <;> omega

/-! Raw shape of the (content, children) state that pocLoop builds, and the
clean-up pass turning it into a canonical option. -/

/-- Children as accumulated by pocLoop before clean-up: texts are nonempty,
brace- and pipe-free, newline-normalized but untrimmed; choices are already
canonical; no leading text and no two texts in a row. -/
def rawOptChildren : Bool → List SpintaxNode → Bool
  | _, [] => true
  | tf, .text t :: rest =>
      !tf && !(t = "") && plainStr t && noCRLF t && rawOptChildren true rest
  | _, .choice cs :: rest =>
      canonChoiceChildren cs && rawOptChildren false rest
  | _, _ => false

/-- The map step of cleanupOption. -/
def cleanMap (children : List SpintaxNode) : List SpintaxNode :=
  children.map fun c =>
    match c with
    | .text tc => if tc = "" then c else SpintaxNode.text (jsTrim tc)
    | other => other

/-- The filter step of cleanupOption. -/
def cleanFilter (l : List SpintaxNode) : List SpintaxNode :=
  l.filter fun c =>
    match c with
    | .text tc => tc ≠ ""
    | _ => true

theorem cleanupOption_eq (content : String) (children : List SpintaxNode) :
    cleanupOption content children =
      (if (if content = "" then content else jsTrim content) = "" then
        match cleanFilter (cleanMap children) with
        | [SpintaxNode.text tc] => .option tc []
        | l => popTrailingEmptyText
            (if content = "" then content else jsTrim content) l
      else popTrailingEmptyText (if content = "" then content else jsTrim content)
        (cleanFilter (cleanMap children))) := rfl

theorem canonOptChildren_relax : ∀ (l : List SpintaxNode),
    canonOptChildren true l = true → canonOptChildren false l = true := by
  intro l h
  cases l with
  | nil => rfl
  | cons x rest =>
      cases x with
      | text t => simp [canonOptChildren] at h
      | option c ch => simp [canonOptChildren] at h
      | choice cs => exact h
      | root ch => simp [canonOptChildren] at h

theorem canonOptChildren_shape {l : List SpintaxNode}
    (h : canonOptChildren true l = true) :
    l = [] ∨ ∃ cs rest2, l = SpintaxNode.choice cs :: rest2 := by
  cases l with
  | nil => exact Or.inl rfl
  | cons x rest =>
      cases x with
      | text t => simp [canonOptChildren] at h
      | option c ch => simp [canonOptChildren] at h
      | choice cs => exact Or.inr ⟨cs, rest, rfl⟩
      | root ch => simp [canonOptChildren] at h

theorem canon_getLast_text_ne : ∀ (l : List SpintaxNode) (tf : Bool) (t : String),
    canonOptChildren tf l = true → l.getLast? = some (SpintaxNode.text t) →
    ¬ (t = "") := by
  intro l
  induction l with
  | nil => intro tf t _ hg; cases hg
  | cons x rest ih =>
      intro tf t h hg
      cases rest with
      | nil =>
          simp [List.getLast?] at hg
          subst hg
          intro he
          subst he
          simp [canonOptChildren] at h
      | cons y rest2 =>
          have hg2 : (y :: rest2).getLast? = some (SpintaxNode.text t) :=
            (List.getLast?_cons_cons).symm.trans hg
          cases x with
          | text t2 =>
              simp only [canonOptChildren, Bool.and_eq_true] at h
              exact ih true t h.2 hg2
          | option c ch => simp [canonOptChildren] at h
          | choice cs =>
              simp only [canonOptChildren, Bool.and_eq_true] at h
              exact ih false t h.2 hg2
          | root ch => simp [canonOptChildren] at h

theorem popTrailing_id_of_canon {c2 : String} {l : List SpintaxNode} (tf : Bool)
    (h : canonOptChildren tf l = true) :
    popTrailingEmptyText c2 l = .option c2 l := by
  rw [popTrailingEmptyText]
  by_cases hcond : (c2 ≠ "" && !l.isEmpty) = true
  · rw [if_pos hcond]
    cases hg : l.getLast? with
    | none => rfl
    | some x =>
        cases x with
        | text t =>
            show (if t = "" then SpintaxNode.option c2 l.dropLast
              else SpintaxNode.option c2 l) = SpintaxNode.option c2 l
            rw [if_neg (canon_getLast_text_ne l tf t h hg)]
        | option c ch => rfl
        | choice cs => rfl
        | root ch => rfl
  · rw [if_neg hcond]

theorem braces_nil_of_plain {t : String} (h : plainStr t = true) :
    bracesOf t.data = [] := by
  rw [bracesOf, List.filter_eq_nil_iff]
  intro a ha
  have := plainStr_mem h a ha
  simp [this.1, this.2.1]

theorem cleanFC_canon : ∀ (l : List SpintaxNode) (tf : Bool),
    rawOptChildren tf l = true →
    canonOptChildren tf (cleanFilter (cleanMap l)) = true := by
  intro l
  induction l with
  | nil => intro tf _; rfl
  | cons x rest ih =>
      intro tf h
      cases x with
      | text t =>
          simp only [rawOptChildren, Bool.and_eq_true, Bool.not_eq_true',
            decide_eq_false_iff_not] at h
          obtain ⟨⟨⟨⟨htf, htne⟩, hplain⟩, hcrlf⟩, hrest⟩ := h
          rw [show cleanFilter (cleanMap (SpintaxNode.text t :: rest)) =
            cleanFilter (SpintaxNode.text (jsTrim t) :: cleanMap rest) by
              simp [cleanMap, cleanFilter, htne]]
          by_cases hjt : jsTrim t = ""
          · rw [show cleanFilter (SpintaxNode.text (jsTrim t) :: cleanMap rest) =
              cleanFilter (cleanMap rest) by simp [cleanFilter, List.filter_cons, hjt]]
            subst htf
            exact canonOptChildren_relax _ (ih true hrest)
          · rw [show cleanFilter (SpintaxNode.text (jsTrim t) :: cleanMap rest) =
              SpintaxNode.text (jsTrim t) :: cleanFilter (cleanMap rest) by
                simp [cleanFilter, List.filter_cons, hjt]]
            subst htf
            simp [canonOptChildren, hjt, plainStr_jsTrim hplain,
              noCRLF_jsTrim hcrlf, jsTrim_idem t, ih true hrest]
      | option c ch => simp [rawOptChildren] at h
      | choice cs =>
          simp only [rawOptChildren, Bool.and_eq_true] at h
          rw [show cleanFilter (cleanMap (SpintaxNode.choice cs :: rest)) =
            SpintaxNode.choice cs :: cleanFilter (cleanMap rest) by
              simp [cleanMap, cleanFilter, List.filter_cons]]
          simp only [canonOptChildren, Bool.and_eq_true]
          exact ⟨h.1, ih false h.2⟩
      | root ch => simp [rawOptChildren] at h

theorem cleanFC_braces : ∀ (l : List SpintaxNode) (tf : Bool),
    rawOptChildren tf l = true →
    bracesOf (generateConcat (cleanFilter (cleanMap l))).data =
      bracesOf (generateConcat l).data := by
  intro l
  induction l with
  | nil => intro tf _; rfl
  | cons x rest ih =>
      intro tf h
      cases x with
      | text t =>
          simp only [rawOptChildren, Bool.and_eq_true, Bool.not_eq_true',
            decide_eq_false_iff_not] at h
          obtain ⟨⟨⟨⟨htf, htne⟩, hplain⟩, hcrlf⟩, hrest⟩ := h
          rw [show cleanFilter (cleanMap (SpintaxNode.text t :: rest)) =
            cleanFilter (SpintaxNode.text (jsTrim t) :: cleanMap rest) by
              simp [cleanMap, cleanFilter, htne]]
          rw [generateConcat_cons, strData_append, bracesOf_append,
            show generateSpintax (SpintaxNode.text t) = t from rfl,
            braces_nil_of_plain hplain, List.nil_append]
          by_cases hjt : jsTrim t = ""
          · rw [show cleanFilter (SpintaxNode.text (jsTrim t) :: cleanMap rest) =
              cleanFilter (cleanMap rest) by simp [cleanFilter, List.filter_cons, hjt]]
            exact ih true hrest
          · rw [show cleanFilter (SpintaxNode.text (jsTrim t) :: cleanMap rest) =
              SpintaxNode.text (jsTrim t) :: cleanFilter (cleanMap rest) by
                simp [cleanFilter, List.filter_cons, hjt]]
            rw [generateConcat_cons, strData_append, bracesOf_append,
              show generateSpintax (SpintaxNode.text (jsTrim t)) = jsTrim t from rfl,
              braces_nil_of_plain (plainStr_jsTrim hplain), List.nil_append]
            exact ih true hrest
      | option c ch => simp [rawOptChildren] at h
      | choice cs =>
          simp only [rawOptChildren, Bool.and_eq_true] at h
          rw [show cleanFilter (cleanMap (SpintaxNode.choice cs :: rest)) =
            SpintaxNode.choice cs :: cleanFilter (cleanMap rest) by
              simp [cleanMap, cleanFilter, List.filter_cons]]
          rw [generateConcat_cons, strData_append, bracesOf_append,
            generateConcat_cons, strData_append, bracesOf_append, ih false h.2]
      | root ch => simp [rawOptChildren] at h

theorem rawOptChildren_shape {l : List SpintaxNode}
    (h : rawOptChildren true l = true) :
    cleanFilter (cleanMap l) = [] ∨
      ∃ cs rest2, cleanFilter (cleanMap l) = SpintaxNode.choice cs :: rest2 := by
  cases l with
  | nil => exact Or.inl rfl
  | cons x rest =>
      cases x with
      | text t => simp [rawOptChildren] at h
      | option c ch => simp [rawOptChildren] at h
      | choice cs =>
          refine Or.inr ⟨cs, cleanFilter (cleanMap rest), ?_⟩
          simp [cleanMap, cleanFilter, List.filter_cons]
      | root ch => simp [rawOptChildren] at h

theorem jsTrim_empty : jsTrim "" = "" := rfl

theorem cleanup_canon {c : String} {ch : List SpintaxNode}
    (hc1 : plainStr c = true) (hc2 : noCRLF c = true)
    (hraw : rawOptChildren true ch = true) :
    canonOption (cleanupOption c ch) = true ∧
    bracesOf (generateSpintax (cleanupOption c ch)).data =
      bracesOf (generateConcat ch).data := by
  have hcanonF := cleanFC_canon ch true hraw
  have hbrF := cleanFC_braces ch true hraw
  rw [cleanupOption_eq]
  by_cases hc0 : (if c = "" then c else jsTrim c) = ""
  · rw [if_pos hc0]
    rcases rawOptChildren_shape hraw with hsh | ⟨cs, rest2, hsh⟩
    · rw [hsh, hc0]
      rw [hsh] at hbrF
      constructor
      · show canonOption (popTrailingEmptyText "" []) = true
        rw [popTrailing_id_of_canon true (show canonOptChildren true ([] : List SpintaxNode) = true from rfl)]
        decide
      · show bracesOf (generateSpintax (popTrailingEmptyText "" [])).data = _
        rw [popTrailing_id_of_canon true (show canonOptChildren true ([] : List SpintaxNode) = true from rfl), ← hbrF]
        rfl
    · rw [hsh, hc0]
      rw [hsh] at hcanonF hbrF
      constructor
      · show canonOption (popTrailingEmptyText "" _) = true
        rw [popTrailing_id_of_canon true hcanonF]
        simp only [canonOption, Bool.and_eq_true, decide_eq_true_eq]
        exact ⟨⟨⟨by decide, by decide⟩, by decide⟩, hcanonF⟩
      · show bracesOf (generateSpintax (popTrailingEmptyText "" _)).data = _
        rw [popTrailing_id_of_canon true hcanonF, genOption_eq, strData_append]
        rw [show ("" : String).data = [] from rfl, List.nil_append]
        exact hbrF
  · rw [if_neg hc0]
    have hcne : ¬ c = "" := by
      intro he
      rw [if_pos he] at hc0
      exact hc0 he
    rw [if_neg hcne] at hc0 ⊢
    rw [popTrailing_id_of_canon true hcanonF]
    constructor
    · simp only [canonOption, Bool.and_eq_true, decide_eq_true_eq]
      exact ⟨⟨⟨plainStr_jsTrim hc1, noCRLF_jsTrim hc2⟩, jsTrim_idem c⟩, hcanonF⟩
    · rw [genOption_eq, strData_append, bracesOf_append,
        braces_nil_of_plain (plainStr_jsTrim hc1), List.nil_append]
      exact hbrF

theorem cleanFC_id : ∀ (l : List SpintaxNode) (tf : Bool),
    canonOptChildren tf l = true → cleanFilter (cleanMap l) = l := by
  intro l
  induction l with
  | nil => intro tf _; rfl
  | cons x rest ih =>
      intro tf h
      cases x with
      | text t =>
          obtain ⟨htf, htne, hplain, hcrlf, htrim, hrest⟩ :=
            canonOptChildren_text_parts h
          rw [show cleanFilter (cleanMap (SpintaxNode.text t :: rest)) =
            cleanFilter (SpintaxNode.text (jsTrim t) :: cleanMap rest) by
              simp [cleanMap, cleanFilter, htne]]
          rw [htrim]
          rw [show cleanFilter (SpintaxNode.text t :: cleanMap rest) =
            SpintaxNode.text t :: cleanFilter (cleanMap rest) by
              simp [cleanFilter, List.filter_cons, htne]]
          rw [ih true hrest]
      | option c ch => simp [canonOptChildren] at h
      | choice cs =>
          obtain ⟨hcs, hrest⟩ := canonOptChildren_choice_parts h
          rw [show cleanFilter (cleanMap (SpintaxNode.choice cs :: rest)) =
            SpintaxNode.choice cs :: cleanFilter (cleanMap rest) by
              simp [cleanMap, cleanFilter, List.filter_cons]]
          rw [ih false hrest]
      | root ch => simp [canonOptChildren] at h

theorem cleanup_id {c : String} {ch : List SpintaxNode}
    (h : canonOption (.option c ch) = true) :
    cleanupOption c ch = .option c ch := by
  obtain ⟨hplain, hcrlf, htrim, hch⟩ := canonOption_parts h
  have hFC : cleanFilter (cleanMap ch) = ch := cleanFC_id ch true hch
  rw [cleanupOption_eq, hFC]
  by_cases hce : c = ""
  · subst hce
    rw [if_pos (by rw [if_pos rfl])]
    rcases canonOptChildren_shape hch with hsh | ⟨cs, rest2, hsh⟩
    · subst hsh
      show popTrailingEmptyText _ [] = _
      rw [popTrailing_id_of_canon true (show canonOptChildren true ([] : List SpintaxNode) = true from rfl), if_pos rfl]
    · subst hsh
      show popTrailingEmptyText _ _ = _
      rw [popTrailing_id_of_canon true hch, if_pos rfl]
  · have hcond : ¬ ((if c = "" then c else jsTrim c) = "") := by
      rw [if_neg hce, htrim]
      exact hce
    rw [if_neg hcond, if_neg hce, htrim]
    exact popTrailing_id_of_canon true hch

/-! Helpers for re-parsing canonical serializations. -/

theorem pushText_empty (content : String) (children : List SpintaxNode) :
    pushOptionText content children "" = (content, children) := by
  rw [pushOptionText, if_pos rfl]

theorem pushText_first {tc : String} (h : ¬ tc = "") :
    pushOptionText "" [] tc = (tc, []) := by
  rw [pushOptionText, if_neg h, if_pos (by simp)]

theorem pushText_child {tc : String} {children : List SpintaxNode}
    (h : ¬ tc = "") (hch : children ≠ []) (content : String) :
    pushOptionText content children tc = (content, children ++ [.text tc]) := by
  rw [pushOptionText, if_neg h, if_neg (by simp [hch])]

theorem noCRLF_chars {t : String} (h : noCRLF t = true) :
    ∀ c ∈ t.data, ¬ c = '\r' ∧ ¬ c = '\n' := by
  rw [noCRLF, List.all_eq_true] at h
  intro c hc
  have := h c hc
  simp at this
  tauto

theorem norm_str_id {t : String} (h : noCRLF t = true) :
    (String.mk (normalizeNewlines t.data)) = t := by
  rw [norm_id t.data (noCRLF_chars h)]

theorem substr_refl (s : List Char) (p : Nat) : substrL s p p = [] := by
  rw [substrL, Nat.sub_self, List.take_zero]

theorem plain_lbrace_free {t : String} (h : plainStr t = true) :
    t.data.all (fun a => !(a = lbrace)) = true := by
  rw [List.all_eq_true]
  intro c hc
  simp [(plainStr_mem h c hc).1]

theorem canonChoice_ne_nil {cs : List SpintaxNode}
    (h : canonChoiceChildren cs = true) : cs ≠ [] := by
  intro he
  subst he
  simp [canonChoiceChildren] at h

theorem genConcat_data (x : SpintaxNode) (rest : List SpintaxNode) :
    (generateConcat (x :: rest)).data =
      (generateSpintax x).data ++ (generateConcat rest).data := by
  rw [generateConcat_cons, strData_append]

theorem genOption_data (c : String) (ch : List SpintaxNode) :
    (generateSpintax (.option c ch)).data =
      c.data ++ (generateConcat ch).data := rfl

theorem genChoice_data {cs : List SpintaxNode}
    (h : canonChoiceChildren cs = true) :
    (generateSpintax (.choice cs)).data =
      lbrace :: (joinBar (generateEach cs)).data ++ [rbrace] := by
  rw [genChoice_eq cs (by simp [canonChoice_ne_nil h]), strData_append,
    strData_append, lbrace_str_data, rbrace_str_data, List.cons_append,
    List.nil_append]

theorem joinBar_cons2 (a b : String) (t : List String) :
    joinBar (a :: b :: t) = a ++ "|" ++ joinBar (b :: t) := rfl

theorem genEach_cons (o : SpintaxNode) (rest : List SpintaxNode) :
    generateEach (o :: rest) = generateSpintax o :: generateEach rest := rfl

theorem joinBar_single (a : String) : joinBar [a] = a := rfl

theorem genJoin_data2 (o o2 : SpintaxNode) (rest : List SpintaxNode) :
    (joinBar (generateEach (o :: o2 :: rest))).data =
      (generateSpintax o).data ++ pipeChar ::
        (joinBar (generateEach (o2 :: rest))).data := by
  rw [genEach_cons, genEach_cons, joinBar_cons2, strData_append, strData_append,
    pipe_str_data, List.append_assoc, List.cons_append, List.nil_append,
    ← genEach_cons]

/-! One-step evaluation lemmas for the parser loops. -/

theorem nextBrace_none_of_none {str : List Char} {pi endIndex : Nat}
    (h : findIdxFrom str lbrace pi = none) :
    (match findIdxFrom str lbrace pi with
      | some b => if b < endIndex then some b else none
      | none => none) = (none : Option Nat) := by
  rw [h]

theorem nextBrace_none_of_far {str : List Char} {pi endIndex b : Nat}
    (h : findIdxFrom str lbrace pi = some b) (hb : ¬ b < endIndex) :
    (match findIdxFrom str lbrace pi with
      | some b => if b < endIndex then some b else none
      | none => none) = (none : Option Nat) := by
  rw [h]
  simp only [if_neg hb]

theorem nextBrace_some {str : List Char} {pi endIndex b : Nat}
    (h : findIdxFrom str lbrace pi = some b) (hb : b < endIndex) :
    (match findIdxFrom str lbrace pi with
      | some b => if b < endIndex then some b else none
      | none => none) = some b := by
  rw [h]
  simp only [if_pos hb]

theorem pocLoop_stop (f : Nat) (str : List Char) (endIndex pi : Nat)
    (content : String) (children : List SpintaxNode) (hlt : ¬ pi < endIndex) :
    pocLoop (f + 1) str endIndex pi content children = (content, children) := by
  rw [pocLoop, if_neg hlt]

theorem pocLoop_step_none (f : Nat) (str : List Char) (endIndex pi : Nat)
    (content : String) (children : List SpintaxNode) (hlt : pi < endIndex)
    (hnb : (match findIdxFrom str lbrace pi with
      | some b => if b < endIndex then some b else none
      | none => none) = (none : Option Nat)) :
    pocLoop (f + 1) str endIndex pi content children =
      pushOptionText content children
        (String.mk (normalizeNewlines (substrL str pi endIndex))) := by
  rw [pocLoop, if_pos hlt]
  simp only [hnb]

theorem pocLoop_step_choice (f : Nat) (str : List Char) (endIndex pi nb : Nat)
    (content : String) (children cs : List SpintaxNode) (ei : Nat)
    (hlt : pi < endIndex)
    (hnb : (match findIdxFrom str lbrace pi with
      | some b => if b < endIndex then some b else none
      | none => none) = some nb)
    (hpc : parseChoice f str nb = (some cs, ei)) :
    pocLoop (f + 1) str endIndex pi content children =
      pocLoop f str endIndex ei
        (pushOptionText content children
          (String.mk (normalizeNewlines (substrL str pi nb)))).1
        ((pushOptionText content children
          (String.mk (normalizeNewlines (substrL str pi nb)))).2 ++ [.choice cs]) := by
  rw [pocLoop, if_pos hlt]
  simp only [hnb, hpc]

theorem pocLoop_step_fail (f : Nat) (str : List Char) (endIndex pi nb : Nat)
    (content : String) (children : List SpintaxNode) (e2 : Nat)
    (hlt : pi < endIndex)
    (hnb : (match findIdxFrom str lbrace pi with
      | some b => if b < endIndex then some b else none
      | none => none) = some nb)
    (hpc : parseChoice f str nb = (none, e2)) :
    pocLoop (f + 1) str endIndex pi content children =
      pocLoop f str endIndex (nb + 1)
        (pushOptionText content children
          (String.mk (normalizeNewlines (substrL str pi nb)))).1
        (pushOptionText content children
          (String.mk (normalizeNewlines (substrL str pi nb)))).2 := by
  rw [pocLoop, if_pos hlt]
  simp only [hnb, hpc]

theorem pcLoop_step_close (f : Nat) (str : List Char) (i os : Nat)
    (acc : List SpintaxNode) (hget : str.get? i = some rbrace) :
    pcLoop (f + 1) str i os 1 acc =
      (some (acc ++ [parseOptionContent f str os i]), i + 1) := by
  rw [pcLoop]
  simp only [hget]
  simp [rbrace_ne_lbrace]

theorem pcLoop_step_pipe (f : Nat) (str : List Char) (i os : Nat)
    (acc : List SpintaxNode) (hget : str.get? i = some pipeChar) :
    pcLoop (f + 1) str i os 1 acc =
      pcLoop f str (i + 1) (i + 1) 1
        (acc ++ [parseOptionContent f str os i]) := by
  rw [pcLoop]
  simp only [hget]
  simp [pipe_ne_lbrace, pipe_ne_rbrace]

theorem pushText_start (c : String) : pushOptionText "" [] c = (c, []) := by
  by_cases hc : c = ""
  · subst hc
    exact pushText_empty "" []
  · exact pushText_first hc

theorem data_ne_nil {t : String} (h : ¬ t = "") : t.data ≠ [] := by
  intro he
  exact h (str_eq_of_data (by rw [he]))

theorem pcNeedL_lt_pclNeed {l M : Nat} (h : l ≤ M) :
    pcNeedL l + 1 ≤ pclNeed M := by
  unfold pcNeedL pclNeed
  have h1 := sq_le_sq_nat h
  have h2 : (M + 2) * (M + 2) = M * M + 4 * M + 4 := by ring
  omega

theorem pclNeed_lt {a M : Nat} (h : a + 2 ≤ M) :
    pclNeed a + 1 ≤ pclNeed M := by
  unfold pclNeed
  have h1 := sq_le_sq_nat (show a + 2 ≤ M from h)
  have h2 : (M + 2) * (M + 2) = M * M + 4 * M + 4 := by ring
  omega

theorem pcNeedL_join (j : Nat) : pcNeedL (j + 2) = joinNeed j + 1 := by
  unfold pcNeedL joinNeed pocNeed
  ring

theorem joinNeed_split1 {m fuel : Nat} (h : joinNeed m ≤ fuel) :
    pocNeed m + (m + 1) ≤ fuel := by
  unfold joinNeed at h
  omega

theorem joinNeed_step {m J2 fuel : Nat} (h : joinNeed (m + 1 + J2) ≤ fuel) :
    pocNeed m + (m + 1) ≤ fuel ∧ joinNeed J2 + (m + 1) ≤ fuel := by
  unfold joinNeed at h ⊢
  have h1 := pocNeed_mono (show m ≤ m + 1 + J2 by omega)
  have h2 := pocNeed_mono (show J2 ≤ m + 1 + J2 by omega)
  omega

theorem canonChoice_cons2 {o o2 : SpintaxNode} {rest : List SpintaxNode}
    (h : canonChoiceChildren (o :: o2 :: rest) = true) :
    canonOption o = true ∧ canonChoiceChildren (o2 :: rest) = true := by
  simp only [canonChoiceChildren, Bool.and_eq_true] at h
  exact h

theorem pocNeed_ge2 (m : Nat) : 2 ≤ pocNeed m := by
  have h : 1 * 1 ≤ (m + 2) * (m + 2) := Nat.mul_le_mul (by omega) (by omega)
  unfold pocNeed
  omega

theorem pclNeed_ge2 (m : Nat) : 2 ≤ pclNeed m := by
  have h : 2 * 1 ≤ (m + 2) * (m + 2) := Nat.mul_le_mul (by omega) (by omega)
  unfold pclNeed
  omega

theorem pcNeedL_ge1 (l : Nat) : 1 ≤ pcNeedL l := Nat.le_add_left 1 _

/-! Re-parsing a canonical serialization yields the original nodes back. -/

mutual
theorem reparse_option : ∀ (o : SpintaxNode), canonOption o = true →
    ∀ (str : List Char) (p fuel : Nat) (tail : List Char),
    str.drop p = (generateSpintax o).data ++ tail →
    pocNeed (generateSpintax o).data.length ≤ fuel →
    parseOptionContent fuel str p (p + (generateSpintax o).data.length) = o
  | .option c ch, h, str, p, fuel, tail, hdrop, hfuel => by
      obtain ⟨hplain, hcrlf, htrim, hch⟩ := canonOption_parts h
      obtain ⟨f0, rfl⟩ : ∃ f0, fuel = f0 + 1 :=
        ⟨fuel - 1, by have := le_trans (pocNeed_ge2 _) hfuel; omega⟩
      have hfree := plain_lbrace_free hplain
      rw [parseOptionContent]
      have hloop : pocLoop f0 str
          (p + (generateSpintax (SpintaxNode.option c ch)).data.length) p "" [] =
          (c, ch) := by
        rcases canonOptChildren_shape hch with hsh | ⟨cs1, rest, hsh⟩
        · subst hsh
          have hMc : (generateSpintax (SpintaxNode.option c [])).data = c.data := by
            rw [genOption_data, show (generateConcat []).data = ([] : List Char)
              from rfl, List.append_nil]
          rw [hMc] at hdrop ⊢
          obtain ⟨f1, rfl⟩ : ∃ f1, f0 = f1 + 1 :=
            ⟨f0 - 1, by have := le_trans (pocNeed_ge2 _) hfuel; omega⟩
          by_cases hc : c = ""
          · subst hc
            rw [show ("" : String).data.length = 0 from rfl]
            rw [pocLoop_stop _ _ _ _ _ _ (by omega)]
          · have hlt : p < p + c.data.length := by
              have := List.length_pos.2 (data_ne_nil hc)
              omega
            have hnb : (match findIdxFrom str lbrace p with
                | some b => if b < p + c.data.length then some b else none
                | none => none) = (none : Option Nat) := by
              cases hfi : findIdxFrom str lbrace p with
              | none => rfl
              | some b =>
                  have hge := findIdxFrom_lower hdrop hfree b hfi
                  show (if b < p + c.data.length then some b else none) = none
                  rw [if_neg (by omega)]
            rw [pocLoop_step_none _ _ _ _ _ _ hlt hnb,
              substr_of_drop_append hdrop, norm_str_id hcrlf, pushText_start]
        · subst hsh
          obtain ⟨hcs1, hrest⟩ := canonOptChildren_choice_parts hch
          have hchd : (generateSpintax (SpintaxNode.choice cs1)).data =
              lbrace :: (joinBar (generateEach cs1)).data ++ [rbrace] :=
            genChoice_data hcs1
          have hM : (generateSpintax
              (SpintaxNode.option c (SpintaxNode.choice cs1 :: rest))).data =
              c.data ++ ((generateSpintax (SpintaxNode.choice cs1)).data ++
                (generateConcat rest).data) := by
            rw [genOption_data, genConcat_data]
          rw [hM] at hdrop hfuel ⊢
          have hdropA : str.drop p = c.data ++
              (((generateSpintax (SpintaxNode.choice cs1)).data ++
                (generateConcat rest).data) ++ tail) := by
            rw [hdrop, List.append_assoc]
          have hlen1 : 2 ≤ (generateSpintax (SpintaxNode.choice cs1)).data.length := by
            rw [hchd]
            simp
          obtain ⟨f1, rfl⟩ : ∃ f1, f0 = f1 + 1 :=
            ⟨f0 - 1, by have := le_trans (pocNeed_ge2 _) hfuel; omega⟩
          have hlt : p < p + (c.data ++
              ((generateSpintax (SpintaxNode.choice cs1)).data ++
                (generateConcat rest).data)).length := by
            simp only [List.length_append]
            omega
          have hdropB : str.drop p = c.data ++ (lbrace ::
              ((joinBar (generateEach cs1)).data ++ [rbrace] ++
                ((generateConcat rest).data ++ tail))) := by
            rw [hdropA, hchd]
            simp [List.append_assoc]
          have hfi : findIdxFrom str lbrace p = some (p + c.data.length) :=
            findIdxFrom_some hdropB hfree
          have hnb := @nextBrace_some str p
            (p + (c.data ++ ((generateSpintax (SpintaxNode.choice cs1)).data ++
              (generateConcat rest).data)).length) (p + c.data.length) hfi
            (by simp only [List.length_append]; omega)
          have hdropC : str.drop (p + c.data.length) =
              (generateSpintax (SpintaxNode.choice cs1)).data ++
                ((generateConcat rest).data ++ tail) := by
            have := drop_of_drop_append hdropA
            rw [this, List.append_assoc]
          have hMlen : c.data.length +
              ((generateSpintax (SpintaxNode.choice cs1)).data.length +
                (generateConcat rest).data.length) =
              (c.data ++ ((generateSpintax (SpintaxNode.choice cs1)).data ++
                (generateConcat rest).data)).length := by
            simp
          have hfC : pcNeedL (generateSpintax (SpintaxNode.choice cs1)).data.length
              ≤ f1 := by
            have h1 := pcNeedL_lt_pclNeed (show
              (generateSpintax (SpintaxNode.choice cs1)).data.length ≤
              (c.data ++ ((generateSpintax (SpintaxNode.choice cs1)).data ++
                (generateConcat rest).data)).length by
                simp only [List.length_append]; omega)
            unfold pocNeed at hfuel
            unfold pclNeed at h1
            omega
          have hpc := reparse_choice cs1 hcs1 str (p + c.data.length) f1
            ((generateConcat rest).data ++ tail) hdropC hfC
          rw [pocLoop_step_choice f1 str _ p (p + c.data.length) "" [] cs1 _
            hlt hnb hpc]
          rw [substr_of_drop_append hdropA, norm_str_id hcrlf, pushText_start]
          have hdropR : str.drop (p + c.data.length +
              (generateSpintax (SpintaxNode.choice cs1)).data.length) =
              (generateConcat rest).data ++ tail :=
            drop_of_drop_append hdropC
          have hend : p + (c.data ++
              ((generateSpintax (SpintaxNode.choice cs1)).data ++
                (generateConcat rest).data)).length =
              (p + c.data.length +
                (generateSpintax (SpintaxNode.choice cs1)).data.length) +
                (generateConcat rest).data.length := by
            simp only [List.length_append]
            omega
          have hfR : pclNeed (generateConcat rest).data.length ≤ f1 := by
            have h1 := pclNeed_lt (show (generateConcat rest).data.length + 2 ≤
              (c.data ++ ((generateSpintax (SpintaxNode.choice cs1)).data ++
                (generateConcat rest).data)).length by
                simp only [List.length_append]; omega)
            unfold pocNeed at hfuel
            unfold pclNeed at h1 ⊢
            omega
          have hres := reparse_optChildren rest hrest str
            (p + c.data.length +
              (generateSpintax (SpintaxNode.choice cs1)).data.length) f1
            (p + (c.data ++ ((generateSpintax (SpintaxNode.choice cs1)).data ++
              (generateConcat rest).data)).length)
            c [SpintaxNode.choice cs1] tail hdropR (by simp) hend hfR
          rw [show ([] : List SpintaxNode) ++ [SpintaxNode.choice cs1] =
            [SpintaxNode.choice cs1] from rfl, hres]
          simp
      rw [hloop]
      exact cleanup_id h
  | .text t, h, _, _, _, _, _, _ => by simp [canonOption] at h
  | .choice cs, h, _, _, _, _, _, _ => by simp [canonOption] at h
  | .root ch, h, _, _, _, _, _, _ => by simp [canonOption] at h

theorem reparse_optChildren : ∀ (ch : List SpintaxNode),
    canonOptChildren false ch = true →
    ∀ (str : List Char) (pi fuel endIndex : Nat) (content : String)
      (acc : List SpintaxNode) (tail : List Char),
    str.drop pi = (generateConcat ch).data ++ tail →
    acc ≠ [] →
    endIndex = pi + (generateConcat ch).data.length →
    pclNeed (generateConcat ch).data.length ≤ fuel →
    pocLoop fuel str endIndex pi content acc = (content, acc ++ ch)
  | [], _, str, pi, fuel, endIndex, content, acc, tail, hdrop, hacc, hend, hfuel => by
      have hend0 : endIndex = pi := by
        rw [hend, show (generateConcat []).data.length = 0 from rfl]
        omega
      subst hend0
      cases fuel with
      | zero => simp [pocLoop]
      | succ f => rw [pocLoop_stop _ _ _ _ _ _ (by omega)]; simp
  | .text t :: rest, h, str, pi, fuel, endIndex, content, acc, tail,
      hdrop, hacc, hend, hfuel => by
      obtain ⟨_, htne, hplain, hcrlf, htrim, hrest⟩ :=
        canonOptChildren_text_parts h
      have hfree := plain_lbrace_free hplain
      have htlen : 1 ≤ t.data.length := List.length_pos.2 (data_ne_nil htne)
      rcases canonOptChildren_shape hrest with hsh | ⟨cs2, rest2, hsh⟩
      · subst hsh
        have hMc : (generateConcat [SpintaxNode.text t]).data = t.data := by
          rw [genConcat_data, show (generateConcat []).data = ([] : List Char)
            from rfl, List.append_nil]
          rfl
        rw [hMc] at hdrop hend hfuel
        subst hend
        obtain ⟨f1, rfl⟩ : ∃ f1, fuel = f1 + 1 :=
          ⟨fuel - 1, by have := le_trans (pclNeed_ge2 _) hfuel; omega⟩
        have hlt : pi < pi + t.data.length := by omega
        have hnb : (match findIdxFrom str lbrace pi with
            | some b => if b < pi + t.data.length then some b else none
            | none => none) = (none : Option Nat) := by
          cases hfi : findIdxFrom str lbrace pi with
          | none => rfl
          | some b =>
              have hge := findIdxFrom_lower hdrop hfree b hfi
              show (if b < pi + t.data.length then some b else none) = none
              rw [if_neg (by omega)]
        rw [pocLoop_step_none _ _ _ _ _ _ hlt hnb,
          substr_of_drop_append hdrop, norm_str_id hcrlf,
          pushText_child htne hacc]
      · subst hsh
        obtain ⟨hcs2, hrest2⟩ := canonOptChildren_choice_parts hrest
        have hchd : (generateSpintax (SpintaxNode.choice cs2)).data =
            lbrace :: (joinBar (generateEach cs2)).data ++ [rbrace] :=
          genChoice_data hcs2
        have hlen2 : 2 ≤ (generateSpintax (SpintaxNode.choice cs2)).data.length := by
          rw [hchd]
          simp
        have hM : (generateConcat
            (SpintaxNode.text t :: SpintaxNode.choice cs2 :: rest2)).data =
            t.data ++ ((generateSpintax (SpintaxNode.choice cs2)).data ++
              (generateConcat rest2).data) := by
          rw [genConcat_data, genConcat_data,
            show generateSpintax (SpintaxNode.text t) = t from rfl]
        rw [hM] at hdrop hend hfuel
        subst hend
        obtain ⟨f1, rfl⟩ : ∃ f1, fuel = f1 + 1 :=
          ⟨fuel - 1, by have := le_trans (pclNeed_ge2 _) hfuel; omega⟩
        have hdropA : str.drop pi = t.data ++
            (((generateSpintax (SpintaxNode.choice cs2)).data ++
              (generateConcat rest2).data) ++ tail) := by
          rw [hdrop, List.append_assoc]
        have hlt : pi < pi + (t.data ++
            ((generateSpintax (SpintaxNode.choice cs2)).data ++
              (generateConcat rest2).data)).length := by
          simp only [List.length_append]
          omega
        have hdropB : str.drop pi = t.data ++ (lbrace ::
            ((joinBar (generateEach cs2)).data ++ [rbrace] ++
              ((generateConcat rest2).data ++ tail))) := by
          rw [hdropA, hchd]
          simp [List.append_assoc]
        have hfi : findIdxFrom str lbrace pi = some (pi + t.data.length) :=
          findIdxFrom_some hdropB hfree
        have hnb := @nextBrace_some str pi
          (pi + (t.data ++ ((generateSpintax (SpintaxNode.choice cs2)).data ++
            (generateConcat rest2).data)).length) (pi + t.data.length) hfi
          (by simp only [List.length_append]; omega)
        have hdropC : str.drop (pi + t.data.length) =
            (generateSpintax (SpintaxNode.choice cs2)).data ++
              ((generateConcat rest2).data ++ tail) := by
          have := drop_of_drop_append hdropA
          rw [this, List.append_assoc]
        have hfC : pcNeedL (generateSpintax (SpintaxNode.choice cs2)).data.length
            ≤ f1 := by
          have h1 := pcNeedL_lt_pclNeed (show
            (generateSpintax (SpintaxNode.choice cs2)).data.length ≤
            (t.data ++ ((generateSpintax (SpintaxNode.choice cs2)).data ++
              (generateConcat rest2).data)).length by
              simp only [List.length_append]; omega)
          unfold pclNeed at hfuel h1
          omega
        have hpc := reparse_choice cs2 hcs2 str (pi + t.data.length) f1
          ((generateConcat rest2).data ++ tail) hdropC hfC
        rw [pocLoop_step_choice f1 str _ pi (pi + t.data.length) content acc cs2 _
          hlt hnb hpc]
        rw [substr_of_drop_append hdropA, norm_str_id hcrlf,
          pushText_child htne hacc]
        have hdropR : str.drop (pi + t.data.length +
            (generateSpintax (SpintaxNode.choice cs2)).data.length) =
            (generateConcat rest2).data ++ tail :=
          drop_of_drop_append hdropC
        have hend2 : pi + (t.data ++
            ((generateSpintax (SpintaxNode.choice cs2)).data ++
              (generateConcat rest2).data)).length =
            (pi + t.data.length +
              (generateSpintax (SpintaxNode.choice cs2)).data.length) +
              (generateConcat rest2).data.length := by
          simp only [List.length_append]
          omega
        have hfR : pclNeed (generateConcat rest2).data.length ≤ f1 := by
          have h1 := pclNeed_lt (show (generateConcat rest2).data.length + 2 ≤
            (t.data ++ ((generateSpintax (SpintaxNode.choice cs2)).data ++
              (generateConcat rest2).data)).length by
              simp only [List.length_append]; omega)
          unfold pclNeed at hfuel h1 ⊢
          omega
        have hres := reparse_optChildren rest2 hrest2 str
          (pi + t.data.length +
            (generateSpintax (SpintaxNode.choice cs2)).data.length) f1
          (pi + (t.data ++ ((generateSpintax (SpintaxNode.choice cs2)).data ++
            (generateConcat rest2).data)).length)
          content (acc ++ [SpintaxNode.text t] ++ [SpintaxNode.choice cs2]) tail
          hdropR (by simp) hend2 hfR
        rw [show (acc ++ [SpintaxNode.text t]) ++ [SpintaxNode.choice cs2] =
          acc ++ [SpintaxNode.text t] ++ [SpintaxNode.choice cs2] from rfl, hres]
        simp
  | .choice cs1 :: rest, h, str, pi, fuel, endIndex, content, acc, tail,
      hdrop, hacc, hend, hfuel => by
      obtain ⟨hcs1, hrest⟩ := canonOptChildren_choice_parts h
      have hchd : (generateSpintax (SpintaxNode.choice cs1)).data =
          lbrace :: (joinBar (generateEach cs1)).data ++ [rbrace] :=
        genChoice_data hcs1
      have hlen1 : 2 ≤ (generateSpintax (SpintaxNode.choice cs1)).data.length := by
        rw [hchd]
        simp
      have hM : (generateConcat (SpintaxNode.choice cs1 :: rest)).data =
          (generateSpintax (SpintaxNode.choice cs1)).data ++
            (generateConcat rest).data := genConcat_data _ _
      rw [hM] at hdrop hend hfuel
      subst hend
      obtain ⟨f1, rfl⟩ : ∃ f1, fuel = f1 + 1 :=
        ⟨fuel - 1, by have := le_trans (pclNeed_ge2 _) hfuel; omega⟩
      have hlt : pi < pi + ((generateSpintax (SpintaxNode.choice cs1)).data ++
          (generateConcat rest).data).length := by
        simp only [List.length_append]
        omega
      have hdropB : str.drop pi = ([] : List Char) ++ (lbrace ::
          ((joinBar (generateEach cs1)).data ++ [rbrace] ++
            ((generateConcat rest).data ++ tail))) := by
        rw [hdrop, hchd]
        simp [List.append_assoc]
      have hfi : findIdxFrom str lbrace pi = some pi := by
        have := findIdxFrom_some hdropB rfl
        simpa using this
      have hnb := nextBrace_some hfi hlt
      have hdropC : str.drop pi =
          (generateSpintax (SpintaxNode.choice cs1)).data ++
            ((generateConcat rest).data ++ tail) := by
        rw [hdrop, List.append_assoc]
      have hfC : pcNeedL (generateSpintax (SpintaxNode.choice cs1)).data.length
          ≤ f1 := by
        have h1 := pcNeedL_lt_pclNeed (show
          (generateSpintax (SpintaxNode.choice cs1)).data.length ≤
          ((generateSpintax (SpintaxNode.choice cs1)).data ++
            (generateConcat rest).data).length by
            simp only [List.length_append]; omega)
        unfold pclNeed at hfuel h1
        omega
      have hpc := reparse_choice cs1 hcs1 str pi f1
        ((generateConcat rest).data ++ tail) hdropC hfC
      rw [pocLoop_step_choice f1 str _ pi pi content acc cs1 _ hlt hnb hpc]
      rw [substr_refl, show normalizeNewlines [] = [] from rfl,
        show String.mk [] = "" from rfl, pushText_empty]
      have hdropR : str.drop (pi +
          (generateSpintax (SpintaxNode.choice cs1)).data.length) =
          (generateConcat rest).data ++ tail :=
        drop_of_drop_append hdropC
      have hend2 : pi + ((generateSpintax (SpintaxNode.choice cs1)).data ++
          (generateConcat rest).data).length =
          (pi + (generateSpintax (SpintaxNode.choice cs1)).data.length) +
            (generateConcat rest).data.length := by
        simp only [List.length_append]
        omega
      have hfR : pclNeed (generateConcat rest).data.length ≤ f1 := by
        have h1 := pclNeed_lt (show (generateConcat rest).data.length + 2 ≤
          ((generateSpintax (SpintaxNode.choice cs1)).data ++
            (generateConcat rest).data).length by
            simp only [List.length_append]; omega)
        unfold pclNeed at hfuel h1 ⊢
        omega
      have hres := reparse_optChildren rest hrest str
        (pi + (generateSpintax (SpintaxNode.choice cs1)).data.length) f1
        (pi + ((generateSpintax (SpintaxNode.choice cs1)).data ++
          (generateConcat rest).data).length)
        content (acc ++ [SpintaxNode.choice cs1]) tail
        hdropR (by simp) hend2 hfR
      rw [hres]
      simp
  | .option _ _ :: _, h, _, _, _, _, _, _, _, _, _, _, _ => by
      simp [canonOptChildren] at h
  | .root _ :: _, h, _, _, _, _, _, _, _, _, _, _, _ => by
      simp [canonOptChildren] at h

theorem reparse_choice : ∀ (cs : List SpintaxNode),
    canonChoiceChildren cs = true →
    ∀ (str : List Char) (p fuel : Nat) (tail : List Char),
    str.drop p = (generateSpintax (.choice cs)).data ++ tail →
    pcNeedL (generateSpintax (.choice cs)).data.length ≤ fuel →
    parseChoice fuel str p =
      (some cs, p + (generateSpintax (.choice cs)).data.length)
  | cs, h, str, p, fuel, tail, hdrop, hfuel => by
      have hchd : (generateSpintax (SpintaxNode.choice cs)).data =
          lbrace :: (joinBar (generateEach cs)).data ++ [rbrace] :=
        genChoice_data h
      rw [hchd] at hdrop hfuel ⊢
      have hlenE : (lbrace :: (joinBar (generateEach cs)).data ++ [rbrace]).length
          = (joinBar (generateEach cs)).data.length + 2 := by
        simp
      rw [hlenE] at hfuel
      obtain ⟨f0, rfl⟩ : ∃ f0, fuel = f0 + 1 :=
        ⟨fuel - 1, by have := le_trans (pcNeedL_ge1 _) hfuel; omega⟩
      have hdropA : str.drop p = lbrace ::
          ((joinBar (generateEach cs)).data ++ rbrace :: tail) := by
        rw [hdrop]
        simp
      have hget : str.get? p = some lbrace := get?_of_drop_cons hdropA
      have hlen : p + 2 ≤ str.length := by
        have h1 : (str.drop p).length = str.length - p := List.length_drop p str
        rw [hdropA] at h1
        simp at h1
        omega
      rw [parseChoice, if_neg (by
        push_neg
        constructor
        · omega
        · rw [hget])]
      have hdropJ : str.drop (p + 1) =
          (joinBar (generateEach cs)).data ++ rbrace :: tail :=
        drop_succ_of_drop_cons hdropA
      have hfJ : joinNeed (joinBar (generateEach cs)).data.length ≤ f0 := by
        have := pcNeedL_join (joinBar (generateEach cs)).data.length
        omega
      have hres := reparse_join cs h str (p + 1) f0 [] tail hdropJ hfJ
      rw [hres]
      rw [show ([] : List SpintaxNode) ++ cs = cs from rfl]
      rw [hlenE]
      congr 1
      omega

theorem reparse_join : ∀ (cs : List SpintaxNode),
    canonChoiceChildren cs = true →
    ∀ (str : List Char) (i fuel : Nat) (acc : List SpintaxNode)
      (tail : List Char),
    str.drop i = (joinBar (generateEach cs)).data ++ rbrace :: tail →
    joinNeed (joinBar (generateEach cs)).data.length ≤ fuel →
    pcLoop fuel str i i 1 acc =
      (some (acc ++ cs), i + (joinBar (generateEach cs)).data.length + 1)
  | [], h, _, _, _, _, _, _, _ => by simp [canonChoiceChildren] at h
  | [o], h, str, i, fuel, acc, tail, hdrop, hfuel => by
      have ho : canonOption o = true := by
        simpa [canonChoiceChildren] using h
      have hJ : joinBar (generateEach [o]) = generateSpintax o := by
        rw [genEach_cons, show generateEach [] = [] from rfl, joinBar_single]
      rw [hJ] at hdrop hfuel ⊢
      have hsplit := joinNeed_split1 hfuel
      have hskip := pcLoop_skip (generateSpintax o).data fuel str i i 1 1 acc
        (rbrace :: tail) hdrop
        (scanOpt_genOption o ho 1 (Nat.le_refl 1))
        (by unfold pocNeed at hsplit; omega)
      rw [hskip]
      have hdropR : str.drop (i + (generateSpintax o).data.length) =
          rbrace :: tail := drop_of_drop_append hdrop
      have hget : str.get? (i + (generateSpintax o).data.length) = some rbrace :=
        get?_of_drop_cons hdropR
      obtain ⟨f2, hf2⟩ : ∃ f2, fuel - (generateSpintax o).data.length = f2 + 1 :=
        ⟨fuel - (generateSpintax o).data.length - 1,
          by unfold pocNeed at hsplit; omega⟩
      rw [hf2, pcLoop_step_close f2 str _ i acc hget]
      have hopt := reparse_option o ho str i f2 (rbrace :: tail) hdrop
        (by unfold pocNeed at hsplit ⊢; omega)
      rw [hopt]
  | o :: o2 :: rest, h, str, i, fuel, acc, tail, hdrop, hfuel => by
      obtain ⟨ho, hrest⟩ := canonChoice_cons2 h
      have hJd : (joinBar (generateEach (o :: o2 :: rest))).data =
          (generateSpintax o).data ++ pipeChar ::
            (joinBar (generateEach (o2 :: rest))).data :=
        genJoin_data2 o o2 rest
      rw [hJd] at hdrop hfuel ⊢
      have hJlen : ((generateSpintax o).data ++ pipeChar ::
          (joinBar (generateEach (o2 :: rest))).data).length =
          (generateSpintax o).data.length + 1 +
            (joinBar (generateEach (o2 :: rest))).data.length := by
        simp
        omega
      rw [hJlen] at hfuel
      obtain ⟨hsplit1, hsplit2⟩ := joinNeed_step hfuel
      have hdropA : str.drop i = (generateSpintax o).data ++
          (pipeChar :: ((joinBar (generateEach (o2 :: rest))).data ++
            rbrace :: tail)) := by
        rw [hdrop]
        simp
      have hskip := pcLoop_skip (generateSpintax o).data fuel str i i 1 1 acc
        (pipeChar :: ((joinBar (generateEach (o2 :: rest))).data ++
          rbrace :: tail)) hdropA
        (scanOpt_genOption o ho 1 (Nat.le_refl 1))
        (by unfold pocNeed at hsplit1; omega)
      rw [hskip]
      have hdropP : str.drop (i + (generateSpintax o).data.length) =
          pipeChar :: ((joinBar (generateEach (o2 :: rest))).data ++
            rbrace :: tail) := drop_of_drop_append hdropA
      have hget : str.get? (i + (generateSpintax o).data.length) =
          some pipeChar := get?_of_drop_cons hdropP
      obtain ⟨f2, hf2⟩ : ∃ f2, fuel - (generateSpintax o).data.length = f2 + 1 :=
        ⟨fuel - (generateSpintax o).data.length - 1,
          by unfold pocNeed at hsplit1; omega⟩
      rw [hf2, pcLoop_step_pipe f2 str _ i acc hget]
      have hopt := reparse_option o ho str i f2
        (pipeChar :: ((joinBar (generateEach (o2 :: rest))).data ++
          rbrace :: tail)) hdropA
        (by unfold pocNeed at hsplit1 ⊢; omega)
      rw [hopt]
      have hdropJ2 : str.drop (i + (generateSpintax o).data.length + 1) =
          (joinBar (generateEach (o2 :: rest))).data ++ rbrace :: tail :=
        drop_succ_of_drop_cons hdropP
      have hres := reparse_join (o2 :: rest) hrest str
        (i + (generateSpintax o).data.length + 1) f2 (acc ++ [o]) tail
        hdropJ2 (by omega)
      rw [hres]
      rw [List.append_assoc]
      rw [show [o] ++ (o2 :: rest) = o :: o2 :: rest from rfl]
      congr 2
      omega
end

/-! psLoop: step lemmas and helpers for re-parsing at root level. -/

theorem psNeed_ge2 (r : Nat) : 2 ≤ psNeed r := by
  unfold psNeed
  omega

theorem psNeed_succ (a : Nat) : psNeed a + 1 ≤ psNeed (a + 1) := by
  unfold psNeed
  have h : (a + 1) * (a + 1) = a * a + 2 * a + 1 := by ring
  omega

theorem psNeed_dec {a b : Nat} (h : a < b) : psNeed a + 1 ≤ psNeed b := by
  have h1 := psNeed_succ a
  have h2 := psNeed_mono (show a + 1 ≤ b by omega)
  omega

theorem psNeed_ge_pcNeedL {l M : Nat} (h : l ≤ M) :
    pcNeedL l + 1 ≤ psNeed M := by
  unfold pcNeedL psNeed
  have h1 := sq_le_sq_nat h
  omega

theorem psLoop_stop (f : Nat) (s : List Char) (p : Nat)
    (acc : List SpintaxNode) (h : ¬ p < s.length) :
    psLoop (f + 1) s p acc = acc := by
  rw [psLoop, if_neg h]

theorem psLoop_step_end_text (f : Nat) (s : List Char) (p : Nat)
    (acc : List SpintaxNode) (hlt : p < s.length)
    (hfi : findIdxFrom s lbrace p = none)
    (hne : ¬ (String.mk (normalizeNewlines (substrL s p s.length))) = "") :
    psLoop (f + 1) s p acc =
      acc ++ [.text (String.mk (normalizeNewlines (substrL s p s.length)))] := by
  rw [psLoop, if_pos hlt]
  simp only [hfi]
  rw [if_neg hne]

theorem psLoop_step_choice_text (f : Nat) (s : List Char) (p nb ei : Nat)
    (acc cs : List SpintaxNode) (hlt : p < s.length)
    (hfi : findIdxFrom s lbrace p = some nb) (hgt : nb > p)
    (htb : ¬ (String.mk (normalizeNewlines (substrL s p nb))) = "")
    (hcs : cs.length > 0)
    (hpc : parseChoice f s nb = (some cs, ei)) :
    psLoop (f + 1) s p acc =
      psLoop f s ei
        ((acc ++ [.text (String.mk (normalizeNewlines (substrL s p nb)))]) ++
          [.choice cs]) := by
  rw [psLoop, if_pos hlt]
  simp only [hfi, hpc]
  rw [if_pos hgt, if_neg htb, if_pos hcs]

theorem psLoop_step_choice_notext (f : Nat) (s : List Char) (p ei : Nat)
    (acc cs : List SpintaxNode) (hlt : p < s.length)
    (hfi : findIdxFrom s lbrace p = some p)
    (hcs : cs.length > 0)
    (hpc : parseChoice f s p = (some cs, ei)) :
    psLoop (f + 1) s p acc = psLoop f s ei (acc ++ [.choice cs]) := by
  rw [psLoop, if_pos hlt]
  simp only [hfi, hpc]
  rw [if_neg (show ¬ p > p by omega), if_pos hcs]

theorem psLoop_step_fail_text (f : Nat) (s : List Char) (p nb e2 : Nat)
    (acc : List SpintaxNode) (hlt : p < s.length)
    (hfi : findIdxFrom s lbrace p = some nb) (hgt : nb > p)
    (htb : ¬ (String.mk (normalizeNewlines (substrL s p nb))) = "")
    (hpc : parseChoice f s nb = (none, e2)) :
    psLoop (f + 1) s p acc =
      psLoop f s (nb + 1)
        ((acc ++ [.text (String.mk (normalizeNewlines (substrL s p nb)))]) ++
          [.text "\x7b"]) := by
  rw [psLoop, if_pos hlt]
  simp only [hfi, hpc]
  rw [if_pos hgt, if_neg htb]

theorem psLoop_step_fail_notext (f : Nat) (s : List Char) (p e2 : Nat)
    (acc : List SpintaxNode) (hlt : p < s.length)
    (hfi : findIdxFrom s lbrace p = some p)
    (hpc : parseChoice f s p = (none, e2)) :
    psLoop (f + 1) s p acc = psLoop f s (p + 1) (acc ++ [.text "\x7b"]) := by
  rw [psLoop, if_pos hlt]
  simp only [hfi, hpc]
  rw [if_neg (show ¬ p > p by omega)]

theorem canonRoot_lit_parts {tf : Bool} {rest : List SpintaxNode}
    (h : canonRootChildren tf (.text "\x7b" :: rest) = true) :
    depthCloses (generateConcat rest).data 1 = false ∧
      canonRootChildren false rest = true := by
  rw [canonRootChildren, if_pos rfl] at h
  simp only [Bool.and_eq_true, Bool.not_eq_true'] at h
  exact h

theorem canonRoot_text_parts {tf : Bool} {t : String} {rest : List SpintaxNode}
    (ht : ¬ t = "\x7b")
    (h : canonRootChildren tf (.text t :: rest) = true) :
    tf = false ∧ ¬ t = "" ∧ noLbrace t = true ∧ noCRLF t = true ∧
      canonRootChildren true rest = true := by
  rw [canonRootChildren, if_neg ht] at h
  simp only [Bool.and_eq_true, Bool.not_eq_true', decide_eq_false_iff_not] at h
  tauto

theorem canonRoot_choice_parts {tf : Bool} {cs rest : List SpintaxNode}
    (h : canonRootChildren tf (.choice cs :: rest) = true) :
    canonChoiceChildren cs = true ∧ canonRootChildren false rest = true := by
  simp only [canonRootChildren, Bool.and_eq_true] at h
  exact h

theorem noLbrace_free {t : String} (h : noLbrace t = true) :
    t.data.all (fun a => !(a = lbrace)) = true := by
  rw [noLbrace, List.all_eq_true] at h
  rw [List.all_eq_true]
  intro c hc
  have := h c hc
  simpa using this

theorem lt_length_of_drop_cons {str : List Char} {p : Nat} {c : Char}
    {r : List Char} (h : str.drop p = c :: r) : p < str.length := by
  have h1 : (str.drop p).length = str.length - p := List.length_drop p str
  rw [h] at h1
  simp at h1
  omega

theorem isSome_false_none {o : Option Nat} (h : o.isSome = false) : o = none := by
  cases o with
  | none => rfl
  | some v => simp at h

/-- Re-parsing the serialization of canonical root children yields them
back, appended to the accumulator. -/
theorem psLoop_reparse_aux : ∀ (N : Nat) (cs : List SpintaxNode),
    cs.length ≤ N → ∀ (tf : Bool), canonRootChildren tf cs = true →
    ∀ (str : List Char) (p fuel : Nat) (acc : List SpintaxNode),
    str.drop p = (generateConcat cs).data →
    psNeed (generateConcat cs).data.length ≤ fuel →
    psLoop fuel str p acc = acc ++ cs := by
  intro N
  induction N with
  | zero =>
      intro cs hlen tf h str p fuel acc hdrop hfuel
      have hcs : cs = [] := List.eq_nil_of_length_eq_zero (by omega)
      subst hcs
      rw [show (generateConcat []).data = ([] : List Char) from rfl] at hdrop
      have hge : str.length ≤ p := List.drop_eq_nil_iff_le.1 hdrop
      obtain ⟨f, rfl⟩ : ∃ f, fuel = f + 1 :=
        ⟨fuel - 1, by have := psNeed_ge2 (generateConcat []).data.length; omega⟩
      rw [psLoop_stop f str p acc (by omega)]
      simp
  | succ N ih =>
      intro cs hlen tf h str p fuel acc hdrop hfuel
      cases cs with
      | nil =>
          rw [show (generateConcat []).data = ([] : List Char) from rfl] at hdrop
          have hge : str.length ≤ p := List.drop_eq_nil_iff_le.1 hdrop
          obtain ⟨f, rfl⟩ : ∃ f, fuel = f + 1 :=
            ⟨fuel - 1, by have := psNeed_ge2 (generateConcat []).data.length; omega⟩
          rw [psLoop_stop f str p acc (by omega)]
          simp
      | cons x rest =>
          cases x with
          | text t =>
              by_cases hlit : t = "\x7b"
              · subst hlit
                obtain ⟨hdc, hrest⟩ := canonRoot_lit_parts h
                have hD : (generateConcat (SpintaxNode.text "\x7b" :: rest)).data =
                    lbrace :: (generateConcat rest).data := by
                  rw [genConcat_data,
                    show generateSpintax (SpintaxNode.text "\x7b") = "\x7b" from rfl,
                    lbrace_str_data, List.singleton_append]
                rw [hD] at hdrop hfuel
                have hlt := lt_length_of_drop_cons hdrop
                obtain ⟨f, rfl⟩ : ∃ f, fuel = f + 1 := ⟨fuel - 1,
                  by have := psNeed_ge2 (lbrace :: (generateConcat rest).data).length
                     omega⟩
                have hfi : findIdxFrom str lbrace p = some p := by
                  have := findIdxFrom_some (show str.drop p =
                    [] ++ lbrace :: (generateConcat rest).data by
                      rw [List.nil_append]; exact hdrop) rfl
                  simpa using this
                have hdrop2 : str.drop (p + 1) = (generateConcat rest).data :=
                  drop_succ_of_drop_cons hdrop
                have hclose : scanClose (str.drop (p + 1)) 1 = none := by
                  rw [hdrop2]
                  rw [depthCloses] at hdc
                  exact isSome_false_none hdc
                rcases hp : parseChoice f str p with ⟨r1, r2⟩
                have hr1 : r1 = none := by
                  have := parseChoice_none f hclose
                  rw [hp] at this
                  exact this
                subst hr1
                rw [psLoop_step_fail_notext f str p r2 acc hlt hfi hp]
                have hres := ih rest (by simp at hlen; omega) false hrest str
                  (p + 1) f (acc ++ [SpintaxNode.text "\x7b"]) hdrop2
                  (by simp only [List.length_cons] at hfuel
                      have := psNeed_dec (show (generateConcat rest).data.length <
                        (generateConcat rest).data.length + 1 by omega)
                      omega)
                rw [hres]
                simp
              · obtain ⟨htf, htne, hnlb, hcrlf, hrest⟩ := canonRoot_text_parts hlit h
                have hfree := noLbrace_free hnlb
                have hD : (generateConcat (SpintaxNode.text t :: rest)).data =
                    t.data ++ (generateConcat rest).data := by
                  rw [genConcat_data,
                    show generateSpintax (SpintaxNode.text t) = t from rfl]
                rw [hD] at hdrop hfuel
                have htlen := List.length_pos.2 (data_ne_nil htne)
                have hplen : (str.drop p).length = str.length - p :=
                  List.length_drop p str
                rcases rest with _ | ⟨y, rest2⟩
                · rw [show (generateConcat []).data = ([] : List Char) from rfl,
                    List.append_nil] at hdrop hfuel
                  have hlt : p < str.length := by
                    rw [hdrop] at hplen
                    omega
                  obtain ⟨f, rfl⟩ : ∃ f, fuel = f + 1 :=
                    ⟨fuel - 1, by have := psNeed_ge2 t.data.length; omega⟩
                  have hfi : findIdxFrom str lbrace p = none :=
                    findIdxFrom_free hdrop hfree
                  have hsub : substrL str p str.length = t.data := by
                    rw [substr_self, hdrop]
                  rw [psLoop_step_end_text f str p acc hlt hfi
                    (by rw [hsub, norm_str_id hcrlf]; exact htne)]
                  rw [hsub, norm_str_id hcrlf]
                · cases y with
                  | text t2 =>
                      by_cases hlit2 : t2 = "\x7b"
                      · subst hlit2
                        obtain ⟨hdc2, hrest2⟩ := canonRoot_lit_parts hrest
                        have hD2 : (generateConcat
                            (SpintaxNode.text "\x7b" :: rest2)).data =
                            lbrace :: (generateConcat rest2).data := by
                          rw [genConcat_data,
                            show generateSpintax (SpintaxNode.text "\x7b") = "\x7b"
                              from rfl,
                            lbrace_str_data, List.singleton_append]
                        rw [hD2] at hdrop hfuel
                        have hlt : p < str.length := by
                          rw [hdrop] at hplen
                          simp only [List.length_append, List.length_cons] at hplen
                          omega
                        obtain ⟨f, rfl⟩ : ∃ f, fuel = f + 1 := ⟨fuel - 1,
                          by have := psNeed_ge2 (t.data ++ lbrace ::
                              (generateConcat rest2).data).length
                             omega⟩
                        have hfi : findIdxFrom str lbrace p =
                            some (p + t.data.length) :=
                          findIdxFrom_some hdrop hfree
                        have hdropNb : str.drop (p + t.data.length) =
                            lbrace :: (generateConcat rest2).data :=
                          drop_of_drop_append hdrop
                        have hdropNb1 : str.drop (p + t.data.length + 1) =
                            (generateConcat rest2).data :=
                          drop_succ_of_drop_cons hdropNb
                        have hclose : scanClose
                            (str.drop (p + t.data.length + 1)) 1 = none := by
                          rw [hdropNb1]
                          rw [depthCloses] at hdc2
                          exact isSome_false_none hdc2
                        rcases hp : parseChoice f str (p + t.data.length)
                          with ⟨r1, r2⟩
                        have hr1 : r1 = none := by
                          have := parseChoice_none f hclose
                          rw [hp] at this
                          exact this
                        subst hr1
                        have hsub : substrL str p (p + t.data.length) = t.data :=
                          substr_of_drop_append hdrop
                        rw [psLoop_step_fail_text f str p (p + t.data.length) r2
                          acc hlt hfi (by omega)
                          (by rw [hsub, norm_str_id hcrlf]; exact htne) hp]
                        rw [hsub, norm_str_id hcrlf]
                        have hres := ih rest2 (by simp at hlen; omega) false
                          hrest2 str (p + t.data.length + 1) f
                          ((acc ++ [SpintaxNode.text t]) ++ [SpintaxNode.text "\x7b"])
                          hdropNb1
                          (by simp only [List.length_append, List.length_cons]
                                at hfuel
                              have := psNeed_dec (show
                                (generateConcat rest2).data.length <
                                t.data.length +
                                  ((generateConcat rest2).data.length + 1) by omega)
                              omega)
                        rw [hres]
                        simp
                      · obtain ⟨hcontra, _⟩ := canonRoot_text_parts hlit2 hrest
                        simp at hcontra
                  | choice cs2 =>
                      obtain ⟨hcs2, hrest2⟩ := canonRoot_choice_parts hrest
                      have hchd := genChoice_data hcs2
                      have hD2 : (generateConcat
                          (SpintaxNode.choice cs2 :: rest2)).data =
                          (generateSpintax (SpintaxNode.choice cs2)).data ++
                            (generateConcat rest2).data := genConcat_data _ _
                      rw [hD2] at hdrop hfuel
                      have hlen2 : 2 ≤ (generateSpintax
                          (SpintaxNode.choice cs2)).data.length := by
                        rw [hchd]
                        simp
                      have hlt : p < str.length := by
                        rw [hdrop] at hplen
                        simp only [List.length_append, List.length_cons] at hplen
                        omega
                      obtain ⟨f, rfl⟩ : ∃ f, fuel = f + 1 := ⟨fuel - 1,
                        by have := psNeed_ge2 (t.data ++
                            ((generateSpintax (SpintaxNode.choice cs2)).data ++
                              (generateConcat rest2).data)).length
                           omega⟩
                      have hdropB : str.drop p = t.data ++ (lbrace ::
                          ((joinBar (generateEach cs2)).data ++ [rbrace] ++
                            (generateConcat rest2).data)) := by
                        rw [hdrop, hchd]
                        simp [List.append_assoc]
                      have hfi : findIdxFrom str lbrace p =
                          some (p + t.data.length) :=
                        findIdxFrom_some hdropB hfree
                      have hdropNb : str.drop (p + t.data.length) =
                          (generateSpintax (SpintaxNode.choice cs2)).data ++
                            (generateConcat rest2).data :=
                        drop_of_drop_append hdrop
                      have hfC : pcNeedL (generateSpintax
                          (SpintaxNode.choice cs2)).data.length ≤ f := by
                        have h1 := psNeed_ge_pcNeedL (show
                          (generateSpintax (SpintaxNode.choice cs2)).data.length ≤
                          (t.data ++ ((generateSpintax
                            (SpintaxNode.choice cs2)).data ++
                            (generateConcat rest2).data)).length by
                            simp only [List.length_append]; omega)
                        omega
                      have hpc := reparse_choice cs2 hcs2 str (p + t.data.length)
                        f (generateConcat rest2).data hdropNb hfC
                      have hcsl : cs2.length > 0 :=
                        List.length_pos.2 (canonChoice_ne_nil hcs2)
                      have hsub : substrL str p (p + t.data.length) = t.data :=
                        substr_of_drop_append hdrop
                      rw [psLoop_step_choice_text f str p (p + t.data.length)
                        (p + t.data.length +
                          (generateSpintax (SpintaxNode.choice cs2)).data.length)
                        acc cs2 hlt hfi (by omega)
                        (by rw [hsub, norm_str_id hcrlf]; exact htne) hcsl hpc]
                      rw [hsub, norm_str_id hcrlf]
                      have hdropEi : str.drop (p + t.data.length +
                          (generateSpintax (SpintaxNode.choice cs2)).data.length) =
                          (generateConcat rest2).data :=
                        drop_of_drop_append hdropNb
                      have hres := ih rest2 (by simp at hlen; omega) false
                        hrest2 str
                        (p + t.data.length +
                          (generateSpintax (SpintaxNode.choice cs2)).data.length)
                        f ((acc ++ [SpintaxNode.text t]) ++ [SpintaxNode.choice cs2])
                        hdropEi
                        (by simp only [List.length_append] at hfuel
                            have := psNeed_dec (show
                              (generateConcat rest2).data.length <
                              t.data.length +
                                ((generateSpintax
                                  (SpintaxNode.choice cs2)).data.length +
                                  (generateConcat rest2).data.length) by omega)
                            omega)
                      rw [hres]
                      simp
                  | option c2 ch2 => simp [canonRootChildren] at hrest
                  | root ch2 => simp [canonRootChildren] at hrest
          | choice cs1 =>
              obtain ⟨hcs1, hrest⟩ := canonRoot_choice_parts h
              have hchd := genChoice_data hcs1
              have hD : (generateConcat (SpintaxNode.choice cs1 :: rest)).data =
                  (generateSpintax (SpintaxNode.choice cs1)).data ++
                    (generateConcat rest).data := genConcat_data _ _
              rw [hD] at hdrop hfuel
              have hlen1 : 2 ≤ (generateSpintax
                  (SpintaxNode.choice cs1)).data.length := by
                rw [hchd]
                simp
              have hplen : (str.drop p).length = str.length - p :=
                List.length_drop p str
              have hlt : p < str.length := by
                rw [hdrop] at hplen
                simp only [List.length_append, List.length_cons] at hplen
                omega
              obtain ⟨f, rfl⟩ : ∃ f, fuel = f + 1 := ⟨fuel - 1,
                by have := psNeed_ge2 ((generateSpintax
                    (SpintaxNode.choice cs1)).data ++
                    (generateConcat rest).data).length
                   omega⟩
              have hdropB : str.drop p = ([] : List Char) ++ (lbrace ::
                  ((joinBar (generateEach cs1)).data ++ [rbrace] ++
                    (generateConcat rest).data)) := by
                rw [hdrop, hchd]
                simp [List.append_assoc]
              have hfi : findIdxFrom str lbrace p = some p := by
                have := findIdxFrom_some hdropB rfl
                simpa using this
              have hfC : pcNeedL (generateSpintax
                  (SpintaxNode.choice cs1)).data.length ≤ f := by
                have h1 := psNeed_ge_pcNeedL (show
                  (generateSpintax (SpintaxNode.choice cs1)).data.length ≤
                  ((generateSpintax (SpintaxNode.choice cs1)).data ++
                    (generateConcat rest).data).length by
                    simp only [List.length_append]; omega)
                omega
              have hpc := reparse_choice cs1 hcs1 str p f
                (generateConcat rest).data hdrop hfC
              have hcsl : cs1.length > 0 :=
                List.length_pos.2 (canonChoice_ne_nil hcs1)
              rw [psLoop_step_choice_notext f str p
                (p + (generateSpintax (SpintaxNode.choice cs1)).data.length)
                acc cs1 hlt hfi hcsl hpc]
              have hdropEi : str.drop (p +
                  (generateSpintax (SpintaxNode.choice cs1)).data.length) =
                  (generateConcat rest).data :=
                drop_of_drop_append hdrop
              have hres := ih rest (by simp at hlen; omega) false hrest str
                (p + (generateSpintax (SpintaxNode.choice cs1)).data.length)
                f (acc ++ [SpintaxNode.choice cs1]) hdropEi
                (by simp only [List.length_append] at hfuel
                    have := psNeed_dec (show (generateConcat rest).data.length <
                      (generateSpintax (SpintaxNode.choice cs1)).data.length +
                        (generateConcat rest).data.length by omega)
                    omega)
              rw [hres]
              simp
          | option c ch => simp [canonRootChildren] at h
          | root ch => simp [canonRootChildren] at h

/-! Helpers for the canonicity of parser output (Phase 1). -/

theorem substr_cons_of_get {str : List Char} {i b : Nat} {c : Char}
    (h : str.get? i = some c) (hib : i < b) :
    substrL str i b = c :: substrL str (i + 1) b := by
  rw [substrL, substrL, drop_cons_of_get? h,
    show b - i = (b - (i + 1)) + 1 by omega, List.take_succ_cons]

theorem all_take {l : List Char} {P : Char → Bool} (h : l.all P = true)
    (k : Nat) : (l.take k).all P = true := by
  rw [List.all_eq_true] at h ⊢
  exact fun x hx => h x (List.take_subset k l hx)

theorem plain_norm {seg : List Char}
    (h : ∀ x ∈ seg, ¬ x = lbrace ∧ ¬ x = rbrace ∧ ¬ x = pipeChar) :
    plainStr (String.mk (normalizeNewlines seg)) = true := by
  rw [plainStr, List.all_eq_true]
  intro c hc
  rcases norm_mem seg c hc with hsp | hin
  · subst hsp
    decide
  · have := h c hin
    simp [this.1, this.2.1, this.2.2]

theorem noCRLF_norm (seg : List Char) :
    noCRLF (String.mk (normalizeNewlines seg)) = true := by
  rw [noCRLF, List.all_eq_true]
  intro c hc
  have := norm_noCRLF seg c hc
  simp [this.1, this.2]

theorem braces_nil_of_free {l : List Char}
    (h : ∀ x ∈ l, ¬ x = lbrace ∧ ¬ x = rbrace) : bracesOf l = [] := by
  rw [bracesOf, List.filter_eq_nil_iff]
  intro a ha
  have := h a ha
  simp [this.1, this.2]

theorem canonChoiceChildren_of_forall : ∀ (L : List SpintaxNode), L ≠ [] →
    (∀ o ∈ L, canonOption o = true) → canonChoiceChildren L = true := by
  intro L
  induction L with
  | nil => intro h _; exact absurd rfl h
  | cons o rest ih =>
      intro _ hall
      cases rest with
      | nil =>
          show canonOption o = true
          exact hall o (List.mem_cons_self o [])
      | cons o2 rest2 =>
          show (canonOption o && canonChoiceChildren (o2 :: rest2)) = true
          rw [Bool.and_eq_true]
          exact ⟨hall o (List.mem_cons_self _ _),
            ih (by simp) (fun x hx => hall x (List.mem_cons_of_mem o hx))⟩

theorem head?_take {l : List Char} {k : Nat} (hk : 1 ≤ k) :
    (l.take k).head? = l.head? := by
  cases l with
  | nil => simp
  | cons a r =>
      obtain ⟨k2, rfl⟩ : ∃ k2, k = k2 + 1 := ⟨k - 1, by omega⟩
      rw [List.take_succ_cons]
      rfl

theorem getLast?_drop_eq {str : List Char} {p : Nat} (h : str.drop p ≠ []) :
    (str.drop p).getLast? = str.getLast? := by
  conv_rhs => rw [← List.take_append_drop p str]
  rw [List.getLast?_append]
  cases hg : (str.drop p).getLast? with
  | none => exact absurd (List.getLast?_eq_none_iff.1 hg) h
  | some y => rfl

theorem normStr_ne {seg : List Char} (h : seg ≠ []) :
    ¬ (String.mk (normalizeNewlines seg)) = "" := by
  intro he
  rw [str_empty_iff] at he
  exact h ((norm_nil_iff seg).1 he)

theorem headCharOk_cons_text {t : String} {rest : List SpintaxNode}
    (h : ∀ c0, t.data.head? = some c0 → isJsSpace c0 = false) :
    headCharOk (.text t :: rest) = true := by
  show (match t.data with
    | [] => true
    | c :: _ => !isJsSpace c) = true
  cases ht : t.data with
  | nil => rfl
  | cons c r =>
      have := h c (by rw [ht]; rfl)
      simp [this]

theorem headCharOk_cons_choice (cs : List SpintaxNode)
    (rest : List SpintaxNode) : headCharOk (.choice cs :: rest) = true := rfl

theorem lastCharOk_append {A B : List SpintaxNode} (hB : B ≠ []) :
    lastCharOk (A ++ B) = lastCharOk B := by
  rw [lastCharOk, lastCharOk, List.getLast?_append]
  cases hg : B.getLast? with
  | none => exact absurd (List.getLast?_eq_none_iff.1 hg) hB
  | some y => rfl

theorem lastCharOk_choice_single (cs : List SpintaxNode) :
    lastCharOk [.choice cs] = true := rfl

theorem lastCharOk_lit_single : lastCharOk [SpintaxNode.text "\x7b"] = true := by
  rw [lastCharOk]
  show (if ("\x7b" : String) = "\x7b" then true
    else match ("\x7b" : String).data.getLast? with
      | some c => !isJsSpace c
      | none => true) = true
  rw [if_pos rfl]

theorem lastCharOk_text_single {t : String} (hne : ¬ t = "\x7b")
    (h : ∀ g, t.data.getLast? = some g → isJsSpace g = false) :
    lastCharOk [.text t] = true := by
  rw [lastCharOk]
  show (if t = "\x7b" then true
    else match t.data.getLast? with
      | some c => !isJsSpace c
      | none => true) = true
  rw [if_neg hne]
  cases hg : t.data.getLast? with
  | none => rfl
  | some g =>
      have := h g hg
      simp [this]

/-! Canonicity of parser output (the strings it scans are arbitrary). Each
invariant is indexed by fuel; parser routines meeting their fuel budget
return canonical nodes whose serialization has the braces of the scanned
region. -/

/-- parseOptionContent on a region that scans from depth 1 back to depth 1
without depth-1 events returns a canonical option with the region's braces. -/
def pocCanon (fuel : Nat) : Prop :=
  ∀ (str : List Char) (os q : Nat), os ≤ q → q ≤ str.length →
    scanOpt (substrL str os q) 1 = some 1 →
    pocNeed (q - os) ≤ fuel →
    canonOption (parseOptionContent fuel str os q) = true ∧
    bracesOf (generateSpintax (parseOptionContent fuel str os q)).data =
      bracesOf (substrL str os q)

/-- pocLoop from the empty state: raw children plus a plain content. -/
def poclCanonA (fuel : Nat) : Prop :=
  ∀ (str : List Char) (pi q : Nat), pi ≤ q → q ≤ str.length →
    scanOpt (substrL str pi q) 1 = some 1 →
    pclNeed (q - pi) ≤ fuel →
    ∃ c2 new, pocLoop fuel str q pi "" [] = (c2, new) ∧
      plainStr c2 = true ∧ noCRLF c2 = true ∧
      rawOptChildren true new = true ∧
      bracesOf (generateConcat new).data = bracesOf (substrL str pi q)

/-- pocLoop continuing with nonempty children: content unchanged, new raw
children appended. -/
def poclCanonB (fuel : Nat) : Prop :=
  ∀ (str : List Char) (pi q : Nat) (content : String) (acc : List SpintaxNode),
    pi ≤ q → q ≤ str.length → acc ≠ [] →
    scanOpt (substrL str pi q) 1 = some 1 →
    pclNeed (q - pi) ≤ fuel →
    ∃ new, pocLoop fuel str q pi content acc = (content, acc ++ new) ∧
      rawOptChildren false new = true ∧
      bracesOf (generateConcat new).data = bracesOf (substrL str pi q)

/-- pcLoop mid-scan: a close j characters ahead yields the accumulated
options plus the canonical options of the remaining region. -/
def pclCanon (fuel : Nat) : Prop :=
  ∀ (str : List Char) (i os depth j : Nat) (acc : List SpintaxNode),
    os ≤ i →
    scanOpt (substrL str os i) 1 = some depth →
    scanClose (str.drop i) depth = some j →
    scanNeed (i - os) j ≤ fuel →
    ∃ newOpts, pcLoop fuel str i os depth acc =
      (some (acc ++ newOpts), i + j + 1) ∧ newOpts ≠ [] ∧
      (∀ o ∈ newOpts, canonOption o = true) ∧
      bracesOf (joinBar (generateEach newOpts)).data =
        bracesOf (substrL str os (i + j))

/-- parseChoice at a brace whose depth-1 scan closes j characters further
succeeds with canonical children. -/
def pccCanon (fuel : Nat) : Prop :=
  ∀ (str : List Char) (p j : Nat),
    str.get? p = some lbrace →
    scanClose (str.drop (p + 1)) 1 = some j →
    pcNeedJ j ≤ fuel →
    ∃ cs, parseChoice fuel str p = (some cs, p + j + 2) ∧
      canonChoiceChildren cs = true ∧
      bracesOf (generateSpintax (.choice cs)).data =
        bracesOf (substrL str p (p + j + 2))

/-- psLoop appends canonical root children carrying the suffix's braces;
trimmed ends give headCharOk/lastCharOk. -/
def psCanon (fuel : Nat) : Prop :=
  ∀ (str : List Char) (p : Nat) (acc : List SpintaxNode),
    psNeed (str.length - p) ≤ fuel →
    ∃ new, psLoop fuel str p acc = acc ++ new ∧
      canonRootChildren false new = true ∧
      bracesOf (generateConcat new).data = bracesOf (str.drop p) ∧
      ((∀ c0, (str.drop p).head? = some c0 → isJsSpace c0 = false) →
        headCharOk new = true) ∧
      ((∀ g, str.getLast? = some g → isJsSpace g = false) →
        lastCharOk new = true)

theorem noLbrace_norm {seg : List Char}
    (h : seg.all (fun a => !(a = lbrace)) = true) :
    noLbrace (String.mk (normalizeNewlines seg)) = true := by
  rw [noLbrace, List.all_eq_true]
  rw [List.all_eq_true] at h
  intro c hc
  rcases norm_mem seg c hc with hsp | hin
  · subst hsp
    decide
  · have := h c hin
    simpa using this

theorem headCharOk_cons_lit (rest : List SpintaxNode) :
    headCharOk (SpintaxNode.text "\x7b" :: rest) = true := by
  apply headCharOk_cons_text
  intro c0 hc0
  rw [lbrace_str_data] at hc0
  simp at hc0
  subst hc0
  decide

theorem parserCanon_zero : pocCanon 0 ∧ poclCanonA 0 ∧ poclCanonB 0 ∧
    pclCanon 0 ∧ pccCanon 0 ∧ psCanon 0 := by
  refine ⟨?_, ?_, ?_, ?_, ?_, ?_⟩
  · intro str os q _ _ _ hfuel
    exact absurd hfuel (by have := pocNeed_ge2 (q - os); omega)
  · intro str pi q _ _ _ hfuel
    exact absurd hfuel (by have := pclNeed_ge2 (q - pi); omega)
  · intro str pi q content acc _ _ _ _ hfuel
    exact absurd hfuel (by have := pclNeed_ge2 (q - pi); omega)
  · intro str i os depth j acc _ _ _ hfuel
    exact absurd hfuel (by
      have := pocNeed_ge2 (i - os + j)
      unfold scanNeed
      omega)
  · intro str p j _ _ hfuel
    exact absurd hfuel (by
      have := pocNeed_ge2 j
      unfold pcNeedJ
      omega)
  · intro str p acc hfuel
    exact absurd hfuel (by have := psNeed_ge2 (str.length - p); omega)

theorem pocCanon_step {f : Nat} (ihA : poclCanonA f) : pocCanon (f + 1) := by
  intro str os q hosq hqs hscan hfuel
  rw [parseOptionContent]
  obtain ⟨c2, new, hloop, hplain, hcrlf, hraw, hbr⟩ :=
    ihA str os q hosq hqs hscan
      (by unfold pocNeed at hfuel; unfold pclNeed; omega)
  rw [hloop]
  have hclean := cleanup_canon hplain hcrlf hraw
  exact ⟨hclean.1, by rw [hclean.2, hbr]⟩

theorem pccCanon_step {f : Nat} (ihPcl : pclCanon f) : pccCanon (f + 1) := by
  intro str p j hget hscl hfuel
  have hdropP : str.drop p = lbrace :: str.drop (p + 1) := drop_cons_of_get? hget
  obtain ⟨int, after, hsplit, hjlen⟩ := scanClose_decomp _ _ _ hscl
  have hlen1 : (str.drop (p + 1)).length = str.length - (p + 1) :=
    List.length_drop _ _
  have hp2 : p + 1 < str.length := by
    rw [hsplit] at hlen1
    simp at hlen1
    omega
  rw [parseChoice, if_neg (by push_neg; exact ⟨by omega, hget⟩)]
  obtain ⟨opts, heq, hne, hcanon, hbr⟩ := ihPcl str (p + 1) (p + 1) 1 j []
    (Nat.le_refl _)
    (by rw [substr_refl]; rfl) hscl
    (by rw [pcNeedJ_eq] at hfuel
        rw [show p + 1 - (p + 1) = 0 by omega]
        omega)
  rw [heq]
  refine ⟨opts, ?_, canonChoiceChildren_of_forall opts hne hcanon, ?_⟩
  · simp only [List.nil_append, Prod.mk.injEq]
    exact ⟨trivial, by omega⟩
  · have hcanonCs := canonChoiceChildren_of_forall opts hne hcanon
    rw [genChoice_data hcanonCs]
    have hdropInt : str.drop (p + 1 + j) = rbrace :: (after ++ str.drop ?_) := ?_
    rotate_left
    · exact str.length
    · rw [show after ++ str.drop str.length = after by
        simp [List.drop_length]]
      rw [← hjlen]
      exact drop_of_drop_append (by rw [hsplit])
    have hgetRb : str.get? (p + 1 + j) = some rbrace :=
      get?_of_drop_cons hdropInt
    have hej : p + 1 + j < str.length := lt_length_of_drop_cons hdropInt
    have hsub1 : substrL str p (p + j + 2) =
        lbrace :: substrL str (p + 1) (p + j + 2) :=
      substr_cons_of_get hget (by omega)
    have hsub2 : substrL str (p + 1) (p + j + 2) =
        substrL str (p + 1) (p + 1 + j) ++ substrL str (p + 1 + j) (p + j + 2) :=
      substr_split (by omega) (by omega)
    have hsub3 : substrL str (p + 1 + j) (p + j + 2) = [rbrace] := by
      have := substr_snoc (Nat.le_refl (p + 1 + j)) hgetRb
      rw [substr_refl] at this
      rw [show p + j + 2 = p + 1 + j + 1 by omega, this]
      rfl
    rw [hsub1, hsub2, hsub3]
    rw [bracesOf_append]
    have e1 : bracesOf (lbrace :: (joinBar (generateEach opts)).data) =
        lbrace :: bracesOf (joinBar (generateEach opts)).data := by
      rw [braces_cons, if_pos (Or.inl rfl)]
    have e2 : bracesOf (lbrace ::
        (substrL str (p + 1) (p + 1 + j) ++ [rbrace])) =
        lbrace :: bracesOf (substrL str (p + 1) (p + 1 + j) ++ [rbrace]) := by
      rw [braces_cons, if_pos (Or.inl rfl)]
    rw [e1, e2, List.cons_append, bracesOf_append, hbr]

/-- Shared analysis of a pocLoop region whose first opening brace nb lies
inside: the prefix is plain, the brace's depth-1 scan closes within the
region, and the region's braces split around the choice segment. -/
theorem regionAnalysis {str : List Char} {pi q nb : Nat}
    (hpq : pi ≤ q) (hqs : q ≤ str.length)
    (hscan : scanOpt (substrL str pi q) 1 = some 1)
    (hfi : findIdxFrom str lbrace pi = some nb) (hnbq : nb < q) :
    ∃ j,
      (∀ x ∈ substrL str pi nb, ¬ x = lbrace ∧ ¬ x = rbrace ∧ ¬ x = pipeChar) ∧
      pi ≤ nb ∧
      str.get? nb = some lbrace ∧
      scanClose (str.drop (nb + 1)) 1 = some j ∧
      nb + j + 2 ≤ q ∧
      scanOpt (substrL str (nb + j + 2) q) 1 = some 1 ∧
      bracesOf (substrL str pi q) =
        bracesOf (substrL str nb (nb + j + 2)) ++
          bracesOf (substrL str (nb + j + 2) q) := by
  obtain ⟨hpin, hgetnb, hdropdec, hseglen, hsegfree⟩ := findIdxFrom_decomp hfi
  have hsp1 : substrL str pi q = substrL str pi nb ++ substrL str nb q :=
    substr_split hpin (by omega)
  have hsp2 : substrL str nb q = lbrace :: substrL str (nb + 1) q :=
    substr_cons_of_get hgetnb hnbq
  have hscanA : scanOpt (substrL str pi nb ++
      (lbrace :: substrL str (nb + 1) q)) 1 = some 1 := by
    rw [← hsp2, ← hsp1]
    exact hscan
  obtain ⟨hplainseg, hscan2⟩ := scanOpt_free_prefix (substrL str pi nb)
    (lbrace :: substrL str (nb + 1) q) hsegfree
    (by intro hc; rw [hscanA] at hc; cases hc)
  have hscanRest : scanOpt (lbrace :: substrL str (nb + 1) q) 1 = some 1 := by
    rw [hscan2, hscanA]
  have hscanIn : scanOpt (substrL str (nb + 1) q) 2 = some 1 := by
    have h2 := (scanOpt_lbrace (substrL str (nb + 1) q) 1).symm.trans hscanRest
    exact h2
  obtain ⟨int, after, hsplitR, hcls, hafter⟩ :=
    closeSplit (substrL str (nb + 1) q) 2 (by omega) hscanIn
  have hdropN1 : str.drop (nb + 1) = int ++ rbrace ::
      (after ++ str.drop q) := by
    rw [drop_eq_substr_append (show nb + 1 ≤ q by omega), hsplitR,
      List.append_assoc, List.cons_append]
  have hscl : scanClose (str.drop (nb + 1)) 1 = some int.length := by
    rw [hdropN1]
    exact hcls (str.drop q)
  have hlenR : (substrL str (nb + 1) q).length = q - (nb + 1) :=
    substr_len hqs (by omega)
  rw [hsplitR] at hlenR
  simp only [List.length_append, List.length_cons] at hlenR
  have hle : nb + int.length + 2 ≤ q := by omega
  have hdropN2 : str.drop (nb + 1 + int.length) = rbrace ::
      (after ++ str.drop q) := drop_of_drop_append hdropN1
  have hdropN3 : str.drop (nb + 1 + int.length + 1) = after ++ str.drop q :=
    drop_succ_of_drop_cons hdropN2
  have hafterEq : substrL str (nb + int.length + 2) q = after := by
    rw [show q = (nb + 1 + int.length + 1) + after.length by omega,
      show nb + int.length + 2 = nb + 1 + int.length + 1 by omega]
    exact substr_of_drop_append hdropN3
  refine ⟨int.length, hplainseg, hpin, hgetnb, hscl, hle, ?_, ?_⟩
  · rw [hafterEq]
    exact hafter
  · have hsp3 : substrL str nb q =
        substrL str nb (nb + int.length + 2) ++
          substrL str (nb + int.length + 2) q :=
      substr_split (by omega) hle
    rw [hsp1, hsp3, bracesOf_append, bracesOf_append,
      braces_nil_of_free (fun x hx => ⟨(hplainseg x hx).1, (hplainseg x hx).2.1⟩),
      List.nil_append]

/-- pocLoop tail step when no opening brace lies in the remaining region:
the whole region is plain and is pushed as one text child. -/
theorem poclNoBrace {f : Nat} {str : List Char} {pi q : Nat}
    (content : String) (acc : List SpintaxNode)
    (hlt : pi < q) (hacc : acc ≠ [])
    (hscan : scanOpt (substrL str pi q) 1 = some 1)
    (hfree : (substrL str pi q).all (fun a => !(a = lbrace)) = true)
    (hnb : (match findIdxFrom str lbrace pi with
      | some b => if b < q then some b else none
      | none => none) = (none : Option Nat)) :
    ∃ new, pocLoop (f + 1) str q pi content acc = (content, acc ++ new) ∧
      rawOptChildren false new = true ∧
      bracesOf (generateConcat new).data = bracesOf (substrL str pi q) := by
  obtain ⟨hplainseg, _⟩ := scanOpt_free_prefix (substrL str pi q) [] hfree
    (by intro hc; rw [List.append_nil, hscan] at hc; cases hc)
  rw [pocLoop_step_none f str q pi content acc hlt hnb]
  by_cases ht : String.mk (normalizeNewlines (substrL str pi q)) = ""
  · refine ⟨[], ?_, rfl, ?_⟩
    · rw [ht, pushText_empty, List.append_nil]
    · have hnil : normalizeNewlines (substrL str pi q) = [] :=
        (str_empty_iff _).1 ht
      rw [← norm_braces (substrL str pi q), hnil]
      rfl
  · refine ⟨[SpintaxNode.text (String.mk (normalizeNewlines (substrL str pi q)))],
      ?_, ?_, ?_⟩
    · rw [pushText_child ht hacc]
    · simp [rawOptChildren, ht, plain_norm hplainseg, noCRLF_norm]
    · rw [generateConcat_cons, strData_append, bracesOf_append,
        show generateSpintax (SpintaxNode.text (String.mk
          (normalizeNewlines (substrL str pi q)))) =
          String.mk (normalizeNewlines (substrL str pi q)) from rfl,
        strMk_data, norm_braces,
        show (generateConcat ([] : List SpintaxNode)).data = ([] : List Char)
          from rfl,
        show bracesOf ([] : List Char) = ([] : List Char) from rfl,
        List.append_nil]

theorem poclCanonB_step {f : Nat} (ihPcc : pccCanon f) (ihB : poclCanonB f) :
    poclCanonB (f + 1) := by
  intro str pi q content acc hpq hqs hacc hscan hfuel
  by_cases hlt : pi < q
  · cases hfind : findIdxFrom str lbrace pi with
    | none =>
        have hfree : (substrL str pi q).all (fun a => !(a = lbrace)) = true := by
          show ((str.drop pi).take (q - pi)).all _ = true
          exact all_take (findIdxFrom_none_decomp hfind) _
        exact poclNoBrace content acc hlt hacc hscan hfree
          (nextBrace_none_of_none hfind)
    | some b =>
        by_cases hbq : b < q
        · obtain ⟨j, hplainseg, hpin, hget, hscl, hle, hscanAfter, hbr⟩ :=
            regionAnalysis hpq hqs hscan hfind hbq
          obtain ⟨cs, hpc, hcanoncs, hbrcs⟩ := ihPcc str b j hget hscl
            (by have := pclNeed_ge_pcNeedJ (show j + 2 ≤ q - pi by omega); omega)
          have hnb := nextBrace_some hfind hbq
          have hstep := pocLoop_step_choice f str q pi b content acc cs
            (b + j + 2) hlt hnb hpc
          obtain ⟨new2, hloop2A, hraw2, hbr2⟩ := ihB str (b + j + 2) q content
            (acc ++ [SpintaxNode.choice cs]) (by omega) hqs (by simp) hscanAfter
            (by have := pclNeed_lt (show q - (b + j + 2) + 2 ≤ q - pi by omega)
                omega)
          by_cases ht1 : String.mk (normalizeNewlines (substrL str pi b)) = ""
          · have hstep2 : pocLoop (f + 1) str q pi content acc =
                pocLoop f str q (b + j + 2) content
                  (acc ++ [SpintaxNode.choice cs]) := by
              rw [hstep, ht1, pushText_empty]
            refine ⟨SpintaxNode.choice cs :: new2, ?_, ?_, ?_⟩
            · rw [hstep2, hloop2A, List.append_assoc, List.singleton_append]
            · simp only [rawOptChildren, Bool.and_eq_true]
              exact ⟨hcanoncs, hraw2⟩
            · rw [generateConcat_cons, strData_append, bracesOf_append,
                hbrcs, hbr2, hbr]
          · have hstep2 : pocLoop (f + 1) str q pi content acc =
                pocLoop f str q (b + j + 2) content
                  ((acc ++ [SpintaxNode.text (String.mk
                    (normalizeNewlines (substrL str pi b)))]) ++
                      [SpintaxNode.choice cs]) := by
              rw [hstep, pushText_child ht1 hacc]
            obtain ⟨new3, hloop3, hraw3, hbr3⟩ := ihB str (b + j + 2) q content
              ((acc ++ [SpintaxNode.text (String.mk
                (normalizeNewlines (substrL str pi b)))]) ++
                  [SpintaxNode.choice cs]) (by omega) hqs (by simp) hscanAfter
              (by have := pclNeed_lt (show q - (b + j + 2) + 2 ≤ q - pi by omega)
                  omega)
            refine ⟨SpintaxNode.text (String.mk
              (normalizeNewlines (substrL str pi b))) ::
                SpintaxNode.choice cs :: new3, ?_, ?_, ?_⟩
            · rw [hstep2, hloop3]
              simp only [List.append_assoc, List.cons_append, List.nil_append]
            · simp [rawOptChildren, ht1, plain_norm hplainseg, noCRLF_norm,
                hcanoncs, hraw3]
            · rw [generateConcat_cons, strData_append, bracesOf_append,
                show generateSpintax (SpintaxNode.text (String.mk
                  (normalizeNewlines (substrL str pi b)))) =
                  String.mk (normalizeNewlines (substrL str pi b)) from rfl,
                braces_nil_of_plain (plain_norm hplainseg), List.nil_append,
                generateConcat_cons, strData_append, bracesOf_append,
                hbrcs, hbr3, hbr]
        · obtain ⟨_, _, _, _, hfreeb⟩ := findIdxFrom_decomp hfind
          have hsub : substrL str pi q = (substrL str pi b).take (q - pi) := by
            rw [substrL, substrL, List.take_take, Nat.min_eq_left (by omega)]
          have hfree : (substrL str pi q).all (fun a => !(a = lbrace)) = true := by
            rw [hsub]
            exact all_take hfreeb _
          exact poclNoBrace content acc hlt hacc hscan hfree
            (nextBrace_none_of_far hfind hbq)
  · refine ⟨[], ?_, rfl, ?_⟩
    · rw [pocLoop_stop f str q pi content acc hlt, List.append_nil]
    · show bracesOf (generateConcat []).data = _
      rw [substrL, show q - pi = 0 by omega]
      rfl

theorem poclCanonA_step {f : Nat} (ihPcc : pccCanon f) (ihB : poclCanonB f) :
    poclCanonA (f + 1) := by
  intro str pi q hpq hqs hscan hfuel
  by_cases hlt : pi < q
  · have hnoBrace : ∀ hnb : (match findIdxFrom str lbrace pi with
        | some b => if b < q then some b else none
        | none => none) = (none : Option Nat),
        (substrL str pi q).all (fun a => !(a = lbrace)) = true →
        ∃ c2 new, pocLoop (f + 1) str q pi "" [] = (c2, new) ∧
          plainStr c2 = true ∧ noCRLF c2 = true ∧
          rawOptChildren true new = true ∧
          bracesOf (generateConcat new).data = bracesOf (substrL str pi q) := by
      intro hnb hfree
      obtain ⟨hplainseg, _⟩ := scanOpt_free_prefix (substrL str pi q) [] hfree
        (by intro hc; rw [List.append_nil, hscan] at hc; cases hc)
      rw [pocLoop_step_none f str q pi "" [] hlt hnb]
      refine ⟨String.mk (normalizeNewlines (substrL str pi q)), [],
        pushText_start _, plain_norm hplainseg, noCRLF_norm _, rfl, ?_⟩
      rw [braces_nil_of_free
        (fun x hx => ⟨(hplainseg x hx).1, (hplainseg x hx).2.1⟩)]
      rfl
    cases hfind : findIdxFrom str lbrace pi with
    | none =>
        refine hnoBrace (nextBrace_none_of_none hfind) ?_
        show ((str.drop pi).take (q - pi)).all _ = true
        exact all_take (findIdxFrom_none_decomp hfind) _
    | some b =>
        by_cases hbq : b < q
        · obtain ⟨j, hplainseg, hpin, hget, hscl, hle, hscanAfter, hbr⟩ :=
            regionAnalysis hpq hqs hscan hfind hbq
          obtain ⟨cs, hpc, hcanoncs, hbrcs⟩ := ihPcc str b j hget hscl
            (by have := pclNeed_ge_pcNeedJ (show j + 2 ≤ q - pi by omega); omega)
          have hnb := nextBrace_some hfind hbq
          have hstep := pocLoop_step_choice f str q pi b "" [] cs
            (b + j + 2) hlt hnb hpc
          have hstep2 : pocLoop (f + 1) str q pi "" [] =
              pocLoop f str q (b + j + 2)
                (String.mk (normalizeNewlines (substrL str pi b)))
                [SpintaxNode.choice cs] := by
            rw [hstep, pushText_start]
            rfl
          obtain ⟨new2, hloop2A, hraw2, hbr2⟩ := ihB str (b + j + 2) q
            (String.mk (normalizeNewlines (substrL str pi b)))
            [SpintaxNode.choice cs] (by omega) hqs (by simp) hscanAfter
            (by have := pclNeed_lt (show q - (b + j + 2) + 2 ≤ q - pi by omega)
                omega)
          refine ⟨String.mk (normalizeNewlines (substrL str pi b)),
            SpintaxNode.choice cs :: new2, ?_, plain_norm hplainseg,
            noCRLF_norm _, ?_, ?_⟩
          · rw [hstep2, hloop2A, List.singleton_append]
          · simp only [rawOptChildren, Bool.and_eq_true]
            exact ⟨hcanoncs, hraw2⟩
          · rw [generateConcat_cons, strData_append, bracesOf_append,
              hbrcs, hbr2, hbr]
        · obtain ⟨_, _, _, _, hfreeb⟩ := findIdxFrom_decomp hfind
          have hsub : substrL str pi q = (substrL str pi b).take (q - pi) := by
            rw [substrL, substrL, List.take_take, Nat.min_eq_left (by omega)]
          refine hnoBrace (nextBrace_none_of_far hfind hbq) ?_
          rw [hsub]
          exact all_take hfreeb _
  · refine ⟨"", [], pocLoop_stop f str q pi "" [] hlt, by decide, by decide,
      rfl, ?_⟩
    show bracesOf (generateConcat []).data = _
    rw [substrL, show q - pi = 0 by omega]
    rfl

theorem pcLoop_step_open (f : Nat) (str : List Char) (i os depth : Nat)
    (acc : List SpintaxNode) (hget : str.get? i = some lbrace) :
    pcLoop (f + 1) str i os depth acc =
      pcLoop f str (i + 1) os (depth + 1) acc := by
  rw [pcLoop]
  simp only [hget]
  rw [if_pos trivial]

theorem pcLoop_step_closeDeep (f : Nat) (str : List Char) (i os depth : Nat)
    (acc : List SpintaxNode) (hget : str.get? i = some rbrace)
    (hd : ¬ depth = 1) :
    pcLoop (f + 1) str i os depth acc =
      pcLoop f str (i + 1) os (depth - 1) acc := by
  rw [pcLoop]
  simp only [hget]
  rw [if_pos trivial, if_neg hd, if_neg rbrace_ne_lbrace]

theorem pcLoop_step_other (f : Nat) (str : List Char) (i os depth : Nat)
    (acc : List SpintaxNode) {c : Char} (hget : str.get? i = some c)
    (h1 : ¬ c = lbrace) (h2 : ¬ c = rbrace)
    (h3 : ¬ (c = pipeChar ∧ depth = 1)) :
    pcLoop (f + 1) str i os depth acc =
      pcLoop f str (i + 1) os depth acc := by
  rw [pcLoop]
  simp only [hget]
  rw [if_neg h1, if_neg h2, if_neg h3]

theorem pclCanon_step {f : Nat} (ihPoc : pocCanon f) (ihPcl : pclCanon f) :
    pclCanon (f + 1) := by
  intro str i os depth j acc hoi hso hscl hfuel
  cases hd : str.drop i with
  | nil =>
      rw [hd, scanClose_nil] at hscl
      cases hscl
  | cons c r =>
      have hget : str.get? i = some c := get?_of_drop_cons hd
      have hilen : i < str.length := lt_length_of_drop_cons hd
      have hr : str.drop (i + 1) = r := drop_succ_of_drop_cons hd
      by_cases h1 : c = lbrace
      · subst h1
        rw [hd, scanClose_lbrace] at hscl
        cases hscl2 : scanClose r (depth + 1) with
        | none => rw [hscl2] at hscl; cases hscl
        | some j2 =>
            rw [hscl2] at hscl
            simp at hscl
            have hso2 : scanOpt (substrL str os (i + 1)) 1 =
                some (depth + 1) := by
              rw [substr_snoc hoi hget, scanOpt_append, hso]
              show scanOpt [lbrace] depth = some (depth + 1)
              rw [scanOpt_lbrace]
              rfl
            have hscl3 : scanClose (str.drop (i + 1)) (depth + 1) = some j2 := by
              rw [hr]
              exact hscl2
            obtain ⟨newOpts, hloop, hne, hcanon, hbr⟩ :=
              ihPcl str (i + 1) os (depth + 1) j2 acc (by omega) hso2 hscl3
                (by unfold scanNeed at hfuel ⊢
                    rw [show i + 1 - os + j2 = i - os + j by omega]
                    omega)
            refine ⟨newOpts, ?_, hne, hcanon, ?_⟩
            · rw [pcLoop_step_open f str i os depth acc hget, hloop,
                show i + 1 + j2 + 1 = i + j + 1 by omega]
            · rw [hbr, show i + 1 + j2 = i + j by omega]
      · by_cases h2 : c = rbrace
        · subst h2
          by_cases hd1 : depth = 1
          · subst hd1
            rw [hd, scanClose_rbrace_one] at hscl
            simp at hscl
            subst hscl
            obtain ⟨hcanonO, hbrO⟩ := ihPoc str os i hoi (by omega) hso
              (by unfold scanNeed at hfuel
                  have he : pocNeed (i - os + 0) = pocNeed (i - os) := by
                    rw [Nat.add_zero]
                  omega)
            refine ⟨[parseOptionContent f str os i], ?_, by simp, ?_, ?_⟩
            · rw [pcLoop_step_close f str i os acc hget]
            · intro o ho
              simp at ho
              subst ho
              exact hcanonO
            · rw [show joinBar (generateEach [parseOptionContent f str os i]) =
                generateSpintax (parseOptionContent f str os i) from rfl, hbrO,
                Nat.add_zero]
          · rw [hd, scanClose_rbrace_deep r depth hd1] at hscl
            cases hscl2 : scanClose r (depth - 1) with
            | none => rw [hscl2] at hscl; cases hscl
            | some j2 =>
                rw [hscl2] at hscl
                simp at hscl
                have hso2 : scanOpt (substrL str os (i + 1)) 1 =
                    some (depth - 1) := by
                  rw [substr_snoc hoi hget, scanOpt_append, hso]
                  show scanOpt [rbrace] depth = some (depth - 1)
                  rw [scanOpt_rbrace _ _ hd1]
                  rfl
                have hscl3 : scanClose (str.drop (i + 1)) (depth - 1) =
                    some j2 := by
                  rw [hr]
                  exact hscl2
                obtain ⟨newOpts, hloop, hne, hcanon, hbr⟩ :=
                  ihPcl str (i + 1) os (depth - 1) j2 acc (by omega) hso2 hscl3
                    (by unfold scanNeed at hfuel ⊢
                        rw [show i + 1 - os + j2 = i - os + j by omega]
                        omega)
                refine ⟨newOpts, ?_, hne, hcanon, ?_⟩
                · rw [pcLoop_step_closeDeep f str i os depth acc hget hd1, hloop,
                    show i + 1 + j2 + 1 = i + j + 1 by omega]
                · rw [hbr, show i + 1 + j2 = i + j by omega]
        · by_cases h3 : c = pipeChar ∧ depth = 1
          · obtain ⟨hp, hd1⟩ := h3
            subst hp
            subst hd1
            rw [hd, scanClose_other r 1 pipe_ne_lbrace pipe_ne_rbrace] at hscl
            cases hscl2 : scanClose r 1 with
            | none => rw [hscl2] at hscl; cases hscl
            | some j2 =>
                rw [hscl2] at hscl
                simp at hscl
                obtain ⟨hcanonO, hbrO⟩ := ihPoc str os i hoi (by omega) hso
                  (by unfold scanNeed at hfuel
                      have := pocNeed_mono (show i - os ≤ i - os + j by omega)
                      omega)
                have hsub0 : substrL str (i + 1) (i + 1) = [] := by
                  rw [substrL, Nat.sub_self]
                  rfl
                have hscl3 : scanClose (str.drop (i + 1)) 1 = some j2 := by
                  rw [hr]
                  exact hscl2
                obtain ⟨newOpts2, hloop2, hne2, hcanon2, hbr2⟩ :=
                  ihPcl str (i + 1) (i + 1) 1 j2
                    (acc ++ [parseOptionContent f str os i]) (le_refl _)
                    (by rw [hsub0]; rfl) hscl3
                    (by unfold scanNeed at hfuel ⊢
                        have := pocNeed_mono
                          (show i + 1 - (i + 1) + j2 ≤ i - os + j by omega)
                        omega)
                refine ⟨parseOptionContent f str os i :: newOpts2, ?_,
                  by simp, ?_, ?_⟩
                · rw [pcLoop_step_pipe f str i os acc hget, hloop2,
                    List.append_assoc, List.singleton_append,
                    show i + 1 + j2 + 1 = i + j + 1 by omega]
                · intro o ho
                  rcases List.mem_cons.1 ho with ho | ho
                  · subst ho
                    exact hcanonO
                  · exact hcanon2 o ho
                · rcases newOpts2 with _ | ⟨o2, rest2⟩
                  · exact absurd rfl hne2
                  · rw [genJoin_data2, bracesOf_append, hbrO,
                      braces_skip pipe_ne_lbrace pipe_ne_rbrace, hbr2,
                      show i + 1 + j2 = i + j by omega,
                      substr_split hoi (show i ≤ i + j by omega),
                      substr_cons_of_get hget (show i < i + j by omega),
                      bracesOf_append,
                      braces_skip pipe_ne_lbrace pipe_ne_rbrace]
          · rw [hd, scanClose_other r depth h1 h2] at hscl
            cases hscl2 : scanClose r depth with
            | none => rw [hscl2] at hscl; cases hscl
            | some j2 =>
                rw [hscl2] at hscl
                simp at hscl
                have hso2 : scanOpt (substrL str os (i + 1)) 1 = some depth := by
                  rw [substr_snoc hoi hget, scanOpt_append, hso]
                  show scanOpt [c] depth = some depth
                  rw [scanOpt, if_neg h1, if_neg h2, if_neg h3]
                  rfl
                have hscl3 : scanClose (str.drop (i + 1)) depth = some j2 := by
                  rw [hr]
                  exact hscl2
                obtain ⟨newOpts, hloop, hne, hcanon, hbr⟩ :=
                  ihPcl str (i + 1) os depth j2 acc (by omega) hso2 hscl3
                    (by unfold scanNeed at hfuel ⊢
                        rw [show i + 1 - os + j2 = i - os + j by omega]
                        omega)
                refine ⟨newOpts, ?_, hne, hcanon, ?_⟩
                · rw [pcLoop_step_other f str i os depth acc hget h1 h2 h3,
                    hloop, show i + 1 + j2 + 1 = i + j + 1 by omega]
                · rw [hbr, show i + 1 + j2 = i + j by omega]

theorem lastCharOk_cons_node {x : SpintaxNode} {B : List SpintaxNode}
    (hB : B ≠ []) (h : lastCharOk B = true) : lastCharOk (x :: B) = true := by
  rw [show x :: B = [x] ++ B from rfl, lastCharOk_append hB]
  exact h

/-- The first normalized text child keeps the input's head character, so
the head hypothesis transfers. -/
theorem normTextHead {str : List Char} {p : Nat} (seg : List Char)
    (hhseg : seg.head? = (str.drop p).head?)
    (hh : ∀ c0, (str.drop p).head? = some c0 → isJsSpace c0 = false) :
    ∀ rest, headCharOk (SpintaxNode.text
      (String.mk (normalizeNewlines seg)) :: rest) = true := by
  intro rest
  apply headCharOk_cons_text
  intro c0 hc0
  cases hs : seg.head? with
  | none =>
      have hseg : seg = [] := by
        cases seg with
        | nil => rfl
        | cons a r => cases hs
      rw [hseg] at hc0
      exact Option.noConfusion (show (none : Option Char) = some c0 from hc0)
  | some c1 =>
      have hns : isJsSpace c1 = false := hh c1 (by rw [← hhseg]; exact hs)
      have hn := norm_head seg c1 hs hns
      rw [strMk_data] at hc0
      rw [hn] at hc0
      simp at hc0
      subst hc0
      exact hns

/-- The final normalized text child keeps the input's last character, so
the trailing-character hypothesis transfers. -/
theorem normTextLast {str : List Char} {p : Nat} (hp : p < str.length)
    (hlast : ∀ g, str.getLast? = some g → isJsSpace g = false) :
    lastCharOk [SpintaxNode.text (String.mk (normalizeNewlines
      (substrL str p str.length)))] = true := by
  have hdne : str.drop p ≠ [] := by
    intro he
    have hld := List.length_drop p str
    rw [he] at hld
    simp at hld
    omega
  by_cases hlit : String.mk (normalizeNewlines (substrL str p str.length)) = "\x7b"
  · rw [hlit]
    exact lastCharOk_lit_single
  · apply lastCharOk_text_single hlit
    intro g hg
    cases hgl : str.getLast? with
    | none =>
        have hnil : str = [] := List.getLast?_eq_none_iff.1 hgl
        rw [hnil] at hp
        simp at hp
    | some g1 =>
        have hns := hlast g1 hgl
        have h1 : (str.drop p).getLast? = some g1 := by
          rw [getLast?_drop_eq hdne]
          exact hgl
        have h2 : (substrL str p str.length).getLast? = some g1 := by
          rw [substr_self]
          exact h1
        have hn := norm_getLast _ g1 h2 hns
        rw [strMk_data] at hg
        rw [hn] at hg
        simp at hg
        subst hg
        exact hns

theorem psCanon_step {f : Nat} (ihPcc : pccCanon f) (ihPs : psCanon f) :
    psCanon (f + 1) := by
  intro str p acc hfuel
  by_cases hlt : p < str.length
  · cases hfi : findIdxFrom str lbrace p with
    | none =>
        have hfree : (str.drop p).all (fun a => !(a = lbrace)) = true :=
          findIdxFrom_none_decomp hfi
        have hdne : str.drop p ≠ [] := by
          intro he
          have hld := List.length_drop p str
          rw [he] at hld
          simp at hld
          omega
        have hsegne : substrL str p str.length ≠ [] := by
          rw [substr_self]
          exact hdne
        have hne := normStr_ne hsegne
        refine ⟨[SpintaxNode.text (String.mk (normalizeNewlines
          (substrL str p str.length)))], ?_, ?_, ?_, ?_, ?_⟩
        · rw [psLoop_step_end_text f str p acc hlt hfi hne]
        · by_cases hlit : String.mk (normalizeNewlines
              (substrL str p str.length)) = "\x7b"
          · rw [hlit]
            decide
          · have hfree2 : (substrL str p str.length).all
                (fun a => !(a = lbrace)) = true := by
              rw [substr_self]
              exact hfree
            rw [canonRootChildren, if_neg hlit]
            simp [hne, noLbrace_norm hfree2, noCRLF_norm, canonRootChildren]
        · rw [generateConcat_cons, strData_append, bracesOf_append,
            show generateSpintax (SpintaxNode.text (String.mk (normalizeNewlines
              (substrL str p str.length)))) = String.mk (normalizeNewlines
              (substrL str p str.length)) from rfl,
            strMk_data, norm_braces, substr_self,
            show bracesOf (generateConcat ([] : List SpintaxNode)).data =
              ([] : List Char) from rfl,
            List.append_nil]
        · intro hh
          exact normTextHead (substrL str p str.length)
            (by rw [substr_self]) hh []
        · intro hlast
          exact normTextLast hlt hlast
    | some nb =>
        obtain ⟨hpin, hget, hdec, hseglen, hsegfree⟩ := findIdxFrom_decomp hfi
        cases hscl : scanClose (str.drop (nb + 1)) 1 with
        | some j =>
            have hjlen : nb + j + 2 ≤ str.length := by
              obtain ⟨int, after, hsp, hil⟩ := scanClose_decomp _ _ _ hscl
              have hld := List.length_drop (nb + 1) str
              rw [hsp] at hld
              simp at hld
              omega
            obtain ⟨cs, hpc, hcanoncs, hbrcs⟩ := ihPcc str nb j hget hscl
              (by have := psNeed_ge_pcNeedJ
                    (show j + 2 ≤ str.length - p by omega)
                  omega)
            have hcsne : cs.length > 0 :=
              List.length_pos.2 (canonChoice_ne_nil hcanoncs)
            by_cases hgt : nb > p
            · have hsegne2 : substrL str p nb ≠ [] := by
                intro he
                rw [he] at hseglen
                simp at hseglen
                omega
              have htbne := normStr_ne hsegne2
              have hlitne : ¬ (String.mk (normalizeNewlines
                  (substrL str p nb))) = "\x7b" := by
                intro he
                have hdata := congrArg String.data he
                rw [strMk_data, lbrace_str_data] at hdata
                have hmem : lbrace ∈ normalizeNewlines (substrL str p nb) := by
                  rw [hdata]
                  exact List.mem_singleton.2 rfl
                rcases norm_mem _ _ hmem with hsp | hin
                · exact absurd hsp (by decide)
                · rw [List.all_eq_true] at hsegfree
                  have := hsegfree lbrace hin
                  simp at this
              obtain ⟨new2, hloop2, hcanon2, hbr2, hhead2, hlast2⟩ :=
                ihPs str (nb + j + 2)
                  ((acc ++ [SpintaxNode.text (String.mk (normalizeNewlines
                    (substrL str p nb)))]) ++ [SpintaxNode.choice cs])
                  (by have := psNeed_dec (show str.length - (nb + j + 2) <
                        str.length - p by omega)
                      omega)
              refine ⟨SpintaxNode.text (String.mk (normalizeNewlines
                (substrL str p nb))) :: SpintaxNode.choice cs :: new2,
                ?_, ?_, ?_, ?_, ?_⟩
              · rw [psLoop_step_choice_text f str p nb (nb + j + 2) acc cs hlt
                  hfi hgt htbne hcsne hpc, hloop2]
                simp
              · rw [canonRootChildren, if_neg hlitne]
                simp [htbne, noLbrace_norm hsegfree, noCRLF_norm,
                  canonRootChildren, hcanoncs, hcanon2]
              · rw [generateConcat_cons, strData_append, bracesOf_append,
                  generateConcat_cons, strData_append, bracesOf_append,
                  show generateSpintax (SpintaxNode.text (String.mk
                    (normalizeNewlines (substrL str p nb)))) =
                    String.mk (normalizeNewlines (substrL str p nb)) from rfl,
                  strMk_data, norm_braces, hbrcs, hbr2,
                  drop_eq_substr_append (show p ≤ nb from hpin),
                  drop_eq_substr_append (show nb ≤ nb + j + 2 by omega),
                  bracesOf_append, bracesOf_append]
              · intro hh
                exact normTextHead (substrL str p nb)
                  (by rw [substrL]; exact head?_take (by omega)) hh _
              · intro hlast
                apply lastCharOk_cons_node (by simp)
                cases new2 with
                | nil => exact lastCharOk_choice_single cs
                | cons y r =>
                    exact lastCharOk_cons_node (by simp) (hlast2 hlast)
            · have hnbp : nb = p := by omega
              subst hnbp
              obtain ⟨new2, hloop2, hcanon2, hbr2, hhead2, hlast2⟩ :=
                ihPs str (nb + j + 2) (acc ++ [SpintaxNode.choice cs])
                  (by have := psNeed_dec (show str.length - (nb + j + 2) <
                        str.length - nb by omega)
                      omega)
              refine ⟨SpintaxNode.choice cs :: new2, ?_, ?_, ?_, ?_, ?_⟩
              · rw [psLoop_step_choice_notext f str nb (nb + j + 2) acc cs hlt
                  hfi hcsne hpc, hloop2]
                simp
              · simp only [canonRootChildren, Bool.and_eq_true]
                exact ⟨hcanoncs, hcanon2⟩
              · rw [generateConcat_cons, strData_append, bracesOf_append,
                  hbrcs, hbr2,
                  drop_eq_substr_append (show nb ≤ nb + j + 2 by omega),
                  bracesOf_append]
              · intro _
                rfl
              · intro hlast
                cases new2 with
                | nil => exact lastCharOk_choice_single cs
                | cons y r =>
                    exact lastCharOk_cons_node (by simp) (hlast2 hlast)
        | none =>
            rcases hp2 : parseChoice f str nb with ⟨r1, r2⟩
            have hr1 : r1 = none := by
              have := parseChoice_none f hscl
              rw [hp2] at this
              exact this
            subst hr1
            by_cases hgt : nb > p
            · have hsegne2 : substrL str p nb ≠ [] := by
                intro he
                rw [he] at hseglen
                simp at hseglen
                omega
              have htbne := normStr_ne hsegne2
              have hlitne : ¬ (String.mk (normalizeNewlines
                  (substrL str p nb))) = "\x7b" := by
                intro he
                have hdata := congrArg String.data he
                rw [strMk_data, lbrace_str_data] at hdata
                have hmem : lbrace ∈ normalizeNewlines (substrL str p nb) := by
                  rw [hdata]
                  exact List.mem_singleton.2 rfl
                rcases norm_mem _ _ hmem with hsp | hin
                · exact absurd hsp (by decide)
                · rw [List.all_eq_true] at hsegfree
                  have := hsegfree lbrace hin
                  simp at this
              obtain ⟨new2, hloop2, hcanon2, hbr2, hhead2, hlast2⟩ :=
                ihPs str (nb + 1)
                  ((acc ++ [SpintaxNode.text (String.mk (normalizeNewlines
                    (substrL str p nb)))]) ++ [SpintaxNode.text "\x7b"])
                  (by have := psNeed_dec (show str.length - (nb + 1) <
                        str.length - p by omega)
                      omega)
              have hdc : depthCloses (generateConcat new2).data 1 = false := by
                rw [depthCloses_eq_braces, hbr2, ← depthCloses_eq_braces]
                unfold depthCloses
                rw [hscl]
                rfl
              have e0 : bracesOf [lbrace] = [lbrace] := by decide
              have e1 : bracesOf (lbrace :: str.drop (nb + 1)) =
                  lbrace :: bracesOf (str.drop (nb + 1)) := by
                rw [braces_cons, if_pos (Or.inl rfl)]
              refine ⟨SpintaxNode.text (String.mk (normalizeNewlines
                (substrL str p nb))) :: SpintaxNode.text "\x7b" :: new2,
                ?_, ?_, ?_, ?_, ?_⟩
              · rw [psLoop_step_fail_text f str p nb r2 acc hlt hfi hgt htbne
                  hp2, hloop2]
                simp
              · rw [canonRootChildren, if_neg hlitne]
                simp [htbne, noLbrace_norm hsegfree, noCRLF_norm,
                  canonRootChildren, hdc, hcanon2]
              · rw [generateConcat_cons, strData_append, bracesOf_append,
                  generateConcat_cons, strData_append, bracesOf_append,
                  show generateSpintax (SpintaxNode.text (String.mk
                    (normalizeNewlines (substrL str p nb)))) =
                    String.mk (normalizeNewlines (substrL str p nb)) from rfl,
                  show generateSpintax (SpintaxNode.text "\x7b") =
                    "\x7b" from rfl,
                  strMk_data, norm_braces, lbrace_str_data, e0, hbr2,
                  drop_eq_substr_append (show p ≤ nb from hpin),
                  drop_cons_of_get? hget, bracesOf_append, e1,
                  List.singleton_append]
              · intro hh
                exact normTextHead (substrL str p nb)
                  (by rw [substrL]; exact head?_take (by omega)) hh _
              · intro hlast
                apply lastCharOk_cons_node (by simp)
                cases new2 with
                | nil => exact lastCharOk_lit_single
                | cons y r =>
                    exact lastCharOk_cons_node (by simp) (hlast2 hlast)
            · have hnbp : nb = p := by omega
              subst hnbp
              obtain ⟨new2, hloop2, hcanon2, hbr2, hhead2, hlast2⟩ :=
                ihPs str (nb + 1) (acc ++ [SpintaxNode.text "\x7b"])
                  (by have := psNeed_dec (show str.length - (nb + 1) <
                        str.length - nb by omega)
                      omega)
              have hdc : depthCloses (generateConcat new2).data 1 = false := by
                rw [depthCloses_eq_braces, hbr2, ← depthCloses_eq_braces]
                unfold depthCloses
                rw [hscl]
                rfl
              have e0 : bracesOf [lbrace] = [lbrace] := by decide
              have e1 : bracesOf (lbrace :: str.drop (nb + 1)) =
                  lbrace :: bracesOf (str.drop (nb + 1)) := by
                rw [braces_cons, if_pos (Or.inl rfl)]
              refine ⟨SpintaxNode.text "\x7b" :: new2, ?_, ?_, ?_, ?_, ?_⟩
              · rw [psLoop_step_fail_notext f str nb r2 acc hlt hfi hp2, hloop2]
                simp
              · rw [canonRootChildren, if_pos rfl]
                simp [hdc, hcanon2]
              · rw [generateConcat_cons, strData_append, bracesOf_append,
                  show generateSpintax (SpintaxNode.text "\x7b") =
                    "\x7b" from rfl,
                  lbrace_str_data, e0, hbr2, drop_cons_of_get? hget, e1,
                  List.singleton_append]
              · intro _
                exact headCharOk_cons_lit new2
              · intro hlast
                cases new2 with
                | nil => exact lastCharOk_lit_single
                | cons y r =>
                    exact lastCharOk_cons_node (by simp) (hlast2 hlast)
  · refine ⟨[], ?_, rfl, ?_, fun _ => rfl, fun _ => rfl⟩
    · rw [psLoop_stop f str p acc hlt, List.append_nil]
    · have hde : str.drop p = [] := List.drop_eq_nil_of_le (by omega)
      rw [hde]
      rfl

/-- All six parser canonicity invariants hold at every fuel. -/
theorem parserCanon : ∀ fuel : Nat, pocCanon fuel ∧ poclCanonA fuel ∧
    poclCanonB fuel ∧ pclCanon fuel ∧ pccCanon fuel ∧ psCanon fuel := by
  intro fuel
  induction fuel with
  | zero => exact parserCanon_zero
  | succ f ih =>
      obtain ⟨hpoc, hA, hB, hpcl, hpcc, hps⟩ := ih
      exact ⟨pocCanon_step hA, poclCanonA_step hpcc hB, poclCanonB_step hpcc hB,
        pclCanon_step hpoc hpcl, pccCanon_step hpcl, psCanon_step hpcc hps⟩

theorem canonRoot_tail {tf : Bool} {x : SpintaxNode} {rest : List SpintaxNode}
    (h : canonRootChildren tf (x :: rest) = true) :
    ∃ tf2, canonRootChildren tf2 rest = true := by
  cases x with
  | text t =>
      by_cases hl : t = "\x7b"
      · subst hl
        exact ⟨false, (canonRoot_lit_parts h).2⟩
      · exact ⟨true, (canonRoot_text_parts hl h).2.2.2.2⟩
  | choice cs => exact ⟨false, (canonRoot_choice_parts h).2⟩
  | option c ch => simp [canonRootChildren] at h
  | root ch => simp [canonRootChildren] at h

theorem canonRoot_head_ne {tf : Bool} {x : SpintaxNode} {rest : List SpintaxNode}
    (h : canonRootChildren tf (x :: rest) = true) :
    (generateSpintax x).data ≠ [] := by
  cases x with
  | text t =>
      by_cases hl : t = "\x7b"
      · subst hl
        show ("\x7b" : String).data ≠ []
        rw [lbrace_str_data]
        simp
      · show t.data ≠ []
        exact data_ne_nil (canonRoot_text_parts hl h).2.1
  | choice cs =>
      rw [genChoice_data (canonRoot_choice_parts h).1]
      simp
  | option c ch => simp [canonRootChildren] at h
  | root ch => simp [canonRootChildren] at h

theorem genConcat_ne_nil : ∀ (new : List SpintaxNode) (tf : Bool),
    canonRootChildren tf new = true → new ≠ [] →
    (generateConcat new).data ≠ [] := by
  intro new tf h hne
  cases new with
  | nil => exact absurd rfl hne
  | cons x rest =>
      rw [genConcat_data]
      intro he
      exact canonRoot_head_ne h (List.append_eq_nil.1 he).1

theorem genConcat_empty_eq_nil {new : List SpintaxNode} {tf : Bool}
    (h : canonRootChildren tf new = true)
    (he : generateConcat new = "") : new = [] := by
  by_cases hn : new = []
  · exact hn
  · exact absurd (congrArg String.data he) (genConcat_ne_nil new tf h hn)

theorem genConcat_head_nonspace {new : List SpintaxNode} {tf : Bool}
    (hcanon : canonRootChildren tf new = true) (hhead : headCharOk new = true) :
    ∀ c0, (generateConcat new).data.head? = some c0 → isJsSpace c0 = false := by
  intro c0 hc0
  cases new with
  | nil => exact Option.noConfusion (show (none : Option Char) = some c0 from hc0)
  | cons x rest =>
      rw [genConcat_data] at hc0
      cases x with
      | text t =>
          cases ht : t.data with
          | nil => exact absurd ht (canonRoot_head_ne hcanon)
          | cons a r =>
              rw [show generateSpintax (SpintaxNode.text t) = t from rfl, ht,
                List.cons_append] at hc0
              simp at hc0
              subst hc0
              have hmt : (match t.data with
                  | [] => true
                  | c :: _ => !isJsSpace c) = true := hhead
              rw [ht] at hmt
              simp at hmt
              exact hmt
      | choice cs =>
          rw [genChoice_data (canonRoot_choice_parts hcanon).1,
            List.cons_append] at hc0
          simp at hc0
          subst hc0
          decide
      | option c ch => simp [canonRootChildren] at hcanon
      | root ch => simp [canonRootChildren] at hcanon

theorem genConcat_last_nonspace : ∀ (new : List SpintaxNode) (tf : Bool),
    canonRootChildren tf new = true → lastCharOk new = true →
    ∀ g, (generateConcat new).data.getLast? = some g → isJsSpace g = false := by
  intro new
  induction new with
  | nil =>
      intro tf _ _ g hg
      exact Option.noConfusion (show (none : Option Char) = some g from hg)
  | cons x rest ih =>
      intro tf hcanon hlast g hg
      cases rest with
      | nil =>
          rw [genConcat_data,
            show (generateConcat ([] : List SpintaxNode)).data =
              ([] : List Char) from rfl, List.append_nil] at hg
          cases x with
          | text t =>
              by_cases hl : t = "\x7b"
              · subst hl
                rw [show generateSpintax (SpintaxNode.text "\x7b") =
                  "\x7b" from rfl, lbrace_str_data] at hg
                simp at hg
                subst hg
                decide
              · have hml : (if t = "\x7b" then true else
                    match t.data.getLast? with
                    | some c => !isJsSpace c
                    | none => true) = true := hlast
                rw [if_neg hl] at hml
                rw [show generateSpintax (SpintaxNode.text t) = t from rfl] at hg
                rw [hg] at hml
                simp at hml
                exact hml
          | choice cs =>
              rw [genChoice_data (canonRoot_choice_parts hcanon).1] at hg
              rw [List.getLast?_concat] at hg
              simp at hg
              subst hg
              decide
          | option c ch => simp [canonRootChildren] at hcanon
          | root ch => simp [canonRootChildren] at hcanon
      | cons y rest2 =>
          obtain ⟨tf2, hc2⟩ := canonRoot_tail hcanon
          have hrne : (generateConcat (y :: rest2)).data ≠ [] :=
            genConcat_ne_nil _ tf2 hc2 (by simp)
          rw [genConcat_data, List.getLast?_append] at hg
          have hl2 : lastCharOk (y :: rest2) = true := by
            have h3 : lastCharOk ([x] ++ (y :: rest2)) =
                lastCharOk (y :: rest2) := lastCharOk_append (by simp)
            rw [← h3]
            exact hlast
          cases hx : (generateConcat (y :: rest2)).data.getLast? with
          | none => exact absurd (List.getLast?_eq_none_iff.1 hx) hrne
          | some z =>
              rw [hx] at hg
              simp at hg
              subst hg
              exact ih tf2 hc2 hl2 z hx

/-- C2: For every input string s, if T = parseSpintax(s) then
parseSpintax(generateSpintax(T)) is structurally equal to T — round-trip
stability on parser-produced trees. -/
theorem C2_round_trip (s : String) :
    parseSpintax (generateSpintax (parseSpintax s)) = parseSpintax s := by
  by_cases hs : s = ""
  · subst hs
    rfl
  · have hps : parseSpintax s = .root (psLoop
        (((trimL s.data).length + 2) * ((trimL s.data).length + 2))
        (trimL s.data) 0 []) := by
      rw [parseSpintax, if_neg hs]
    obtain ⟨new, hloop, hcanon, hbr, hheadI, hlastI⟩ :=
      (parserCanon (((trimL s.data).length + 2) *
        ((trimL s.data).length + 2))).2.2.2.2.2 (trimL s.data) 0 []
        (by have hw := wired_ge_psNeed (trimL s.data).length
            have h2 : (trimL s.data).length - 0 = (trimL s.data).length := by
              omega
            rw [h2]
            exact hw)
    have hhead : headCharOk new = true := hheadI (by
      intro c0 hc0
      rw [List.drop_zero] at hc0
      exact trimL_head_false hc0)
    have hlast : lastCharOk new = true := hlastI (by
      intro g hg
      exact trimL_getLast_false hg)
    have hT : parseSpintax s = .root new := by
      rw [hps, hloop, List.nil_append]
    have hgen : generateSpintax (parseSpintax s) = generateConcat new := by
      rw [hT]
      rfl
    rw [hgen, hT]
    by_cases hge : generateConcat new = ""
    · have hnil := genConcat_empty_eq_nil hcanon hge
      subst hnil
      rw [hge]
      rfl
    · rw [parseSpintax, if_neg hge]
      show SpintaxNode.root (psLoop
        (((trimL (generateConcat new).data).length + 2) *
          ((trimL (generateConcat new).data).length + 2))
        (trimL (generateConcat new).data) 0 []) = SpintaxNode.root new
      have htrim : trimL (generateConcat new).data =
          (generateConcat new).data :=
        trimL_eq_self (genConcat_head_nonspace hcanon hhead)
          (genConcat_last_nonspace new false hcanon hlast)
      rw [htrim]
      have hre := psLoop_reparse_aux new.length new (le_refl _) false hcanon
        (generateConcat new).data 0
        (((generateConcat new).data.length + 2) *
          ((generateConcat new).data.length + 2)) []
        (by rw [List.drop_zero]) (wired_ge_psNeed _)
      rw [hre, List.nil_append]
